import Mathlib

/-!
Verification of the Maze-Visualizer grid algorithm engine.

The JavaScript source stores positions as strings of the shape "row-col".
That encoding is injective on integer pairs, so positions are modelled as
pairs of integers (`Pos`) and string equality as equality of `Pos`.  When the
source re-parses such a string with split('-') followed by Number(...),
negative components are mangled (Number('') is 0 and the sign splits off as
an empty token); `reparse` reproduces that exact behaviour.  It is the
identity on nonnegative components, which is the regime every in-bounds cell
lives in.

The UI callbacks updateVisited / updatePath are modelled as accumulated event
lists (`visitTrace`, and the path itself for updatePath, which fires once per
path cell in path order).  Animation delays and wall-clock execution time are
not modelled.  The `expanded` field is a ghost accumulator recording, in
order, the cells that were removed from the frontier and processed; it does
not influence the computation.

Choices drawn from Math.random() are modelled by an explicit list of naturals
consumed left to right: where the source draws Math.floor(Math.random()*k),
the model uses v % k with v the next list element (ranging over exactly the
candidates the source can draw, so quantifying over all choice lists covers
all possible runs).  Loops whose termination is not structural take explicit
fuel; the fuel passed by the wrappers is proved sufficient below.
-/

/-- Grid position, the row/col pair the source keeps as the string "row-col". -/
structure Pos where
  row : Int
  col : Int
deriving DecidableEq, Repr

/-- Result of re-parsing the string key "row-col" via split('-') and
Number(...): nonnegative pairs round-trip, a negative row turns into
row 0 / col |row| (the empty first token parses as 0 and the digits of the
row land in the column slot), and a negative column parses as 0. -/
def reparse (p : Pos) : Pos :=
  if p.row < 0 then ⟨0, -p.row⟩
  else ⟨p.row, if p.col < 0 then 0 else p.col⟩

/-- Bounds check used by every algorithm: 0 <= row < gridSize and likewise
for the column. -/
def inB (N : Nat) (p : Pos) : Prop :=
  0 ≤ p.row ∧ p.row < (N : Int) ∧ 0 ≤ p.col ∧ p.col < (N : Int)

instance (N : Nat) (p : Pos) : Decidable (inB N p) := by
  unfold inB; exact inferInstance

/-- Offset application: [dx, dy] added to the (re-parsed) current row/col. -/
def moveP (p : Pos) (d : Int × Int) : Pos := ⟨p.row + d.1, p.col + d.2⟩

/-- Neighbor offsets of breadthFirstSearch: up, right, down, left. -/
def bfsDirections : List (Int × Int) := [(-1, 0), (0, 1), (1, 0), (0, -1)]

/-- Neighbor offsets of depthFirstSearch: down, right, left, up. -/
def dfsDirections : List (Int × Int) := [(1, 0), (0, 1), (0, -1), (-1, 0)]

/-- Neighbor offsets of depthFirstSearchTopDown: down, up, right, left. -/
def dfsTopDownDirections : List (Int × Int) := [(1, 0), (-1, 0), (0, 1), (0, -1)]

/-- Neighbor offsets of dijkstra: up, right, down, left. -/
def dijkstraDirections : List (Int × Int) := [(-1, 0), (0, 1), (1, 0), (0, -1)]

/-- Result shape of breadthFirstSearch and depthFirstSearch
({pathFound, path, visitedCount, pathLength}), extended with the callback
trace and the ghost expansion list. -/
structure SearchResult where
  pathFound : Bool
  path : List Pos
  visitedCount : Nat
  pathLength : Nat
  visitTrace : List Pos
  expanded : List Pos
deriving DecidableEq, Repr

/-- Result shape of dijkstra and depthFirstSearchTopDown, which additionally
return a success field (executionTime, pure wall-clock, is not modelled). -/
structure FlaggedResult where
  pathFound : Bool
  path : List Pos
  visitedCount : Nat
  pathLength : Nat
  success : Bool
  visitTrace : List Pos
  expanded : List Pos
deriving DecidableEq, Repr

/-- Path reconstruction loop shared by all four algorithms: walk the parent
map back from the target, prepending each cell, until the start is reached.
The JavaScript loop crashes (or spins forever) if the parent chain is broken
or cyclic; that is modelled by `none` (fuel exhaustion or a missing parent). -/
def reconstructPath (parent : Pos → Option Pos) (s : Pos) : Nat → Pos → Option (List Pos)
  | 0, cur => if cur = s then some [] else none
  | fuel + 1, cur =>
    if cur = s then some []
    else
      match parent cur with
      | none => none
      | some p => (reconstructPath parent s fuel p).map (fun l => l ++ [cur])

/-! Breadth-first search (src/src/algorithms/breadthFirstSearch.js). -/

/-- Working state of the breadthFirstSearch main loop. -/
structure BfsState where
  queue : List Pos
  visited : Finset Pos
  parent : Pos → Option Pos
  visitedCount : Nat
  visitTrace : List Pos
  expanded : List Pos
  pathFound : Bool
  done : Bool

/-- One neighbor probe of breadthFirstSearch: bounds check, then wall and
visited check; an accepted neighbor is enqueued, marked visited immediately,
and given its parent. -/
def bfsEnqueue (N : Nat) (walls : List Pos) (current : Pos) (st : BfsState)
    (d : Int × Int) : BfsState :=
  let np := moveP (reparse current) d
  if inB N np then
    if np ∉ walls ∧ np ∉ st.visited then
      { st with
        queue := st.queue ++ [np]
        visited := insert np st.visited
        parent := fun q => if q = np then some current else st.parent q }
    else st
  else st

/-- One iteration of the breadthFirstSearch while loop: dequeue, count the
expansion, break on the target, otherwise report the visit (except for the
start cell) and probe the four neighbors in order. -/
def bfsStep (N : Nat) (walls : List Pos) (s t : Pos) (st : BfsState) : BfsState :=
  match st.queue with
  | [] => st
  | current :: rest =>
    let st1 := { st with
      queue := rest
      visitedCount := st.visitedCount + 1
      expanded := st.expanded ++ [current] }
    if current = t then { st1 with pathFound := true, done := true }
    else
      let st2 :=
        if current = s then st1
        else { st1 with visitTrace := st1.visitTrace ++ [reparse current] }
      bfsDirections.foldl (bfsEnqueue N walls current) st2

/-- The breadthFirstSearch while loop, with fuel. -/
def bfsLoop (N : Nat) (walls : List Pos) (s t : Pos) : Nat → BfsState → BfsState
  | 0, st => st
  | fuel + 1, st =>
    if st.done then st
    else
      match st.queue with
      | [] => st
      | _ :: _ => bfsLoop N walls s t fuel (bfsStep N walls s t st)

/-- Initial breadthFirstSearch state: the start cell is enqueued and marked
visited up front. -/
def bfsInit (s : Pos) : BfsState :=
  ⟨[s], {s}, fun _ => none, 0, [], [], false, false⟩

/-- The breadthFirstSearch algorithm.  `none` models a crash during path
reconstruction (it is proved below that this never happens). -/
def breadthFirstSearch (N : Nat) (startPos targetPos : Pos) (walls : List Pos) :
    Option SearchResult :=
  let st := bfsLoop N walls startPos targetPos (N * N + 2) (bfsInit startPos)
  if st.pathFound then
    match reconstructPath st.parent startPos (N * N + 2) targetPos with
    | none => none
    | some path =>
      some ⟨true, path, st.visitedCount, path.length, st.visitTrace, st.expanded⟩
  else some ⟨false, [], st.visitedCount, 0, st.visitTrace, st.expanded⟩

/-! Depth-first search (the plain variant, src/unnamed/part_003). -/

/-- Working state of the depthFirstSearch main loop. -/
structure DfsState where
  stack : List Pos
  visited : Finset Pos
  parent : Pos → Option Pos
  visitedCount : Nat
  visitTrace : List Pos
  expanded : List Pos
  pathFound : Bool
  done : Bool

/-- One neighbor probe of depth-first search: an accepted neighbor is pushed
(possibly a duplicate of an earlier push) and its parent is recorded only on
first discovery. -/
def dfsPush (N : Nat) (walls : List Pos) (current : Pos) (st : DfsState)
    (d : Int × Int) : DfsState :=
  let np := moveP (reparse current) d
  if inB N np then
    if np ∉ walls ∧ np ∉ st.visited then
      { st with
        stack := np :: st.stack
        parent := fun q =>
          if q = np then
            match st.parent np with
            | some p => some p
            | none => some current
          else st.parent q }
    else st
  else st

/-- One iteration of a depth-first while loop (shared by the plain and the
top-down variant, which differ only in their direction list): pop, skip an
already-visited cell, otherwise mark visited, count, break on the target,
report the visit (except for the start cell), and push the neighbors in
reverse direction order so the first direction ends on top of the stack. -/
def dfsStep (dirs : List (Int × Int)) (N : Nat) (walls : List Pos) (s t : Pos)
    (st : DfsState) : DfsState :=
  match st.stack with
  | [] => st
  | current :: rest =>
    if current ∈ st.visited then { st with stack := rest }
    else
      let st1 := { st with
        stack := rest
        visited := insert current st.visited
        visitedCount := st.visitedCount + 1
        expanded := st.expanded ++ [current] }
      if current = t then { st1 with pathFound := true, done := true }
      else
        let st2 :=
          if current = s then st1
          else { st1 with visitTrace := st1.visitTrace ++ [reparse current] }
        dirs.reverse.foldl (dfsPush N walls current) st2

/-- The depth-first while loop, with fuel. -/
def dfsLoop (dirs : List (Int × Int)) (N : Nat) (walls : List Pos) (s t : Pos) :
    Nat → DfsState → DfsState
  | 0, st => st
  | fuel + 1, st =>
    if st.done then st
    else
      match st.stack with
      | [] => st
      | _ :: _ => dfsLoop dirs N walls s t fuel (dfsStep dirs N walls s t st)

/-- Initial depth-first state: only the start cell is on the stack; nothing
is visited yet. -/
def dfsInit (s : Pos) : DfsState :=
  ⟨[s], ∅, fun _ => none, 0, [], [], false, false⟩

/-- The depthFirstSearch algorithm (plain variant, direction priority
down/right/left/up). -/
def depthFirstSearch (N : Nat) (startPos targetPos : Pos) (walls : List Pos) :
    Option SearchResult :=
  let st := dfsLoop dfsDirections N walls startPos targetPos (5 * N * N + 10)
    (dfsInit startPos)
  if st.pathFound then
    match reconstructPath st.parent startPos (N * N + 2) targetPos with
    | none => none
    | some path =>
      some ⟨true, path, st.visitedCount, path.length, st.visitTrace, st.expanded⟩
  else some ⟨false, [], st.visitedCount, 0, st.visitTrace, st.expanded⟩

/-- The depthFirstSearchTopDown algorithm (src/unnamed/part_004): direction
priority down/up/right/left, a start-equals-target short-circuit, and a
success field mirroring pathFound. -/
def depthFirstSearchTopDown (N : Nat) (startPos targetPos : Pos) (walls : List Pos) :
    Option FlaggedResult :=
  if startPos = targetPos then
    some ⟨true, [⟨startPos.row, startPos.col⟩], 1, 1, true, [], []⟩
  else
    let st := dfsLoop dfsTopDownDirections N walls startPos targetPos (5 * N * N + 10)
      (dfsInit startPos)
    if st.pathFound then
      match reconstructPath st.parent startPos (N * N + 2) targetPos with
      | none => none
      | some path =>
        some ⟨true, path, st.visitedCount, path.length, true, st.visitTrace, st.expanded⟩
    else some ⟨false, [], st.visitedCount, 0, false, st.visitTrace, st.expanded⟩

/-! Uniform-cost search (src/src/algorithms/dijkstra.js). -/

/-- Working state of the dijkstra main loop.  Distances live in
WithTop Nat (⊤ is the source's Infinity); a missing key, possible only for
out-of-bounds cells other than the start, is `none`. -/
structure DijkstraState where
  pq : List (Pos × WithTop Nat)
  dist : Pos → Option (WithTop Nat)
  prev : Pos → Option Pos
  visited : Finset Pos
  visitedCount : Nat
  visitTrace : List Pos
  expanded : List Pos
  done : Bool

/-- Stable insertion of a queue entry after all entries of smaller or equal
distance. -/
def insertEntry (e : Pos × WithTop Nat) :
    List (Pos × WithTop Nat) → List (Pos × WithTop Nat)
  | [] => [e]
  | x :: xs => if x.2 ≤ e.2 then x :: insertEntry e xs else e :: x :: xs

/-- Stable sort of the pending queue by distance, the model of the source's
priorityQueue.sort((a, b) => a.distance - b.distance) (JavaScript sort is
stable, and every entry ever pushed carries a finite distance). -/
def sortPQ (l : List (Pos × WithTop Nat)) : List (Pos × WithTop Nat) :=
  l.foldl (fun acc e => insertEntry e acc) []

/-- The comparison newDistance < distances[neighbor] of the source: any
comparison against a missing key (undefined) is false in JavaScript, as is
any comparison involving NaN from undefined + 1. -/
def ltOpt (a b : Option (WithTop Nat)) : Bool :=
  match a, b with
  | some x, some y => decide (x < y)
  | _, _ => false

/-- One neighbor probe of dijkstra: bounds, wall and visited check, then the
relaxation newDistance < distances[neighbor]; on success the neighbor's
distance and parent are updated and a queue entry is pushed. -/
def dijkstraRelax (N : Nat) (walls : List Pos) (current : Pos)
    (newD : Option (WithTop Nat)) (st : DijkstraState) (d : Int × Int) :
    DijkstraState :=
  let np := moveP (reparse current) d
  if inB N np then
    if np ∉ walls ∧ np ∉ st.visited then
      if ltOpt newD (st.dist np) then
        match newD with
        | some nd =>
          { st with
            dist := fun q => if q = np then some nd else st.dist q
            prev := fun q => if q = np then some current else st.prev q
            pq := st.pq ++ [(np, nd)] }
        | none => st
      else st
    else st
  else st

/-- One iteration of the dijkstra main loop: sort the pending queue, shift
the front entry, skip it if already processed, otherwise mark visited, count,
report the visit (except for the start cell), break on the target, and relax
the four neighbors. -/
def dijkstraStep (N : Nat) (walls : List Pos) (s t : Pos) (st : DijkstraState) :
    DijkstraState :=
  match sortPQ st.pq with
  | [] => st
  | (current, _) :: rest =>
    if current ∈ st.visited then { st with pq := rest }
    else
      let st1 := { st with
        pq := rest
        visited := insert current st.visited
        visitedCount := st.visitedCount + 1
        expanded := st.expanded ++ [current] }
      let st2 :=
        if current = s then st1
        else { st1 with visitTrace := st1.visitTrace ++ [reparse current] }
      if current = t then { st2 with done := true }
      else
        dijkstraDirections.foldl
          (dijkstraRelax N walls current ((st2.dist current).map (· + 1)) ) st2

/-- The dijkstra main loop, with fuel. -/
def dijkstraLoop (N : Nat) (walls : List Pos) (s t : Pos) :
    Nat → DijkstraState → DijkstraState
  | 0, st => st
  | fuel + 1, st =>
    if st.done then st
    else
      match st.pq with
      | [] => st
      | _ :: _ => dijkstraLoop N walls s t fuel (dijkstraStep N walls s t st)

/-- Initial dijkstra state: every in-bounds cell has distance Infinity, then
the start key is set to 0 (creating the key even out of bounds), and the
start entry is pushed. -/
def dijkstraInit (N : Nat) (s : Pos) : DijkstraState :=
  ⟨[(s, 0)],
    fun p => if p = s then some 0 else if inB N p then some ⊤ else none,
    fun _ => none, ∅, 0, [], [], false⟩

/-- The dijkstra algorithm.  pathFound is distances[target] !== Infinity,
which is also true for a missing key (undefined !== Infinity); in that case
the reconstruction walks a broken chain and the source crashes, modelled by
`none`. -/
def dijkstra (N : Nat) (startPos targetPos : Pos) (walls : List Pos) :
    Option FlaggedResult :=
  if startPos = targetPos then
    some ⟨true, [⟨startPos.row, startPos.col⟩], 1, 1, true, [], []⟩
  else
    let st := dijkstraLoop N walls startPos targetPos (5 * N * N + 10)
      (dijkstraInit N startPos)
    if st.dist targetPos = some ⊤ then
      some ⟨false, [], st.visitedCount, 0, false, st.visitTrace, st.expanded⟩
    else
      match reconstructPath st.prev startPos (N * N + 2) targetPos with
      | none => none
      | some path =>
        some ⟨true, path, st.visitedCount, path.length, true, st.visitTrace, st.expanded⟩

/-! Maze generation by randomized frontier (src/src/algorithms/primsAlgorithm.js). -/

/-- All cells of the N by N grid. -/
def gridCells (N : Nat) : Finset Pos :=
  (Finset.range N ×ˢ Finset.range N).image fun rc => ⟨(rc.1 : Int), (rc.2 : Int)⟩

/-- Working state of generateMazeWithPrims: the carved (visited) cells, the
frontier candidate list, the remaining random choices, and the step counter. -/
structure PrimState where
  visited : Finset Pos
  frontierCells : List Pos
  choices : List Nat
  generationSteps : Nat

/-- The step-2 neighbor offsets used by the generator. -/
def primOffsets : List (Int × Int) := [(-2, 0), (2, 0), (0, -2), (0, 2)]

/-- addNeighborsToFrontier of the source: each step-2 neighbor strictly
inside the border that is neither carved nor already a frontier candidate is
appended to the frontier. -/
def addNeighborsToFrontier (N : Nat) (row col : Int) (st : PrimState) : PrimState :=
  primOffsets.foldl
    (fun acc d =>
      let nr := row + d.1
      let nc := col + d.2
      if nr > 0 ∧ nr < (N : Int) - 1 ∧ nc > 0 ∧ nc < (N : Int) - 1 then
        if (⟨nr, nc⟩ : Pos) ∉ acc.visited ∧
            ¬ acc.frontierCells.any (fun q => q.row = nr ∧ q.col = nc) then
          { acc with frontierCells := acc.frontierCells ++ [⟨nr, nc⟩] }
        else acc
      else acc)
    st

/-- One iteration of the generateMazeWithPrims main loop: splice out a random
frontier candidate, collect its carved step-2 neighbors (full-grid bounds
check, in offset order), and if any exists carve the candidate together with
the wall cell midway to a randomly chosen carved neighbor and add the
candidate's own step-2 neighbors to the frontier. -/
def primsStep (N : Nat) (st : PrimState) : PrimState :=
  if st.frontierCells = [] then st
  else
    let len := st.frontierCells.length
    let idx := st.choices.headD 0 % len
    let cell := st.frontierCells.getD idx ⟨0, 0⟩
    let frontier1 := st.frontierCells.eraseIdx idx
    let choices1 := st.choices.tail
    let visitedNeighbors :=
      (primOffsets.map fun d => (⟨cell.row + d.1, cell.col + d.2⟩ : Pos)).filter
        (fun q => 0 ≤ q.row ∧ q.row < (N : Int) ∧ 0 ≤ q.col ∧ q.col < (N : Int) ∧
          q ∈ st.visited)
    if visitedNeighbors = [] then
      { st with frontierCells := frontier1, choices := choices1 }
    else
      let nb := visitedNeighbors.getD (choices1.headD 0 % visitedNeighbors.length) ⟨0, 0⟩
      let wall : Pos := ⟨(cell.row + nb.row) / 2, (cell.col + nb.col) / 2⟩
      addNeighborsToFrontier N cell.row cell.col
        { st with
          visited := insert wall (insert cell st.visited)
          frontierCells := frontier1
          choices := choices1.tail
          generationSteps := st.generationSteps + 1 }

/-- The generateMazeWithPrims main loop, with fuel. -/
def primsLoop (N : Nat) : Nat → PrimState → PrimState
  | 0, st => st
  | fuel + 1, st =>
    match st.frontierCells with
    | [] => st
    | _ :: _ => primsLoop N fuel (primsStep N st)

/-- Result shape of generateMazeWithPrims ({walls, passages, generationSteps,
visitedCells}; passages is returned as an empty set by the source). -/
structure PrimsResult where
  walls : Finset Pos
  passages : Finset Pos
  generationSteps : Nat
  visitedCells : Nat
deriving DecidableEq

/-- The generateMazeWithPrims algorithm: seed the junction (1,1), seed its
frontier, run the loop, then declare every never-carved grid cell a wall. -/
def generateMazeWithPrims (N : Nat) (choices : List Nat) : PrimsResult :=
  let st0 : PrimState := ⟨{(⟨1, 1⟩ : Pos)}, [], choices, 0⟩
  let st1 := addNeighborsToFrontier N 1 1 st0
  let st := primsLoop N (5 * N * N + 5) st1
  { walls := (gridCells N).filter fun c => c ∉ st.visited
    passages := ∅
    generationSteps := st.generationSteps
    visitedCells := st.visited.card }

/-! Maze generation by recursive division
(src/src/algorithms/recursiveDivision.js). -/

/-- createHorizontalWall of the source: walls along row wallRow from startCol
for width cells, skipping the passage column. -/
def createHorizontalWall (startCol wallRow width passageCol : Nat)
    (walls : Finset Pos) : Finset Pos :=
  (List.range width).foldl
    (fun w i =>
      let col := startCol + i
      if col ≠ passageCol then insert (⟨(wallRow : Int), (col : Int)⟩ : Pos) w else w)
    walls

/-- createVerticalWall of the source: walls along column wallCol from
startRow for height cells, skipping the passage row. -/
def createVerticalWall (wallCol startRow height passageRow : Nat)
    (walls : Finset Pos) : Finset Pos :=
  (List.range height).foldl
    (fun w i =>
      let row := startRow + i
      if row ≠ passageRow then insert (⟨(row : Int), (wallCol : Int)⟩ : Pos) w else w)
    walls

/-- recursiveDivide of the source: place one wall line with one random
passage across the region, then recurse into the two sub-regions with the
opposite orientation.  Returns the wall set and the remaining choices.  The
fuel bounds the recursion depth; every call strictly shrinks width + height,
so any fuel of at least width + height + 1 is exact. -/
def recursiveDivide : Nat → Nat → Nat → Nat → Nat → Bool → Finset Pos →
    List Nat → Finset Pos × List Nat
  | 0, _, _, _, _, _, walls, choices => (walls, choices)
  | fuel + 1, x, y, width, height, horizontal, walls, choices =>
    if width < 2 ∨ height < 2 then (walls, choices)
    else if horizontal then
      if height < 3 then (walls, choices)
      else
        let wallY := y + 1 + choices.headD 0 % (height - 2)
        let passageX := x + choices.tail.headD 0 % width
        let walls1 := createHorizontalWall x wallY width passageX walls
        let r1 := recursiveDivide fuel x y width (wallY - y) false walls1
          choices.tail.tail
        recursiveDivide fuel x (wallY + 1) width (height - (wallY - y + 1)) false
          r1.1 r1.2
    else
      if width < 3 then (walls, choices)
      else
        let wallX := x + 1 + choices.headD 0 % (width - 2)
        let passageY := y + choices.tail.headD 0 % height
        let walls1 := createVerticalWall wallX y height passageY walls
        let r1 := recursiveDivide fuel x y (wallX - x) height true walls1
          choices.tail.tail
        recursiveDivide fuel (wallX + 1) y (width - (wallX - x + 1)) height true
          r1.1 r1.2

/-- Border wall cells of the N by N grid, the initial wall set of
generateMazeWithRecursiveDivision. -/
def borderWalls (N : Nat) : Finset Pos :=
  (gridCells N).filter fun p =>
    p.row = 0 ∨ p.row = (N : Int) - 1 ∨ p.col = 0 ∨ p.col = (N : Int) - 1

/-- The generateMazeWithRecursiveDivision algorithm: border walls, then
classic recursive division of the interior starting with a horizontal cut.
Only the final wall set is modelled (the source additionally reports step
counts and animation snapshots). -/
def generateMazeWithRecursiveDivision (N : Nat) (choices : List Nat) : Finset Pos :=
  (recursiveDivide (2 * N) 1 1 (N - 2) (N - 2) true (borderWalls N) choices).1

/-! Graph-theoretic notions used to state correctness: the step the
algorithms take, walks in the grid, shortest walk lengths, and parent
chains. -/

/-- One axis-aligned step between two positions. -/
def adjP (p q : Pos) : Prop :=
  (p.row - q.row).natAbs + (p.col - q.col).natAbs = 1

instance (p q : Pos) : Decidable (adjP p q) := by
  unfold adjP; exact inferInstance

/-- A walk of the search graph from s, of the given length: every cell after
the first is in bounds and unblocked, and each step leaves from the re-parsed
form of its source cell (for in-bounds cells `reparse` is the identity). -/
inductive WalkLen (N : Nat) (walls : List Pos) (s : Pos) : Pos → Nat → Prop where
  | nil : WalkLen N walls s s 0
  | cons {u v : Pos} {n : Nat} : WalkLen N walls s u n → adjP (reparse u) v →
      inB N v → v ∉ walls → WalkLen N walls s v (n + 1)

/-- Reachability of t from s in the search graph. -/
def Reachable (N : Nat) (walls : List Pos) (s t : Pos) : Prop :=
  ∃ n, WalkLen N walls s t n

/-- The length of a shortest walk from s to t. -/
def IsShortest (N : Nat) (walls : List Pos) (s t : Pos) (ℓ : Nat) : Prop :=
  WalkLen N walls s t ℓ ∧ ∀ m, WalkLen N walls s t m → ℓ ≤ m

/-- Chain of recorded parents leading back to the start, as the
reconstruction loop walks it; each link is a valid search-graph step. -/
inductive PChain (par : Pos → Option Pos) (N : Nat) (walls : List Pos) (s : Pos) :
    Pos → Nat → Prop where
  | nil : PChain par N walls s s 0
  | cons {u v : Pos} {n : Nat} : PChain par N walls s u n → par v = some u →
      adjP (reparse u) v → inB N v → v ∉ walls → v ≠ s →
      PChain par N walls s v (n + 1)

/-- A parent chain is in particular a walk of the same length. -/
theorem pchain_walk {par : Pos → Option Pos} {N : Nat} {walls : List Pos}
    {s v : Pos} {n : Nat} (h : PChain par N walls s v n) : WalkLen N walls s v n := by
  induction h with
  | nil => exact WalkLen.nil
  | cons _ _ hadj hb hw _ ih => exact WalkLen.cons ih hadj hb hw

/-- Chains of a fixed parent map are deterministic: the chain length at a
cell is unique. -/
theorem pchain_unique {par : Pos → Option Pos} {N : Nat} {walls : List Pos}
    {s v : Pos} {n m : Nat} (h1 : PChain par N walls s v n)
    (h2 : PChain par N walls s v m) : n = m := by
  induction h1 generalizing m with
  | nil =>
    cases h2 with
    | nil => rfl
    | cons _ _ _ _ _ hne => exact absurd rfl hne
  | cons hc hp _ _ _ hne ih =>
    cases h2 with
    | nil => exact absurd rfl hne
    | cons hc' hp' _ _ _ _ =>
      rw [hp] at hp'
      cases hp'
      exact congrArg (· + 1) (ih hc')

/-- Updating the parent map at a key it has not yet assigned preserves every
existing chain. -/
theorem pchain_update {par : Pos → Option Pos} {N : Nat} {walls : List Pos}
    {s v w : Pos} {n : Nat} (hnone : par w = none)
    (h : PChain par N walls s v n) (u0 : Pos) :
    PChain (fun q => if q = w then some u0 else par q) N walls s v n := by
  induction h with
  | nil => exact PChain.nil
  | @cons u v n hc hp hadj hb hw hne ih =>
    refine PChain.cons ih ?_ hadj hb hw hne
    have hvw : v ≠ w := by
      rintro rfl
      rw [hnone] at hp
      cases hp
    show (if v = w then some u0 else par v) = some u
    rw [if_neg hvw, hp]

/-- A chain of length n passes through n + 1 distinct cells, each with a
chain of length at most n. -/
theorem pchain_nodes {par : Pos → Option Pos} {N : Nat} {walls : List Pos}
    {s v : Pos} {n : Nat} (h : PChain par N walls s v n) :
    ∃ S : Finset Pos, S.card = n + 1 ∧ v ∈ S ∧
      ∀ x ∈ S, ∃ k ≤ n, PChain par N walls s x k := by
  induction h with
  | nil =>
    refine ⟨{s}, by simp, by simp, ?_⟩
    intro x hx
    rw [Finset.mem_singleton] at hx
    subst hx
    exact ⟨0, Nat.le_refl 0, PChain.nil⟩
  | @cons u v n hc hp hadj hb hw hne ih =>
    obtain ⟨S, hcard, hmem, hall⟩ := ih
    have hv : v ∉ S := by
      intro hvS
      obtain ⟨k, hk, hchain⟩ := hall v hvS
      have := pchain_unique hchain (PChain.cons hc hp hadj hb hw hne)
      omega
    refine ⟨insert v S, ?_, Finset.mem_insert_self _ _, ?_⟩
    · rw [Finset.card_insert_of_not_mem hv, hcard]
    · intro x hx
      rcases Finset.mem_insert.mp hx with rfl | hx
      · exact ⟨n + 1, le_refl _, PChain.cons hc hp hadj hb hw hne⟩
      · obtain ⟨k, hk, hchain⟩ := hall x hx
        exact ⟨k, Nat.le_succ_of_le hk, hchain⟩

/-- Every cell of a chain is the start or a key of the parent map. -/
theorem pchain_mem {par : Pos → Option Pos} {N : Nat} {walls : List Pos}
    {s v : Pos} {n : Nat} (h : PChain par N walls s v n) :
    v = s ∨ par v ≠ none := by
  cases h with
  | nil => exact Or.inl rfl
  | cons _ hp _ _ _ _ => exact Or.inr (by rw [hp]; exact Option.some_ne_none _)

/-- The grid has exactly gridSize * gridSize cells. -/
theorem card_gridCells (N : Nat) : (gridCells N).card = N * N := by
  unfold gridCells
  rw [Finset.card_image_of_injOn, Finset.card_product, Finset.card_range]
  intro a _ b _ hab
  cases a; cases b
  simp only [Pos.mk.injEq] at hab
  simp only [Prod.mk.injEq]
  omega

/-- Membership in the grid cell set. -/
theorem mem_gridCells {N : Nat} {p : Pos} : p ∈ gridCells N ↔ inB N p := by
  obtain ⟨r, c⟩ := p
  unfold gridCells inB
  simp only [Finset.mem_image, Finset.mem_product, Finset.mem_range, Pos.mk.injEq]
  constructor
  · rintro ⟨⟨a, b⟩, ⟨ha, hb⟩, rfl, rfl⟩
    omega
  · rintro ⟨h1, h2, h3, h4⟩
    exact ⟨⟨r.toNat, c.toNat⟩, ⟨by omega, by omega⟩, by omega, by omega⟩

/-- Re-parsing is the identity on nonnegative coordinates, in particular on
in-bounds cells. -/
theorem reparse_id {p : Pos} (h1 : 0 ≤ p.row) (h2 : 0 ≤ p.col) : reparse p = p := by
  unfold reparse
  rw [if_neg (by omega), if_neg (by omega)]

/-- Re-parsing is the identity on in-bounds cells. -/
theorem reparse_id_inB {N : Nat} {p : Pos} (h : inB N p) : reparse p = p :=
  reparse_id h.1 h.2.2.1

/-- The four offsets of every direction list describe exactly the cells one
step away. -/
theorem adjP_iff_move {p q : Pos} :
    adjP p q ↔ ∃ d ∈ bfsDirections, q = moveP p d := by
  unfold adjP bfsDirections moveP
  constructor
  · intro h
    rcases p with ⟨pr, pc⟩
    rcases q with ⟨qr, qc⟩
    simp only [] at h
    simp only [List.mem_cons, List.mem_singleton, Pos.mk.injEq]
    by_cases h1 : qr = pr - 1 ∧ qc = pc
    · exact ⟨(-1, 0), by tauto, by simp; omega⟩
    · by_cases h2 : qr = pr ∧ qc = pc + 1
      · exact ⟨(0, 1), by tauto, by simp; omega⟩
      · by_cases h3 : qr = pr + 1 ∧ qc = pc
        · exact ⟨(1, 0), by tauto, by simp; omega⟩
        · exact ⟨(0, -1), by tauto, by simp; omega⟩
  · rintro ⟨d, hd, rfl⟩
    fin_cases hd <;> simp

/-- An in-bounds cell that is not a wall. -/
def openCell (N : Nat) (walls : List Pos) (p : Pos) : Prop := inB N p ∧ p ∉ walls

instance (N : Nat) (walls : List Pos) (p : Pos) : Decidable (openCell N walls p) := by
  unfold openCell; exact inferInstance

/-! Invariants of the breadth-first search loop. -/

/-- Invariant of the breadthFirstSearch loop state.  In particular the
discovered set splits into the expanded list and the pending queue, every
discovered cell carries a parent chain back to the start whose length is
minimal among all walks (opt), the queue holds at most two consecutive chain
levels in order (sorted), and every fully expanded cell has all its open
neighbors discovered (closure). -/
structure BfsInv (N : Nat) (walls : List Pos) (s t : Pos) (st : BfsState) : Prop where
  vis_eq : st.visited = (st.expanded ++ st.queue).toFinset
  nodup : (st.expanded ++ st.queue).Nodup
  start_mem : s ∈ st.visited
  mem_ok : ∀ p ∈ st.expanded ++ st.queue, p = s ∨ openCell N walls p
  chains : ∀ p ∈ st.visited, ∃ n, PChain st.parent N walls s p n
  parent_dom : ∀ p, st.parent p ≠ none → p ∈ st.visited ∧ p ≠ s
  parent_vals : ∀ p q, st.parent p = some q → q ∈ st.visited
  opt : ∀ p n, PChain st.parent N walls s p n → ∀ m, WalkLen N walls s p m → n ≤ m
  sorted : ∃ a A B, st.queue = A ++ B ∧
    (∀ p ∈ A, PChain st.parent N walls s p a) ∧
    (∀ p ∈ B, PChain st.parent N walls s p (a + 1))
  closure : st.done = false → ∀ p ∈ st.expanded, ∀ q, adjP (reparse p) q →
    inB N q → q ∉ walls → q ∈ st.visited
  done_eq : st.pathFound = st.done
  done_target : st.done = true → st.expanded.getLast? = some t
  target_done : t ∈ st.expanded → st.done = true
  count_eq : st.visitedCount = st.expanded.length
  trace_eq : st.visitTrace =
    (if st.done then st.expanded.dropLast else st.expanded).filter
      (fun c => decide (c ≠ s))

/-- Everything discovered lives in the grid, or is the start cell. -/
theorem BfsInv.visited_sub {N : Nat} {walls : List Pos} {s t : Pos} {st : BfsState}
    (h : BfsInv N walls s t st) : st.visited ⊆ insert s (gridCells N) := by
  intro p hp
  rw [h.vis_eq, List.mem_toFinset] at hp
  rcases h.mem_ok p hp with rfl | hopen
  · exact Finset.mem_insert_self _ _
  · exact Finset.mem_insert_of_mem (mem_gridCells.mpr hopen.1)

/-- The discovered set has at most gridSize * gridSize + 1 cells. -/
theorem BfsInv.visited_cap {N : Nat} {walls : List Pos} {s t : Pos} {st : BfsState}
    (h : BfsInv N walls s t st) : st.visited.card ≤ N * N + 1 := by
  have := Finset.card_le_card h.visited_sub
  have hc := Finset.card_insert_le s (gridCells N)
  rw [card_gridCells] at hc
  omega

/-- The invariant holds for the initial state. -/
theorem bfsInv_init (N : Nat) (walls : List Pos) (s t : Pos) :
    BfsInv N walls s t (bfsInit s) where
  vis_eq := by simp [bfsInit]
  nodup := by simp [bfsInit]
  start_mem := by simp [bfsInit]
  mem_ok := by
    intro p hp
    simp only [bfsInit, List.nil_append, List.mem_singleton] at hp
    exact Or.inl hp
  chains := by
    intro p hp
    simp only [bfsInit, Finset.mem_singleton] at hp
    subst hp
    exact ⟨0, PChain.nil⟩
  parent_dom := by
    intro p hp
    exact absurd rfl hp
  parent_vals := by
    intro p q hpq
    cases hpq
  opt := by
    intro p n hchain m hwalk
    cases hchain with
    | nil => exact Nat.zero_le m
    | cons _ hp _ _ _ _ => cases hp
  sorted := by
    refine ⟨0, [s], [], by simp [bfsInit], ?_, ?_⟩
    · intro p hp
      rw [List.mem_singleton] at hp
      subst hp
      exact PChain.nil
    · intro p hp
      exact absurd hp (List.not_mem_nil p)
  closure := by
    intro _ p hp
    exact absurd hp (List.not_mem_nil p)
  done_eq := rfl
  done_target := by
    intro h
    cases h
  target_done := by
    intro h
    exact absurd h (List.not_mem_nil t)
  count_eq := rfl
  trace_eq := by simp [bfsInit]

/-- Cut property: while the loop is running, every walk to an undiscovered
cell passes through a queue cell at a cost already no smaller than that
cell's chain level. -/
theorem bfs_cut {N : Nat} {walls : List Pos} {s t : Pos} {st : BfsState}
    (h : BfsInv N walls s t st) (hdone : st.done = false) {w : Pos} {m : Nat}
    (hw : w ∉ st.visited) (hwalk : WalkLen N walls s w m) :
    ∃ x ∈ st.queue, ∃ k, PChain st.parent N walls s x k ∧ k < m := by
  induction hwalk with
  | nil => exact absurd h.start_mem hw
  | @cons u v n hwalk hadj hb hwall ih =>
    by_cases hu : u ∈ st.visited
    · have humem : u ∈ st.expanded ++ st.queue := by
        rw [h.vis_eq, List.mem_toFinset] at hu
        exact hu
      rcases List.mem_append.mp humem with hexp | hq
      · exact absurd (h.closure hdone u hexp v hadj hb hwall) hw
      · obtain ⟨k, hchain⟩ := h.chains u hu
        have hk := h.opt u k hchain n hwalk
        exact ⟨u, hq, k, hchain, by omega⟩
    · obtain ⟨x, hx, k, hchain, hk⟩ := ih hu
      exact ⟨x, hx, k, hchain, by omega⟩

/-- Case analysis for chains of a parent map extended at a fresh key w: a
chain either never touches w (it is a chain of the old map) or it ends at w
with the designated predecessor. -/
theorem pchain_update_cases {par : Pos → Option Pos} {N : Nat} {walls : List Pos}
    {s w u0 : Pos} (hnone : par w = none)
    (hvals : ∀ p q, par p = some q → q ≠ w) (hu0 : u0 ≠ w) :
    ∀ {v n}, PChain (fun q => if q = w then some u0 else par q) N walls s v n →
      PChain par N walls s v n ∨
        (v = w ∧ ∃ k, n = k + 1 ∧ PChain par N walls s u0 k) := by
  intro v n h
  induction h with
  | nil => exact Or.inl PChain.nil
  | @cons u v n hc hp hadj hb hw hne ih =>
    by_cases hvw : v = w
    · subst hvw
      rw [if_pos rfl] at hp
      cases hp
      rcases ih with hold | ⟨huw, _⟩
      · exact Or.inr ⟨rfl, n, rfl, hold⟩
      · exact absurd huw hu0
    · rw [if_neg hvw] at hp
      have huw : u ≠ w := hvals v u hp
      rcases ih with hold | ⟨huw', _⟩
      · exact Or.inl (PChain.cons hold hp hadj hb hw hne)
      · exact absurd huw' huw

/-- Invariant holding while the four neighbors of the cell `current` (with
chain level a) are being probed: the full queue/chain/optimality bookkeeping,
plus the facts established at dequeue time that the probes rely on. -/
structure BfsMid (N : Nat) (walls : List Pos) (s t current : Pos) (a : Nat)
    (σ : BfsState) : Prop where
  vis_eq : σ.visited = (σ.expanded ++ σ.queue).toFinset
  nodup : (σ.expanded ++ σ.queue).Nodup
  start_mem : s ∈ σ.visited
  mem_ok : ∀ p ∈ σ.expanded ++ σ.queue, p = s ∨ openCell N walls p
  chains : ∀ p ∈ σ.visited, ∃ n, PChain σ.parent N walls s p n
  parent_dom : ∀ p, σ.parent p ≠ none → p ∈ σ.visited ∧ p ≠ s
  parent_vals : ∀ p q, σ.parent p = some q → q ∈ σ.visited
  opt : ∀ p n, PChain σ.parent N walls s p n → ∀ m, WalkLen N walls s p m → n ≤ m
  sorted2 : ∃ A B, σ.queue = A ++ B ∧
    (∀ p ∈ A, PChain σ.parent N walls s p a) ∧
    (∀ p ∈ B, PChain σ.parent N walls s p (a + 1))
  hnew : ∀ v, v ∉ σ.visited → ∀ m, WalkLen N walls s v m → a + 1 ≤ m
  cur_chain : PChain σ.parent N walls s current a
  cur_vis : current ∈ σ.visited
  closure_ex : ∀ p ∈ σ.expanded, p = current ∨ ∀ q, adjP (reparse p) q →
    inB N q → q ∉ walls → q ∈ σ.visited
  target_not : t ∉ σ.expanded
  done_false : σ.done = false
  found_false : σ.pathFound = false
  cnt : σ.visitedCount = σ.expanded.length
  trace_mid : σ.visitTrace = σ.expanded.filter (fun c => decide (c ≠ s))

/-- One neighbor probe preserves the mid-expansion invariant, only grows the
discovered set, and discovers the probed neighbor whenever it is open. -/
theorem bfsMid_enqueue {N : Nat} {walls : List Pos} {s t current : Pos} {a : Nat}
    {σ : BfsState} (h : BfsMid N walls s t current a σ) {d : Int × Int}
    (hd : d ∈ bfsDirections) :
    BfsMid N walls s t current a (bfsEnqueue N walls current σ d) ∧
    σ.visited ⊆ (bfsEnqueue N walls current σ d).visited ∧
    (openCell N walls (moveP (reparse current) d) →
      moveP (reparse current) d ∈ (bfsEnqueue N walls current σ d).visited) := by
  simp only [bfsEnqueue]
  split_ifs with hb hacc
  · set np := moveP (reparse current) d with hnp
    obtain ⟨hnw, hfresh⟩ := hacc
    have hnps : np ≠ s := fun hh => hfresh (hh ▸ h.start_mem)
    have hnpcur : np ≠ current := fun hh => hfresh (hh ▸ h.cur_vis)
    have hparnone : σ.parent np = none := by
      by_contra hpar
      exact hfresh (h.parent_dom np hpar).1
    have hvals' : ∀ p q, σ.parent p = some q → q ≠ np := by
      intro p q hpq hqw
      exact hfresh (hqw ▸ h.parent_vals p q hpq)
    have hadj : adjP (reparse current) np := adjP_iff_move.mpr ⟨d, hd, hnp⟩
    have hcurnp : current ≠ np := fun hh => hnpcur hh.symm
    have hchain_np :
        PChain (fun q => if q = np then some current else σ.parent q)
          N walls s np (a + 1) :=
      PChain.cons (pchain_update hparnone h.cur_chain current)
        (by rw [if_pos rfl]) hadj hb hnw hnps
    have hlistmem : np ∉ σ.expanded ++ σ.queue := by
      rw [← List.mem_toFinset, ← h.vis_eq]
      exact hfresh
    refine ⟨{ vis_eq := ?_, nodup := ?_, start_mem := ?_, mem_ok := ?_,
              chains := ?_, parent_dom := ?_, parent_vals := ?_, opt := ?_,
              sorted2 := ?_, hnew := ?_, cur_chain := ?_, cur_vis := ?_,
              closure_ex := ?_, target_not := ?_, done_false := ?_,
              found_false := ?_, cnt := ?_, trace_mid := ?_ }, ?_, ?_⟩
    · show insert np σ.visited = (σ.expanded ++ (σ.queue ++ [np])).toFinset
      rw [← List.append_assoc]
      ext x
      simp only [List.toFinset_append, Finset.mem_union, Finset.mem_insert,
        List.toFinset_cons, List.toFinset_nil, List.mem_toFinset,
        insert_emptyc_eq, Finset.mem_singleton, h.vis_eq, List.mem_append]
      tauto
    · show (σ.expanded ++ (σ.queue ++ [np])).Nodup
      rw [← List.append_assoc, List.nodup_append]
      refine ⟨h.nodup, by simp, ?_⟩
      intro x hx
      simp only [List.mem_singleton]
      intro hxnp
      subst hxnp
      exact hlistmem hx
    · exact Finset.mem_insert_of_mem h.start_mem
    · intro p hp
      rw [← List.append_assoc] at hp
      rcases List.mem_append.mp hp with hp | hp
      · exact h.mem_ok p hp
      · rw [List.mem_singleton] at hp
        subst hp
        exact Or.inr ⟨hb, hnw⟩
    · intro p hp
      rcases Finset.mem_insert.mp hp with rfl | hp
      · exact ⟨a + 1, hchain_np⟩
      · obtain ⟨n, hn⟩ := h.chains p hp
        exact ⟨n, pchain_update hparnone hn current⟩
    · intro p hp
      change (if p = np then some current else σ.parent p) ≠ none at hp
      by_cases hpe : p = np
      · subst hpe
        exact ⟨Finset.mem_insert_self _ _, hnps⟩
      · rw [if_neg hpe] at hp
        obtain ⟨h1, h2⟩ := h.parent_dom p hp
        exact ⟨Finset.mem_insert_of_mem h1, h2⟩
    · intro p q hpq
      change (if p = np then some current else σ.parent p) = some q at hpq
      by_cases hpe : p = np
      · rw [if_pos hpe] at hpq
        cases hpq
        exact Finset.mem_insert_of_mem h.cur_vis
      · rw [if_neg hpe] at hpq
        exact Finset.mem_insert_of_mem (h.parent_vals p q hpq)
    · intro p n hchain m hwalk
      rcases pchain_update_cases hparnone hvals' hcurnp hchain with
        hold | ⟨rfl, k, rfl, hk⟩
      · exact h.opt p n hold m hwalk
      · have := pchain_unique hk h.cur_chain
        subst this
        exact h.hnew np hfresh m hwalk
    · obtain ⟨A, B, hq, hA, hB⟩ := h.sorted2
      refine ⟨A, B ++ [np], ?_, ?_, ?_⟩
      · show σ.queue ++ [np] = A ++ (B ++ [np])
        rw [hq, List.append_assoc]
      · intro p hp
        exact pchain_update hparnone (hA p hp) current
      · intro p hp
        rcases List.mem_append.mp hp with hp | hp
        · exact pchain_update hparnone (hB p hp) current
        · rw [List.mem_singleton] at hp
          subst hp
          exact hchain_np
    · intro v hv m hwalk
      exact h.hnew v (fun hh => hv (Finset.mem_insert_of_mem hh)) m hwalk
    · exact pchain_update hparnone h.cur_chain current
    · exact Finset.mem_insert_of_mem h.cur_vis
    · intro p hp
      rcases h.closure_ex p hp with hc | hc
      · exact Or.inl hc
      · exact Or.inr fun q hq1 hq2 hq3 =>
          Finset.mem_insert_of_mem (hc q hq1 hq2 hq3)
    · exact h.target_not
    · exact h.done_false
    · exact h.found_false
    · exact h.cnt
    · exact h.trace_mid
    · intro x hx
      exact Finset.mem_insert_of_mem hx
    · intro _
      exact Finset.mem_insert_self _ _
  · refine ⟨h, le_refl _, ?_⟩
    intro hopen
    rcases not_and_or.mp hacc with hh | hh
    · exact absurd hopen.2 hh
    · exact not_not.mp hh
  · refine ⟨h, le_refl _, ?_⟩
    intro hopen
    exact absurd hopen.1 hb

/-- The discovered set of a mid-expansion state also lives in the grid plus
the start cell. -/
theorem BfsMid.mid_cap {N : Nat} {walls : List Pos} {s t current : Pos} {a : Nat}
    {σ : BfsState} (h : BfsMid N walls s t current a σ) :
    σ.visited.card ≤ N * N + 1 := by
  have hsub : σ.visited ⊆ insert s (gridCells N) := by
    intro p hp
    rw [h.vis_eq, List.mem_toFinset] at hp
    rcases h.mem_ok p hp with rfl | hopen
    · exact Finset.mem_insert_self _ _
    · exact Finset.mem_insert_of_mem (mem_gridCells.mpr hopen.1)
  have := Finset.card_le_card hsub
  have hc := Finset.card_insert_le s (gridCells N)
  rw [card_gridCells] at hc
  omega

/-- Accepting or rejecting a neighbor preserves the exchange between the
discovered-set size and the queue length. -/
theorem bfsEnqueue_card (N : Nat) (walls : List Pos) (current : Pos)
    (σ : BfsState) (d : Int × Int) :
    (bfsEnqueue N walls current σ d).visited.card + σ.queue.length =
      σ.visited.card + (bfsEnqueue N walls current σ d).queue.length := by
  simp only [bfsEnqueue]
  split_ifs with hb hacc
  · show (insert (moveP (reparse current) d) σ.visited).card + σ.queue.length =
      σ.visited.card + (σ.queue ++ [moveP (reparse current) d]).length
    rw [Finset.card_insert_of_not_mem hacc.2, List.length_append]
    simp only [List.length_singleton]
    omega
  · rfl
  · rfl

/-- Probing a list of directions preserves the mid-expansion invariant, only
grows the discovered set, discovers every open probed neighbor, and keeps the
discovered-size/queue-length exchange. -/
theorem bfsMid_foldl {N : Nat} {walls : List Pos} {s t current : Pos} {a : Nat} :
    ∀ (ds : List (Int × Int)) (σ : BfsState), (∀ d ∈ ds, d ∈ bfsDirections) →
    BfsMid N walls s t current a σ →
    BfsMid N walls s t current a (ds.foldl (bfsEnqueue N walls current) σ) ∧
    σ.visited ⊆ (ds.foldl (bfsEnqueue N walls current) σ).visited ∧
    (∀ d ∈ ds, openCell N walls (moveP (reparse current) d) →
      moveP (reparse current) d ∈ (ds.foldl (bfsEnqueue N walls current) σ).visited) ∧
    (ds.foldl (bfsEnqueue N walls current) σ).visited.card + σ.queue.length =
      σ.visited.card + (ds.foldl (bfsEnqueue N walls current) σ).queue.length := by
  intro ds
  induction ds with
  | nil =>
    intro σ _ h
    exact ⟨h, subset_rfl, fun d hd => absurd hd (List.not_mem_nil d), rfl⟩
  | cons d ds ih =>
    intro σ hds h
    simp only [List.foldl_cons]
    obtain ⟨h1, hmono1, hdisc1⟩ := bfsMid_enqueue h (hds d (List.mem_cons_self d ds))
    obtain ⟨h2, hmono2, hdisc2, hcard2⟩ :=
      ih (bfsEnqueue N walls current σ d) (fun d' hd' => hds d' (List.mem_cons_of_mem d hd')) h1
    have hcard1 := bfsEnqueue_card N walls current σ d
    refine ⟨h2, hmono1.trans hmono2, ?_, by omega⟩
    intro d' hd' hopen
    rcases List.mem_cons.mp hd' with rfl | hd'
    · exact hmono2 (hdisc1 hopen)
    · exact hdisc2 d' hd' hopen

/-- One iteration of the breadthFirstSearch loop preserves the invariant,
can only grow the discovered set within its bound, and trades exactly one
unit of queue-plus-undiscovered measure. -/
theorem bfsInv_step {N : Nat} {walls : List Pos} {s t : Pos} {st : BfsState}
    (h : BfsInv N walls s t st) (hdone : st.done = false) (hne : st.queue ≠ []) :
    BfsInv N walls s t (bfsStep N walls s t st) ∧
    (bfsStep N walls s t st).visited.card ≤ N * N + 1 ∧
    st.visited.card ≤ (bfsStep N walls s t st).visited.card ∧
    (bfsStep N walls s t st).visited.card + st.queue.length =
      st.visited.card + (bfsStep N walls s t st).queue.length + 1 := by
  obtain ⟨q, vis, par, cnt, tr, exp, pf, dn⟩ := st
  have hdn : dn = false := hdone
  subst hdn
  have hpf : pf = false := h.done_eq
  subst hpf
  cases q with
  | nil => exact absurd rfl hne
  | cons current rest =>
  have hl : (exp ++ [current]) ++ rest = exp ++ current :: rest :=
    List.append_assoc exp [current] rest
  by_cases hct : current = t
  · subst hct
    have hstep : bfsStep N walls s current
        ⟨current :: rest, vis, par, cnt, tr, exp, false, false⟩ =
        ⟨rest, vis, par, cnt + 1, tr, exp ++ [current], true, true⟩ := by
      simp only [bfsStep]
      simp
    rw [hstep]
    have hcard := h.visited_cap
    refine ⟨{ vis_eq := ?_, nodup := ?_, start_mem := ?_, mem_ok := ?_,
              chains := ?_, parent_dom := ?_, parent_vals := ?_, opt := ?_,
              sorted := ?_, closure := ?_, done_eq := ?_, done_target := ?_,
              target_done := ?_, count_eq := ?_, trace_eq := ?_ },
      by simpa using hcard, le_refl _,
      by simp only [List.length_cons]; omega⟩
    · show vis = ((exp ++ [current]) ++ rest).toFinset
      rw [hl]
      exact h.vis_eq
    · show ((exp ++ [current]) ++ rest).Nodup
      rw [hl]
      exact h.nodup
    · exact h.start_mem
    · intro p hp
      rw [hl] at hp
      exact h.mem_ok p hp
    · exact h.chains
    · exact h.parent_dom
    · exact h.parent_vals
    · exact h.opt
    · obtain ⟨a, A, B, hq2, hA, hB⟩ := h.sorted
      cases A with
      | nil =>
        rw [List.nil_append] at hq2
        refine ⟨a + 1, rest, [], by simp, ?_, by simp⟩
        intro p hp
        exact hB p (by rw [← hq2]; exact List.mem_cons_of_mem _ hp)
      | cons Ah A' =>
        rw [List.cons_append] at hq2
        injection hq2 with hq2a hq2b
        refine ⟨a, A', B, hq2b, ?_, hB⟩
        intro p hp
        exact hA p (List.mem_cons_of_mem _ hp)
    · intro hcontra
      simp at hcontra
    · rfl
    · intro _
      show (exp ++ [current]).getLast? = some current
      simp
    · intro _
      rfl
    · show cnt + 1 = (exp ++ [current]).length
      have hcnt : cnt = exp.length := h.count_eq
      simp [hcnt]
    · show tr = ((exp ++ [current]).dropLast).filter (fun c => decide (c ≠ s))
      rw [List.dropLast_concat]
      have htr := h.trace_eq
      simp only [if_neg (by simp : ¬ (false : Bool) = true)] at htr
      exact htr
  · -- expansion branch
    obtain ⟨a, hlevcur, hmin, A', B', hrest, hA', hB'⟩ :
        ∃ a, PChain par N walls s current a ∧
          (∀ x ∈ current :: rest, ∀ k, PChain par N walls s x k → a ≤ k) ∧
          ∃ A' B', rest = A' ++ B' ∧
            (∀ p ∈ A', PChain par N walls s p a) ∧
            (∀ p ∈ B', PChain par N walls s p (a + 1)) := by
      obtain ⟨a, A, B, hq2, hA, hB⟩ := h.sorted
      cases A with
      | nil =>
        rw [List.nil_append] at hq2
        have hcur := hB current (by rw [← hq2]; exact List.mem_cons_self _ _)
        refine ⟨a + 1, hcur, ?_, rest, [], by simp, ?_, by simp⟩
        · intro x hx k hk
          have hxB := hB x (by rw [← hq2]; exact hx)
          rw [pchain_unique hk hxB]
        · intro p hp
          exact hB p (by rw [← hq2]; exact List.mem_cons_of_mem _ hp)
      | cons Ah A' =>
        rw [List.cons_append] at hq2
        injection hq2 with hq2a hq2b
        subst hq2a
        have hcur := hA current (List.mem_cons_self _ _)
        refine ⟨a, hcur, ?_, A', B, hq2b, ?_, hB⟩
        · intro x hx k hk
          rw [hq2b, List.mem_cons] at hx
          rcases hx with rfl | hx
          · have := pchain_unique hk hcur
            omega
          · rcases List.mem_append.mp hx with hx | hx
            · have := pchain_unique hk (hA x (List.mem_cons_of_mem _ hx))
              omega
            · have := pchain_unique hk (hB x hx)
              omega
        · intro p hp
          exact hA p (List.mem_cons_of_mem _ hp)
    have hnew : ∀ v, v ∉ vis → ∀ m, WalkLen N walls s v m → a + 1 ≤ m := by
      intro v hv m hwalk
      obtain ⟨x, hx, k, hchain, hk⟩ := bfs_cut h rfl hv hwalk
      have := hmin x hx k hchain
      omega
    have hcurvis : current ∈ vis := by
      have hv : vis = (exp ++ current :: rest).toFinset := h.vis_eq
      rw [hv, List.mem_toFinset]
      exact List.mem_append.mpr (Or.inr (List.mem_cons_self _ _))
    have hcuropen : current = s ∨ openCell N walls current :=
      h.mem_ok current (List.mem_append.mpr (Or.inr (List.mem_cons_self _ _)))
    have htargetnot : t ∉ exp ++ [current] := by
      intro hmem
      rcases List.mem_append.mp hmem with hmem | hmem
      · have := h.target_done hmem
        simp at this
      · rw [List.mem_singleton] at hmem
        exact hct hmem.symm
    have hmid : BfsMid N walls s t current a
        ⟨rest, vis, par, cnt + 1,
          (if current = s then tr else tr ++ [reparse current]),
          exp ++ [current], false, false⟩ := by
      refine { vis_eq := ?_, nodup := ?_, start_mem := ?_, mem_ok := ?_,
               chains := ?_, parent_dom := ?_, parent_vals := ?_, opt := ?_,
               sorted2 := ?_, hnew := ?_, cur_chain := ?_, cur_vis := ?_,
               closure_ex := ?_, target_not := ?_, done_false := ?_,
               found_false := ?_, cnt := ?_, trace_mid := ?_ }
      · show vis = ((exp ++ [current]) ++ rest).toFinset
        rw [hl]
        exact h.vis_eq
      · show ((exp ++ [current]) ++ rest).Nodup
        rw [hl]
        exact h.nodup
      · exact h.start_mem
      · intro p hp
        rw [hl] at hp
        exact h.mem_ok p hp
      · exact h.chains
      · exact h.parent_dom
      · exact h.parent_vals
      · exact h.opt
      · exact ⟨A', B', hrest, hA', hB'⟩
      · exact hnew
      · exact hlevcur
      · exact hcurvis
      · intro p hp
        rcases List.mem_append.mp hp with hp | hp
        · exact Or.inr (h.closure rfl p hp)
        · rw [List.mem_singleton] at hp
          exact Or.inl hp
      · exact htargetnot
      · rfl
      · rfl
      · show cnt + 1 = (exp ++ [current]).length
        have hcnt : cnt = exp.length := h.count_eq
        simp [hcnt]
      · show (if current = s then tr else tr ++ [reparse current]) =
          (exp ++ [current]).filter (fun c => decide (c ≠ s))
        have htr : tr = exp.filter (fun c => decide (c ≠ s)) := by
          have := h.trace_eq
          simp only [if_neg (by simp : ¬ (false : Bool) = true)] at this
          exact this
        rw [List.filter_append]
        by_cases hcs : current = s
        · subst hcs
          rw [if_pos rfl, htr]
          simp
        · rw [if_neg hcs, htr]
          have hrep : reparse current = current := by
            rcases hcuropen with hcs' | hopen
            · exact absurd hcs' hcs
            · exact reparse_id_inB hopen.1
          simp [hrep, hcs]
    obtain ⟨hfin, hmono, hdisc, hcard⟩ :=
      bfsMid_foldl bfsDirections _ (fun d hd => hd) hmid
    have hstep : bfsStep N walls s t
        ⟨current :: rest, vis, par, cnt, tr, exp, false, false⟩ =
        bfsDirections.foldl (bfsEnqueue N walls current)
          ⟨rest, vis, par, cnt + 1,
            (if current = s then tr else tr ++ [reparse current]),
            exp ++ [current], false, false⟩ := by
      simp only [bfsStep]
      rw [if_neg hct]
      by_cases hcs : current = s
      · rw [if_pos hcs, if_pos hcs]
      · rw [if_neg hcs, if_neg hcs]
    rw [hstep]
    have hcardle := hfin.mid_cap
    have hcardmono : vis.card ≤
        (bfsDirections.foldl (bfsEnqueue N walls current)
          ⟨rest, vis, par, cnt + 1,
            (if current = s then tr else tr ++ [reparse current]),
            exp ++ [current], false, false⟩).visited.card :=
      Finset.card_le_card hmono
    refine ⟨{ vis_eq := hfin.vis_eq, nodup := hfin.nodup,
              start_mem := hfin.start_mem, mem_ok := hfin.mem_ok,
              chains := hfin.chains, parent_dom := hfin.parent_dom,
              parent_vals := hfin.parent_vals, opt := hfin.opt,
              sorted := ⟨a, hfin.sorted2⟩, closure := ?_,
              done_eq := ?_, done_target := ?_, target_done := ?_,
              count_eq := hfin.cnt, trace_eq := ?_ }, hcardle, hcardmono, ?_⟩
    · intro _ p hp q' hadjq hbq hwq
      rcases hfin.closure_ex p hp with rfl | hc
      · obtain ⟨d, hd, hq'⟩ := adjP_iff_move.mp hadjq
        subst hq'
        exact hdisc d hd ⟨hbq, hwq⟩
      · exact hc q' hadjq hbq hwq
    · rw [hfin.done_false, hfin.found_false]
    · intro hcontra
      rw [hfin.done_false] at hcontra
      cases hcontra
    · intro hmem
      exact absurd hmem hfin.target_not
    · rw [hfin.trace_mid, hfin.done_false]
      simp
    · show _ + (current :: rest).length = vis.card + _ + 1
      simp only [List.length_cons]
      have hq1len : (BfsState.mk rest vis par (cnt + 1)
          (if current = s then tr else tr ++ [reparse current])
          (exp ++ [current]) false false).queue.length = rest.length := rfl
      have hv1 : (BfsState.mk rest vis par (cnt + 1)
          (if current = s then tr else tr ++ [reparse current])
          (exp ++ [current]) false false).visited = vis := rfl
      rw [hq1len, hv1] at hcard
      omega

/-- A finished loop state stays put. -/
theorem bfsLoop_done {N : Nat} {walls : List Pos} {s t : Pos} {fuel : Nat}
    {st : BfsState} (h : st.done = true) : bfsLoop N walls s t fuel st = st := by
  cases fuel with
  | zero => rfl
  | succ f => simp [bfsLoop, h]

/-- An empty queue stops the loop. -/
theorem bfsLoop_nil {N : Nat} {walls : List Pos} {s t : Pos} {fuel : Nat}
    {st : BfsState} (h : st.queue = []) : bfsLoop N walls s t fuel st = st := by
  cases fuel with
  | zero => rfl
  | succ f =>
    rw [bfsLoop, h]
    split <;> rfl

/-- A running state advances by one step. -/
theorem bfsLoop_step {N : Nat} {walls : List Pos} {s t : Pos} {fuel : Nat}
    {st : BfsState} {c : Pos} {rest : List Pos} (hd : st.done = false)
    (hq : st.queue = c :: rest) :
    bfsLoop N walls s t (fuel + 1) st = bfsLoop N walls s t fuel (bfsStep N walls s t st) := by
  rw [bfsLoop, hd, hq]
  rfl

/-- Running the loop preserves the invariant, and with fuel at least the
undiscovered-plus-queue measure the loop truly finishes: it either broke on
the target or drained the queue. -/
theorem bfsLoop_run {N : Nat} {walls : List Pos} {s t : Pos} :
    ∀ (fuel : Nat) (st : BfsState), BfsInv N walls s t st →
      BfsInv N walls s t (bfsLoop N walls s t fuel st) ∧
      ((N * N + 1 - st.visited.card) + st.queue.length ≤ fuel →
        (bfsLoop N walls s t fuel st).done = true ∨
        (bfsLoop N walls s t fuel st).queue = []) := by
  intro fuel
  induction fuel with
  | zero =>
    intro st h
    refine ⟨h, ?_⟩
    intro hf
    right
    have : st.queue.length = 0 := by omega
    exact List.length_eq_zero.mp this
  | succ f ih =>
    intro st h
    by_cases hd : st.done = true
    · rw [bfsLoop_done hd]
      exact ⟨h, fun _ => Or.inl hd⟩
    · have hd' : st.done = false := by
        cases hdn : st.done
        · rfl
        · exact absurd hdn hd
      cases hq : st.queue with
      | nil =>
        rw [bfsLoop_nil hq]
        exact ⟨h, fun _ => Or.inr hq⟩
      | cons c rest =>
        rw [bfsLoop_step hd' hq]
        obtain ⟨h', hle, hmono, hexch⟩ :=
          bfsInv_step h hd' (by rw [hq]; exact List.cons_ne_nil c rest)
        obtain ⟨ih1, ih2⟩ := ih (bfsStep N walls s t st) h'
        refine ⟨ih1, ?_⟩
        intro hf
        apply ih2
        rw [hq] at hexch
        simp only [List.length_cons] at hexch
        have hcard := h.visited_cap
        simp only [List.length_cons] at hf
        omega

/-- A recorded chain of length below the fuel is reconstructed to a path of
exactly that length. -/
theorem reconstruct_chain {par : Pos → Option Pos} {N : Nat} {walls : List Pos}
    {s v : Pos} {n : Nat} (h : PChain par N walls s v n) :
    ∀ fuel, n < fuel → ∃ l, reconstructPath par s fuel v = some l ∧ l.length = n := by
  induction h with
  | nil =>
    intro fuel _
    refine ⟨[], ?_, rfl⟩
    cases fuel with
    | zero => rw [reconstructPath, if_pos rfl]
    | succ f => rw [reconstructPath, if_pos rfl]
  | @cons u v n hc hp hadj hb hw hne ih =>
    intro fuel hfuel
    cases fuel with
    | zero => omega
    | succ f =>
      obtain ⟨l, hl, hlen⟩ := ih f (by omega)
      refine ⟨l ++ [v], ?_, by simp [hlen]⟩
      rw [reconstructPath, if_neg hne, hp]
      show (reconstructPath par s f u).map (fun l => l ++ [v]) = some (l ++ [v])
      rw [hl]
      rfl

/-- Any chain under the invariant is shorter than the reconstruction fuel. -/
theorem chain_lt_fuel {N : Nat} {walls : List Pos} {s t : Pos} {st : BfsState}
    (h : BfsInv N walls s t st) {v : Pos} {n : Nat}
    (hc : PChain st.parent N walls s v n) : n < N * N + 2 := by
  obtain ⟨S, hcard, _, hall⟩ := pchain_nodes hc
  have hsub : S ⊆ st.visited := by
    intro x hx
    obtain ⟨k, _, hk⟩ := hall x hx
    rcases pchain_mem hk with rfl | hpar
    · exact h.start_mem
    · exact (h.parent_dom x hpar).1
  have := Finset.card_le_card hsub
  have := h.visited_cap
  omega

/-- Full characterization of breadthFirstSearch: the call always returns a
result; the result reports success exactly on reachability; on success the
reported pathLength is the length of a shortest walk and the path list has
that length; on failure path and pathLength are empty; success implies the
target is the start or an open cell; and updateVisited fired exactly once per
expanded cell except the start and the final target, in expansion order. -/
theorem breadthFirstSearch_spec (N : Nat) (s t : Pos) (walls : List Pos) :
    ∃ r, breadthFirstSearch N s t walls = some r ∧
      (r.pathFound = true ↔ Reachable N walls s t) ∧
      (r.pathFound = true → IsShortest N walls s t r.pathLength) ∧
      (r.pathFound = false → r.path = [] ∧ r.pathLength = 0) ∧
      (r.pathFound = true → t = s ∨ openCell N walls t) ∧
      r.visitTrace = (if r.pathFound then r.expanded.dropLast else r.expanded).filter
        (fun c => decide (c ≠ s)) ∧
      r.expanded.Nodup ∧
      (r.pathFound = true → r.expanded.getLast? = some t) ∧
      r.visitedCount = r.expanded.length ∧
      r.path.length = r.pathLength := by
  obtain ⟨hinv, hexit⟩ :=
    bfsLoop_run (N * N + 2) (bfsInit s) (bfsInv_init N walls s t)
  have hfuel : (N * N + 1 - (bfsInit s).visited.card) + (bfsInit s).queue.length ≤
      N * N + 2 := by
    show (N * N + 1 - ({s} : Finset Pos).card) + 1 ≤ N * N + 2
    rw [Finset.card_singleton]
    omega
  have hstop := hexit hfuel
  set st := bfsLoop N walls s t (N * N + 2) (bfsInit s) with hst
  have hnodup : st.expanded.Nodup := (List.nodup_append.mp hinv.nodup).1
  by_cases hpf : st.pathFound = true
  · -- found: the target was dequeued
    have hdone : st.done = true := by rw [← hinv.done_eq]; exact hpf
    have hlast := hinv.done_target hdone
    have htexp : t ∈ st.expanded := by
      rw [List.getLast?_eq_some_iff] at hlast
      obtain ⟨l', hl'⟩ := hlast
      rw [hl']
      simp
    have htvis : t ∈ st.visited := by
      rw [hinv.vis_eq, List.mem_toFinset]
      exact List.mem_append.mpr (Or.inl htexp)
    obtain ⟨n, hchain⟩ := hinv.chains t htvis
    obtain ⟨l, hrec, hlen⟩ := reconstruct_chain hchain (N * N + 2)
      (chain_lt_fuel hinv hchain)
    refine ⟨⟨true, l, st.visitedCount, l.length, st.visitTrace, st.expanded⟩, ?_, ?_,
      ?_, ?_, ?_, ?_, hnodup, ?_, ?_, rfl⟩
    · show (if st.pathFound = true then _ else _) = _
      rw [if_pos hpf, hrec]
    · constructor
      · intro _
        exact ⟨n, pchain_walk hchain⟩
      · intro _
        rfl
    · intro _
      show IsShortest N walls s t l.length
      rw [hlen]
      exact ⟨pchain_walk hchain, fun m hm => hinv.opt t n hchain m hm⟩
    · intro hcontra
      cases hcontra
    · intro _
      exact (hinv.mem_ok t (List.mem_append.mpr (Or.inl htexp)))
    · show st.visitTrace = (if true = true then st.expanded.dropLast else _).filter _
      rw [hinv.trace_eq, hdone]
    · intro _
      exact hlast
    · exact hinv.count_eq
  · -- not found
    have hpf' : st.pathFound = false := by
      cases hb : st.pathFound
      · rfl
      · exact absurd hb hpf
    have hdone : st.done = false := by rw [← hinv.done_eq]; exact hpf'
    have hq : st.queue = [] := by
      rcases hstop with hcontra | hq
      · rw [hdone] at hcontra
        cases hcontra
      · exact hq
    refine ⟨⟨false, [], st.visitedCount, 0, st.visitTrace, st.expanded⟩, ?_, ?_, ?_,
      ?_, ?_, ?_, hnodup, ?_, ?_, rfl⟩
    · show (if st.pathFound = true then _ else _) = _
      rw [if_neg (by rw [hpf']; exact Bool.false_ne_true)]
    · constructor
      · intro hcontra
        cases hcontra
      · rintro ⟨m, hwalk⟩
        by_cases htv : t ∈ st.visited
        · have : t ∈ st.expanded := by
            rw [hinv.vis_eq, hq, List.append_nil, List.mem_toFinset] at htv
            exact htv
          have := hinv.target_done this
          rw [hdone] at this
          cases this
        · obtain ⟨x, hx, _⟩ := bfs_cut hinv hdone htv hwalk
          rw [hq] at hx
          exact absurd hx (List.not_mem_nil x)
    · intro hcontra
      cases hcontra
    · intro _
      exact ⟨rfl, rfl⟩
    · intro hcontra
      cases hcontra
    · show st.visitTrace = (if false = true then _ else st.expanded).filter _
      rw [hinv.trace_eq, hdone]
    · intro hcontra
      cases hcontra
    · exact hinv.count_eq

/-! Invariants of the two depth-first search variants.  Both run dfsLoop and
differ only in the direction list; the development is parameterized by any
direction list covering exactly the four unit offsets. -/

/-- Chains only depend on the parent map pointwise. -/
theorem pchain_congr {par par' : Pos → Option Pos} {N : Nat} {walls : List Pos}
    {s v : Pos} {n : Nat} (hpt : ∀ x, par x = par' x)
    (h : PChain par N walls s v n) : PChain par' N walls s v n := by
  induction h with
  | nil => exact PChain.nil
  | cons hc hp hadj hb hw hne ih =>
    exact PChain.cons ih (by rw [← hpt]; exact hp) hadj hb hw hne

/-- Both depth-first direction lists cover exactly the four unit offsets. -/
theorem mem_dfsDirections {d : Int × Int} : d ∈ dfsDirections ↔ d ∈ bfsDirections := by
  constructor <;> intro h <;> fin_cases h <;> simp [bfsDirections, dfsDirections]

/-- The top-down direction list also covers exactly the four unit offsets. -/
theorem mem_dfsTopDownDirections {d : Int × Int} :
    d ∈ dfsTopDownDirections ↔ d ∈ bfsDirections := by
  constructor <;> intro h <;> fin_cases h <;>
    simp [bfsDirections, dfsTopDownDirections]

/-- Invariant of the depth-first loop state: the visited set is exactly the
expansion list, every relevant cell is the start or open, every key of the
parent map carries a chain, the stack and the visited set consist of the
start and parent-map keys, and every open neighbor of a visited cell is
visited or still stacked while the loop runs. -/
structure DfsInv (N : Nat) (walls : List Pos) (s t : Pos) (st : DfsState) : Prop where
  vis_eq : st.visited = st.expanded.toFinset
  nodup : st.expanded.Nodup
  mem_ok : ∀ p ∈ st.expanded, p = s ∨ openCell N walls p
  stack_ok : ∀ p ∈ st.stack, p = s ∨ openCell N walls p
  key_chain : ∀ p, st.parent p ≠ none → ∃ n, PChain st.parent N walls s p n
  stack_key : ∀ p ∈ st.stack, p = s ∨ st.parent p ≠ none
  vis_key : ∀ p ∈ st.visited, p = s ∨ st.parent p ≠ none
  parent_keys : ∀ p, st.parent p ≠ none → inB N p ∧ p ≠ s
  start_first : st.visited = ∅ → st.stack = [s]
  start_mem : st.visited ≠ ∅ → s ∈ st.visited
  closure : st.done = false → ∀ u ∈ st.visited, ∀ q, adjP (reparse u) q →
    inB N q → q ∉ walls → q ∈ st.visited ∨ q ∈ st.stack
  done_eq : st.pathFound = st.done
  done_target : st.done = true → st.expanded.getLast? = some t
  target_done : t ∈ st.visited → st.done = true
  count_eq : st.visitedCount = st.expanded.length
  trace_eq : st.visitTrace =
    (if st.done then st.expanded.dropLast else st.expanded).filter
      (fun c => decide (c ≠ s))

/-- Every visited cell of a depth-first state has a parent chain. -/
theorem DfsInv.chains {N : Nat} {walls : List Pos} {s t : Pos} {st : DfsState}
    (h : DfsInv N walls s t st) : ∀ p ∈ st.visited,
    ∃ n, PChain st.parent N walls s p n := by
  intro p hp
  rcases h.vis_key p hp with rfl | hk
  · exact ⟨0, PChain.nil⟩
  · exact h.key_chain p hk

/-- The invariant holds for the initial depth-first state. -/
theorem dfsInv_init (N : Nat) (walls : List Pos) (s t : Pos) :
    DfsInv N walls s t (dfsInit s) where
  vis_eq := by simp [dfsInit]
  nodup := by simp [dfsInit]
  mem_ok := by
    intro p hp
    exact absurd hp (List.not_mem_nil p)
  stack_ok := by
    intro p hp
    simp only [dfsInit, List.mem_singleton] at hp
    exact Or.inl hp
  key_chain := by
    intro p hp
    exact absurd rfl hp
  stack_key := by
    intro p hp
    simp only [dfsInit, List.mem_singleton] at hp
    exact Or.inl hp
  vis_key := by
    intro p hp
    simp [dfsInit] at hp
  parent_keys := by
    intro p hp
    exact absurd rfl hp
  start_first := fun _ => rfl
  start_mem := by
    intro h
    exact absurd rfl h
  closure := by
    intro _ u hu
    simp [dfsInit] at hu
  done_eq := rfl
  done_target := by
    intro h
    cases h
  target_done := by
    intro h
    simp [dfsInit] at h
  count_eq := rfl
  trace_eq := by simp [dfsInit]

/-- The visited set of a depth-first state under the invariant fits in the
grid plus the start cell. -/
theorem DfsInv.stack_cap {N : Nat} {walls : List Pos} {s t : Pos} {st : DfsState}
    (h : DfsInv N walls s t st) : st.visited.card ≤ N * N + 1 := by
  have hsub : st.visited ⊆ insert s (gridCells N) := by
    intro p hp
    rw [h.vis_eq, List.mem_toFinset] at hp
    rcases h.mem_ok p hp with rfl | hopen
    · exact Finset.mem_insert_self _ _
    · exact Finset.mem_insert_of_mem (mem_gridCells.mpr hopen.1)
  have := Finset.card_le_card hsub
  have hc := Finset.card_insert_le s (gridCells N)
  rw [card_gridCells] at hc
  omega

/-- Mid-expansion invariant for depth-first search, holding while the
neighbors of `current` are being pushed. -/
structure DfsMid (N : Nat) (walls : List Pos) (s t current : Pos) (σ : DfsState) :
    Prop where
  vis_eq : σ.visited = σ.expanded.toFinset
  nodup : σ.expanded.Nodup
  mem_ok : ∀ p ∈ σ.expanded, p = s ∨ openCell N walls p
  stack_ok : ∀ p ∈ σ.stack, p = s ∨ openCell N walls p
  key_chain : ∀ p, σ.parent p ≠ none → ∃ n, PChain σ.parent N walls s p n
  stack_key : ∀ p ∈ σ.stack, p = s ∨ σ.parent p ≠ none
  vis_key : ∀ p ∈ σ.visited, p = s ∨ σ.parent p ≠ none
  parent_keys : ∀ p, σ.parent p ≠ none → inB N p ∧ p ≠ s
  s_vis : s ∈ σ.visited
  cur_vis : current ∈ σ.visited
  cur_chain : ∃ n, PChain σ.parent N walls s current n
  closure_ex : ∀ u ∈ σ.visited, u = current ∨ ∀ q, adjP (reparse u) q →
    inB N q → q ∉ walls → q ∈ σ.visited ∨ q ∈ σ.stack
  target_not : t ∉ σ.visited
  done_false : σ.done = false
  found_false : σ.pathFound = false
  count_eq : σ.visitedCount = σ.expanded.length
  trace_mid : σ.visitTrace = σ.expanded.filter (fun c => decide (c ≠ s))

/-- One neighbor push preserves the mid-expansion invariant, leaves the
visited set unchanged, grows the stack by at most one entry keeping old
entries, and leaves an open probed neighbor visited or stacked. -/
theorem dfsMid_push {N : Nat} {walls : List Pos} {s t current : Pos}
    {σ : DfsState} (h : DfsMid N walls s t current σ) {d : Int × Int}
    (hd : d ∈ bfsDirections) :
    DfsMid N walls s t current (dfsPush N walls current σ d) ∧
    (dfsPush N walls current σ d).visited = σ.visited ∧
    (dfsPush N walls current σ d).stack.length ≤ σ.stack.length + 1 ∧
    (∀ p ∈ σ.stack, p ∈ (dfsPush N walls current σ d).stack) ∧
    (openCell N walls (moveP (reparse current) d) →
      moveP (reparse current) d ∈ σ.visited ∨
        moveP (reparse current) d ∈ (dfsPush N walls current σ d).stack) := by
  simp only [dfsPush]
  split_ifs with hb hacc
  · set np := moveP (reparse current) d with hnp
    obtain ⟨hnw, hfresh⟩ := hacc
    have hnps : np ≠ s := fun hh => hfresh (hh ▸ h.s_vis)
    have hadj : adjP (reparse current) np := adjP_iff_move.mpr ⟨d, hd, hnp⟩
    obtain ⟨nc, hcurc⟩ := h.cur_chain
    set par' : Pos → Option Pos := fun q => if q = np then
        (match σ.parent np with
         | some p0 => some p0
         | none => some current) else σ.parent q with hpar'
    have hpt : ∀ {p m}, PChain σ.parent N walls s p m → PChain par' N walls s p m := by
      intro p m hpm
      cases hold : σ.parent np with
      | some p0 =>
        refine pchain_congr ?_ hpm
        intro x
        by_cases hx : x = np
        · subst hx
          simp [hpar', hold]
        · simp [hpar', hx]
      | none =>
        refine pchain_congr ?_ (pchain_update hold hpm current)
        intro x
        by_cases hx : x = np
        · subst hx
          simp [hpar', hold]
        · simp [hpar', hx]
    have hkey_np : par' np ≠ none := by
      cases hold : σ.parent np <;> simp [hpar', hold]
    have hkeys_pres : ∀ p, σ.parent p ≠ none → par' p ≠ none := by
      intro p hp
      by_cases hx : p = np
      · subst hx
        exact hkey_np
      · simpa [hpar', hx] using hp
    have hchain_np : ∃ m, PChain par' N walls s np m := by
      cases hold : σ.parent np with
      | some p0 =>
        obtain ⟨m, hm⟩ := h.key_chain np (by rw [hold]; exact Option.some_ne_none _)
        exact ⟨m, hpt hm⟩
      | none =>
        refine ⟨nc + 1, PChain.cons (hpt hcurc) ?_ hadj hb hnw hnps⟩
        simp [hpar', hold]
    refine ⟨{ vis_eq := h.vis_eq, nodup := h.nodup, mem_ok := h.mem_ok,
              stack_ok := ?_, key_chain := ?_, stack_key := ?_, vis_key := ?_,
              parent_keys := ?_, s_vis := h.s_vis, cur_vis := h.cur_vis,
              cur_chain := ⟨nc, hpt hcurc⟩, closure_ex := ?_,
              target_not := h.target_not, done_false := h.done_false,
              found_false := h.found_false, count_eq := h.count_eq,
              trace_mid := h.trace_mid },
      rfl, by simp, ?_, ?_⟩
    · intro p hp
      rcases List.mem_cons.mp hp with rfl | hp
      · exact Or.inr ⟨hb, hnw⟩
      · exact h.stack_ok p hp
    · intro p hp
      by_cases hx : p = np
      · subst hx
        exact hchain_np
      · have hkp : σ.parent p ≠ none := by
          intro hcontra
          exact hp (by show par' p = none; simp [hpar', hx, hcontra])
        obtain ⟨m, hm⟩ := h.key_chain p hkp
        exact ⟨m, hpt hm⟩
    · intro p hp
      rcases List.mem_cons.mp hp with rfl | hp
      · exact Or.inr hkey_np
      · rcases h.stack_key p hp with rfl | hk
        · exact Or.inl rfl
        · exact Or.inr (hkeys_pres p hk)
    · intro p hp
      rcases h.vis_key p hp with rfl | hk
      · exact Or.inl rfl
      · exact Or.inr (hkeys_pres p hk)
    · intro p hp
      by_cases hx : p = np
      · subst hx
        exact ⟨hb, hnps⟩
      · apply h.parent_keys
        intro hcontra
        exact hp (by show par' p = none; simp [hpar', hx, hcontra])
    · intro u hu
      rcases h.closure_ex u hu with rfl | hc
      · exact Or.inl rfl
      · refine Or.inr fun q hq1 hq2 hq3 => ?_
        rcases hc q hq1 hq2 hq3 with hq | hq
        · exact Or.inl hq
        · exact Or.inr (List.mem_cons_of_mem _ hq)
    · intro p hp
      exact List.mem_cons_of_mem _ hp
    · intro _
      exact Or.inr (List.mem_cons_self _ _)
  · refine ⟨h, rfl, by omega, fun p hp => hp, ?_⟩
    intro hopen
    rcases not_and_or.mp hacc with hh | hh
    · exact absurd hopen.2 hh
    · exact Or.inl (not_not.mp hh)
  · refine ⟨h, rfl, by omega, fun p hp => hp, ?_⟩
    intro hopen
    exact absurd hopen.1 hb

/-- Pushing a list of neighbors preserves the mid-expansion invariant, keeps
the visited set, bounds stack growth, keeps old stack entries, and leaves
every open probed neighbor visited or stacked. -/
theorem dfsMid_foldl {N : Nat} {walls : List Pos} {s t current : Pos} :
    ∀ (ds : List (Int × Int)) (σ : DfsState), (∀ d ∈ ds, d ∈ bfsDirections) →
    DfsMid N walls s t current σ →
    DfsMid N walls s t current (ds.foldl (dfsPush N walls current) σ) ∧
    (ds.foldl (dfsPush N walls current) σ).visited = σ.visited ∧
    (ds.foldl (dfsPush N walls current) σ).stack.length ≤ σ.stack.length + ds.length ∧
    (∀ p ∈ σ.stack, p ∈ (ds.foldl (dfsPush N walls current) σ).stack) ∧
    (∀ d ∈ ds, openCell N walls (moveP (reparse current) d) →
      moveP (reparse current) d ∈ σ.visited ∨
        moveP (reparse current) d ∈ (ds.foldl (dfsPush N walls current) σ).stack) := by
  intro ds
  induction ds with
  | nil =>
    intro σ _ h
    exact ⟨h, rfl, by simp, fun p hp => hp,
      fun d hd => absurd hd (List.not_mem_nil d)⟩
  | cons d ds ih =>
    intro σ hds h
    simp only [List.foldl_cons]
    obtain ⟨h1, hvis1, hlen1, hkeep1, hdisc1⟩ :=
      dfsMid_push h (hds d (List.mem_cons_self d ds))
    obtain ⟨h2, hvis2, hlen2, hkeep2, hdisc2⟩ :=
      ih (dfsPush N walls current σ d)
        (fun d' hd' => hds d' (List.mem_cons_of_mem d hd')) h1
    refine ⟨h2, by rw [hvis2, hvis1], by simp only [List.length_cons]; omega,
      fun p hp => hkeep2 p (hkeep1 p hp), ?_⟩
    intro d' hd' hopen
    rcases List.mem_cons.mp hd' with rfl | hd'
    · rcases hdisc1 hopen with hv | hs
      · exact Or.inl hv
      · exact Or.inr (hkeep2 _ hs)
    · rcases hdisc2 d' hd' hopen with hv | hs
      · exact Or.inl (by rw [← hvis1]; exact hv)
      · exact Or.inr hs

/-- One iteration of a depth-first loop preserves the invariant and strictly
decreases the undiscovered-plus-stack measure. -/
theorem dfsInv_step {dirs : List (Int × Int)}
    (hdirs : ∀ d, d ∈ dirs ↔ d ∈ bfsDirections) (hlen4 : dirs.length = 4)
    {N : Nat} {walls : List Pos} {s t : Pos} {st : DfsState}
    (h : DfsInv N walls s t st) (hdone : st.done = false) (hne : st.stack ≠ []) :
    DfsInv N walls s t (dfsStep dirs N walls s t st) ∧
    5 * (N * N + 1 - (dfsStep dirs N walls s t st).visited.card) +
        (dfsStep dirs N walls s t st).stack.length <
      5 * (N * N + 1 - st.visited.card) + st.stack.length := by
  obtain ⟨stk, vis, par, cnt, tr, exp, pf, dn⟩ := st
  have hdn : dn = false := hdone
  subst hdn
  have hpf : pf = false := h.done_eq
  subst hpf
  cases stk with
  | nil => exact absurd rfl hne
  | cons current rest =>
  have hve : vis = exp.toFinset := h.vis_eq
  have hcnt : cnt = exp.length := h.count_eq
  have htrold : tr = exp.filter (fun c => decide (c ≠ s)) := by
    have := h.trace_eq
    simp only [if_neg (by simp : ¬ (false : Bool) = true)] at this
    exact this
  simp only [dfsStep]
  by_cases hcv : current ∈ vis
  · rw [if_pos hcv]
    refine ⟨{ vis_eq := h.vis_eq, nodup := h.nodup, mem_ok := h.mem_ok,
              stack_ok := ?_, key_chain := h.key_chain, stack_key := ?_,
              vis_key := h.vis_key, parent_keys := h.parent_keys,
              start_first := ?_, start_mem := h.start_mem, closure := ?_,
              done_eq := h.done_eq, done_target := h.done_target,
              target_done := h.target_done, count_eq := h.count_eq,
              trace_eq := h.trace_eq },
      by simp only [List.length_cons]; omega⟩
    · intro p hp
      exact h.stack_ok p (List.mem_cons_of_mem _ hp)
    · intro p hp
      exact h.stack_key p (List.mem_cons_of_mem _ hp)
    · intro hempty
      have hv : vis = ∅ := hempty
      rw [hv] at hcv
      simp at hcv
    · intro hd u hu q hq1 hq2 hq3
      rcases h.closure hd u hu q hq1 hq2 hq3 with hv | hs
      · exact Or.inl hv
      · rcases List.mem_cons.mp hs with rfl | hs
        · exact Or.inl hcv
        · exact Or.inr hs
  · rw [if_neg hcv]
    have hcur_sk := h.stack_key current (List.mem_cons_self _ _)
    have hcur_ok := h.stack_ok current (List.mem_cons_self _ _)
    have hcur_chain : ∃ n, PChain par N walls s current n := by
      rcases hcur_sk with rfl | hk
      · exact ⟨0, PChain.nil⟩
      · exact h.key_chain current hk
    have hcur_notin_exp : current ∉ exp := by
      intro hmem
      apply hcv
      rw [hve, List.mem_toFinset]
      exact hmem
    have hviseq' : insert current vis = (exp ++ [current]).toFinset := by
      rw [hve]
      ext x
      simp only [Finset.mem_insert, List.toFinset_append, List.toFinset_cons,
        List.toFinset_nil, insert_emptyc_eq, Finset.mem_union,
        Finset.mem_singleton, List.mem_toFinset]
      tauto
    have hnodup' : (exp ++ [current]).Nodup := by
      rw [List.nodup_append]
      refine ⟨h.nodup, by simp, ?_⟩
      intro x hx
      simp only [List.mem_singleton]
      intro hxc
      subst hxc
      exact hcur_notin_exp hx
    have hmemok' : ∀ p ∈ exp ++ [current], p = s ∨ openCell N walls p := by
      intro p hp
      rcases List.mem_append.mp hp with hp | hp
      · exact h.mem_ok p hp
      · rw [List.mem_singleton] at hp
        subst hp
        exact hcur_ok
    have hviskey' : ∀ p ∈ insert current vis, p = s ∨ par p ≠ none := by
      intro p hp
      rcases Finset.mem_insert.mp hp with rfl | hp
      · exact hcur_sk
      · exact h.vis_key p hp
    have hsvis' : s ∈ insert current vis := by
      by_cases hv : vis = ∅
      · have := h.start_first hv
        injection this with h1 _
        rw [h1]
        exact Finset.mem_insert_self _ _
      · exact Finset.mem_insert_of_mem (h.start_mem hv)
    have hcount' : cnt + 1 = (exp ++ [current]).length := by
      simp [hcnt]
    have hcardins : vis.card + 1 ≤ N * N + 1 := by
      have hsub : insert current vis ⊆ insert s (gridCells N) := by
        intro p hp
        rcases Finset.mem_insert.mp hp with rfl | hp
        · rcases hcur_ok with rfl | hopen
          · exact Finset.mem_insert_self _ _
          · exact Finset.mem_insert_of_mem (mem_gridCells.mpr hopen.1)
        · rw [hve, List.mem_toFinset] at hp
          rcases h.mem_ok p hp with rfl | hopen
          · exact Finset.mem_insert_self _ _
          · exact Finset.mem_insert_of_mem (mem_gridCells.mpr hopen.1)
      have h1 := Finset.card_le_card hsub
      have h2 := Finset.card_insert_le s (gridCells N)
      rw [card_gridCells] at h2
      rw [Finset.card_insert_of_not_mem hcv] at h1
      omega
    by_cases hct : current = t
    · subst hct
      rw [if_pos rfl]
      refine ⟨{ vis_eq := hviseq', nodup := hnodup', mem_ok := hmemok',
                stack_ok := ?_, key_chain := h.key_chain, stack_key := ?_,
                vis_key := hviskey', parent_keys := h.parent_keys,
                start_first := ?_, start_mem := fun _ => hsvis', closure := ?_,
                done_eq := rfl, done_target := ?_, target_done := fun _ => rfl,
                count_eq := hcount', trace_eq := ?_ },
        ?_⟩
      · intro p hp
        exact h.stack_ok p (List.mem_cons_of_mem _ hp)
      · intro p hp
        exact h.stack_key p (List.mem_cons_of_mem _ hp)
      · intro hempty
        have hv : insert current vis = ∅ := hempty
        simp at hv
      · intro hcontra
        simp at hcontra
      · intro _
        show (exp ++ [current]).getLast? = some current
        simp
      · show tr = ((exp ++ [current]).dropLast).filter (fun c => decide (c ≠ s))
        rw [List.dropLast_concat]
        exact htrold
      · show 5 * (N * N + 1 - (insert current vis).card) + rest.length <
          5 * (N * N + 1 - vis.card) + (current :: rest).length
        rw [Finset.card_insert_of_not_mem hcv]
        simp only [List.length_cons]
        omega
    · rw [if_neg hct]
      have hstep2 : (if current = s then
            (⟨rest, insert current vis, par, cnt + 1, tr,
              exp ++ [current], false, false⟩ : DfsState)
          else
            ⟨rest, insert current vis, par, cnt + 1, tr ++ [reparse current],
              exp ++ [current], false, false⟩) =
          ⟨rest, insert current vis, par, cnt + 1,
            (if current = s then tr else tr ++ [reparse current]),
            exp ++ [current], false, false⟩ := by
        by_cases hcs : current = s
        · rw [if_pos hcs, if_pos hcs]
        · rw [if_neg hcs, if_neg hcs]
      rw [hstep2]
      have htargetnot : t ∉ insert current vis := by
        intro hmem
        rcases Finset.mem_insert.mp hmem with rfl | hmem
        · exact hct rfl
        · have := h.target_done hmem
          cases this
      have hmid : DfsMid N walls s t current
          ⟨rest, insert current vis, par, cnt + 1,
            (if current = s then tr else tr ++ [reparse current]),
            exp ++ [current], false, false⟩ := by
        refine { vis_eq := hviseq', nodup := hnodup', mem_ok := hmemok',
                 stack_ok := ?_, key_chain := h.key_chain, stack_key := ?_,
                 vis_key := hviskey', parent_keys := h.parent_keys,
                 s_vis := hsvis', cur_vis := Finset.mem_insert_self _ _,
                 cur_chain := hcur_chain, closure_ex := ?_,
                 target_not := htargetnot, done_false := rfl,
                 found_false := rfl, count_eq := hcount', trace_mid := ?_ }
        · intro p hp
          exact h.stack_ok p (List.mem_cons_of_mem _ hp)
        · intro p hp
          exact h.stack_key p (List.mem_cons_of_mem _ hp)
        · intro u hu
          rcases Finset.mem_insert.mp hu with rfl | hu
          · exact Or.inl rfl
          · refine Or.inr fun q hq1 hq2 hq3 => ?_
            rcases h.closure rfl u hu q hq1 hq2 hq3 with hv | hs
            · exact Or.inl (Finset.mem_insert_of_mem hv)
            · rcases List.mem_cons.mp hs with rfl | hs
              · exact Or.inl (Finset.mem_insert_self _ _)
              · exact Or.inr hs
        · show (if current = s then tr else tr ++ [reparse current]) =
            (exp ++ [current]).filter (fun c => decide (c ≠ s))
          rw [List.filter_append]
          by_cases hcs : current = s
          · subst hcs
            rw [if_pos rfl, htrold]
            simp
          · rw [if_neg hcs, htrold]
            have hrep : reparse current = current := by
              rcases hcur_ok with hcs' | hopen
              · exact absurd hcs' hcs
              · exact reparse_id_inB hopen.1
            simp [hrep, hcs]
      obtain ⟨hfin, hvisF, hlenF, hkeepF, hdiscF⟩ :=
        dfsMid_foldl dirs.reverse _
          (fun d hd => (hdirs d).mp (List.mem_reverse.mp hd)) hmid
      refine ⟨{ vis_eq := hfin.vis_eq, nodup := hfin.nodup,
                mem_ok := hfin.mem_ok, stack_ok := hfin.stack_ok,
                key_chain := hfin.key_chain, stack_key := hfin.stack_key,
                vis_key := hfin.vis_key, parent_keys := hfin.parent_keys,
                start_first := ?_, start_mem := fun _ => hfin.s_vis,
                closure := ?_, done_eq := ?_, done_target := ?_,
                target_done := ?_, count_eq := hfin.count_eq,
                trace_eq := ?_ }, ?_⟩
      · intro hempty
        rw [hvisF] at hempty
        have hv : insert current vis = ∅ := hempty
        simp at hv
      · intro _ u hu q hq1 hq2 hq3
        rcases hfin.closure_ex u hu with rfl | hc
        · obtain ⟨d, hd, hq⟩ := adjP_iff_move.mp hq1
          subst hq
          rcases hdiscF d (List.mem_reverse.mpr ((hdirs d).mpr hd)) ⟨hq2, hq3⟩ with
            hv | hs
          · left
            rw [hvisF]
            exact hv
          · exact Or.inr hs
        · exact hc q hq1 hq2 hq3
      · rw [hfin.done_false, hfin.found_false]
      · intro hcontra
        rw [hfin.done_false] at hcontra
        cases hcontra
      · intro hmem
        exact absurd hmem hfin.target_not
      · rw [hfin.trace_mid, hfin.done_false]
        simp
      · rw [hvisF]
        show 5 * (N * N + 1 - (insert current vis).card) + _ <
          5 * (N * N + 1 - vis.card) + (current :: rest).length
        rw [Finset.card_insert_of_not_mem hcv]
        have hstack1 : (DfsState.mk rest (insert current vis) par (cnt + 1)
            (if current = s then tr else tr ++ [reparse current])
            (exp ++ [current]) false false).stack.length = rest.length := rfl
        rw [hstack1, List.length_reverse, hlen4] at hlenF
        simp only [List.length_cons]
        omega

/-- A finished depth-first state stays put. -/
theorem dfsLoop_done {dirs : List (Int × Int)} {N : Nat} {walls : List Pos}
    {s t : Pos} {fuel : Nat} {st : DfsState} (h : st.done = true) :
    dfsLoop dirs N walls s t fuel st = st := by
  cases fuel with
  | zero => rfl
  | succ f => simp [dfsLoop, h]

/-- An empty stack stops the depth-first loop. -/
theorem dfsLoop_nil {dirs : List (Int × Int)} {N : Nat} {walls : List Pos}
    {s t : Pos} {fuel : Nat} {st : DfsState} (h : st.stack = []) :
    dfsLoop dirs N walls s t fuel st = st := by
  cases fuel with
  | zero => rfl
  | succ f =>
    rw [dfsLoop, h]
    split <;> rfl

/-- A running depth-first state advances by one step. -/
theorem dfsLoop_step {dirs : List (Int × Int)} {N : Nat} {walls : List Pos}
    {s t : Pos} {fuel : Nat} {st : DfsState} {c : Pos} {rest : List Pos}
    (hd : st.done = false) (hq : st.stack = c :: rest) :
    dfsLoop dirs N walls s t (fuel + 1) st =
      dfsLoop dirs N walls s t fuel (dfsStep dirs N walls s t st) := by
  rw [dfsLoop, hd, hq]
  rfl

/-- Running the depth-first loop preserves the invariant, and with fuel at
least the measure the loop truly finishes. -/
theorem dfsLoop_run {dirs : List (Int × Int)}
    (hdirs : ∀ d, d ∈ dirs ↔ d ∈ bfsDirections) (hlen4 : dirs.length = 4)
    {N : Nat} {walls : List Pos} {s t : Pos} :
    ∀ (fuel : Nat) (st : DfsState), DfsInv N walls s t st →
      DfsInv N walls s t (dfsLoop dirs N walls s t fuel st) ∧
      (5 * (N * N + 1 - st.visited.card) + st.stack.length ≤ fuel →
        (dfsLoop dirs N walls s t fuel st).done = true ∨
        (dfsLoop dirs N walls s t fuel st).stack = []) := by
  intro fuel
  induction fuel with
  | zero =>
    intro st h
    refine ⟨h, ?_⟩
    intro hf
    right
    have : st.stack.length = 0 := by omega
    exact List.length_eq_zero.mp this
  | succ f ih =>
    intro st h
    by_cases hd : st.done = true
    · rw [dfsLoop_done hd]
      exact ⟨h, fun _ => Or.inl hd⟩
    · have hd' : st.done = false := by
        cases hdn : st.done
        · rfl
        · exact absurd hdn hd
      cases hq : st.stack with
      | nil =>
        rw [dfsLoop_nil hq]
        exact ⟨h, fun _ => Or.inr hq⟩
      | cons c rest =>
        rw [dfsLoop_step hd' hq]
        obtain ⟨h', hdec⟩ :=
          dfsInv_step hdirs hlen4 h hd' (by rw [hq]; exact List.cons_ne_nil c rest)
        obtain ⟨ih1, ih2⟩ := ih (dfsStep dirs N walls s t st) h'
        refine ⟨ih1, ?_⟩
        intro hf
        apply ih2
        rw [hq] at hdec
        simp only [List.length_cons] at hdec hf
        omega

/-- Full characterization of the shared depth-first loop runner: results of
either depth-first variant before wrapping.  The flag reports reachability;
on success the path has the reported length and is a valid walk; the
callback trace behaves like the breadth-first one. -/
theorem dfs_core (dirs : List (Int × Int))
    (hdirs : ∀ d, d ∈ dirs ↔ d ∈ bfsDirections) (hlen4 : dirs.length = 4)
    (N : Nat) (s t : Pos) (walls : List Pos) :
    ∃ st, dfsLoop dirs N walls s t (5 * N * N + 10) (dfsInit s) = st ∧
      (st.pathFound = true ↔ Reachable N walls s t) ∧
      (st.pathFound = true →
        ∃ n, PChain st.parent N walls s t n ∧ n < N * N + 2 ∧ WalkLen N walls s t n) ∧
      (st.pathFound = true → t = s ∨ openCell N walls t) ∧
      st.visitTrace = (if st.pathFound then st.expanded.dropLast else st.expanded).filter
        (fun c => decide (c ≠ s)) ∧
      st.expanded.Nodup ∧
      (st.pathFound = true → st.expanded.getLast? = some t) ∧
      st.visitedCount = st.expanded.length := by
  obtain ⟨hinv, hexit⟩ := dfsLoop_run hdirs hlen4 (5 * N * N + 10) (dfsInit s)
    (dfsInv_init N walls s t)
  have hfuel : 5 * (N * N + 1 - (dfsInit s).visited.card) + (dfsInit s).stack.length ≤
      5 * N * N + 10 := by
    have hc0 : (dfsInit s).visited.card = 0 := by simp [dfsInit]
    have hl1 : (dfsInit s).stack.length = 1 := by simp [dfsInit]
    have hmul : 5 * N * N = 5 * (N * N) := Nat.mul_assoc 5 N N
    rw [hc0, hl1, hmul]
    omega
  have hstop := hexit hfuel
  set st := dfsLoop dirs N walls s t (5 * N * N + 10) (dfsInit s) with hst
  refine ⟨st, rfl, ?_, ?_, ?_, ?_, ?_, ?_, hinv.count_eq⟩
  · constructor
    · intro hpf
      have hdone : st.done = true := by rw [← hinv.done_eq]; exact hpf
      have hlast := hinv.done_target hdone
      rw [List.getLast?_eq_some_iff] at hlast
      obtain ⟨l', hl'⟩ := hlast
      have htvis : t ∈ st.visited := by
        rw [hinv.vis_eq, List.mem_toFinset, hl']
        simp
      obtain ⟨n, hchain⟩ := hinv.chains t htvis
      exact ⟨n, pchain_walk hchain⟩
    · rintro ⟨m, hwalk⟩
      by_contra hpf
      have hpf' : st.pathFound = false := by
        cases hb : st.pathFound
        · rfl
        · exact absurd hb hpf
      have hdone : st.done = false := by rw [← hinv.done_eq]; exact hpf'
      have hq : st.stack = [] := by
        rcases hstop with hcontra | hq
        · rw [hdone] at hcontra
          cases hcontra
        · exact hq
      -- the visited set is closed under open steps and contains s
      have hsvis : s ∈ st.visited := by
        by_cases hv : st.visited = ∅
        · have := hinv.start_first hv
          rw [this] at hq
          cases hq
        · exact hinv.start_mem hv
      have hreach : ∀ {v k}, WalkLen N walls s v k → v ∈ st.visited := by
        intro v k hw
        induction hw with
        | nil => exact hsvis
        | cons hw hadj hb hnw ih =>
          rcases hinv.closure hdone _ ih _ hadj hb hnw with hv | hscontra
          · exact hv
          · rw [hq] at hscontra
            exact absurd hscontra (List.not_mem_nil _)
      have := hinv.target_done (hreach hwalk)
      rw [hdone] at this
      cases this
  · intro hpf
    have hdone : st.done = true := by rw [← hinv.done_eq]; exact hpf
    have hlast := hinv.done_target hdone
    rw [List.getLast?_eq_some_iff] at hlast
    obtain ⟨l', hl'⟩ := hlast
    have htvis : t ∈ st.visited := by
      rw [hinv.vis_eq, List.mem_toFinset, hl']
      simp
    obtain ⟨n, hchain⟩ := hinv.chains t htvis
    have hbound : n < N * N + 2 := by
      obtain ⟨S, hcard, _, hall⟩ := pchain_nodes hchain
      have hsub : S ⊆ insert s (gridCells N) := by
        intro x hx
        obtain ⟨k, _, hk⟩ := hall x hx
        rcases pchain_mem hk with rfl | hpar
        · exact Finset.mem_insert_self _ _
        · exact Finset.mem_insert_of_mem
            (mem_gridCells.mpr (hinv.parent_keys x hpar).1)
      have h1 := Finset.card_le_card hsub
      have h2 := Finset.card_insert_le s (gridCells N)
      rw [card_gridCells] at h2
      omega
    exact ⟨n, hchain, hbound, pchain_walk hchain⟩
  · intro hpf
    have hdone : st.done = true := by rw [← hinv.done_eq]; exact hpf
    have hlast := hinv.done_target hdone
    rw [List.getLast?_eq_some_iff] at hlast
    obtain ⟨l', hl'⟩ := hlast
    exact hinv.mem_ok t (by rw [hl']; simp)
  · rw [hinv.trace_eq, hinv.done_eq]
  · exact hinv.nodup
  · intro hpf
    apply hinv.done_target
    rw [← hinv.done_eq]
    exact hpf

/-- Full characterization of depthFirstSearch: a result is always returned;
it reports success exactly on reachability; on success the reported
pathLength is the length of an actual walk to the target; the callback trace
fires once per expanded cell except the start and the final target. -/
theorem depthFirstSearch_spec (N : Nat) (s t : Pos) (walls : List Pos) :
    ∃ r, depthFirstSearch N s t walls = some r ∧
      (r.pathFound = true ↔ Reachable N walls s t) ∧
      (r.pathFound = true → WalkLen N walls s t r.pathLength) ∧
      (r.pathFound = false → r.path = [] ∧ r.pathLength = 0) ∧
      (r.pathFound = true → t = s ∨ openCell N walls t) ∧
      r.visitTrace = (if r.pathFound then r.expanded.dropLast else r.expanded).filter
        (fun c => decide (c ≠ s)) ∧
      r.expanded.Nodup ∧
      (r.pathFound = true → r.expanded.getLast? = some t) ∧
      r.visitedCount = r.expanded.length ∧
      r.path.length = r.pathLength := by
  obtain ⟨st, hst, hiff, hfound, hopen, htrace, hnodup, hlast, hcount⟩ :=
    dfs_core dfsDirections (fun d => mem_dfsDirections) rfl N s t walls
  subst hst
  set st := dfsLoop dfsDirections N walls s t (5 * N * N + 10) (dfsInit s) with hstdef
  by_cases hpf : st.pathFound = true
  · obtain ⟨n, hchain, hb, hwalk⟩ := hfound hpf
    obtain ⟨l, hrec, hlen⟩ := reconstruct_chain hchain (N * N + 2) hb
    refine ⟨⟨true, l, st.visitedCount, l.length, st.visitTrace, st.expanded⟩, ?_, ?_,
      ?_, ?_, ?_, ?_, hnodup, ?_, ?_, rfl⟩
    · show (if st.pathFound = true then _ else _) = _
      rw [if_pos hpf, hrec]
    · exact ⟨fun _ => hiff.mp hpf, fun _ => rfl⟩
    · intro _
      show WalkLen N walls s t l.length
      rw [hlen]
      exact hwalk
    · intro hcontra
      cases hcontra
    · intro _
      exact hopen hpf
    · rw [htrace, hpf]
    · intro _
      exact hlast hpf
    · exact hcount
  · have hpf' : st.pathFound = false := by
      cases hb : st.pathFound
      · rfl
      · exact absurd hb hpf
    refine ⟨⟨false, [], st.visitedCount, 0, st.visitTrace, st.expanded⟩, ?_, ?_, ?_,
      ?_, ?_, ?_, hnodup, ?_, ?_, rfl⟩
    · show (if st.pathFound = true then _ else _) = _
      rw [if_neg (by rw [hpf']; exact Bool.false_ne_true)]
    · constructor
      · intro hcontra
        cases hcontra
      · intro hr
        exact absurd (hiff.mpr hr) hpf
    · intro hcontra
      cases hcontra
    · intro _
      exact ⟨rfl, rfl⟩
    · intro hcontra
      cases hcontra
    · rw [htrace, hpf']
    · intro hcontra
      cases hcontra
    · exact hcount

/-- Full characterization of depthFirstSearchTopDown away from its
start-equals-target short-circuit. -/
theorem depthFirstSearchTopDown_spec (N : Nat) (s t : Pos) (walls : List Pos)
    (hstne : s ≠ t) :
    ∃ r, depthFirstSearchTopDown N s t walls = some r ∧
      (r.pathFound = true ↔ Reachable N walls s t) ∧
      (r.pathFound = true → WalkLen N walls s t r.pathLength) ∧
      (r.pathFound = false → r.path = [] ∧ r.pathLength = 0) ∧
      (r.pathFound = true → t = s ∨ openCell N walls t) ∧
      r.visitTrace = (if r.pathFound then r.expanded.dropLast else r.expanded).filter
        (fun c => decide (c ≠ s)) ∧
      r.expanded.Nodup ∧
      (r.pathFound = true → r.expanded.getLast? = some t) ∧
      r.visitedCount = r.expanded.length ∧
      r.success = r.pathFound ∧
      r.path.length = r.pathLength := by
  obtain ⟨st, hst, hiff, hfound, hopen, htrace, hnodup, hlast, hcount⟩ :=
    dfs_core dfsTopDownDirections (fun d => mem_dfsTopDownDirections) rfl N s t walls
  subst hst
  set st := dfsLoop dfsTopDownDirections N walls s t (5 * N * N + 10) (dfsInit s) with hstdef
  by_cases hpf : st.pathFound = true
  · obtain ⟨n, hchain, hb, hwalk⟩ := hfound hpf
    obtain ⟨l, hrec, hlen⟩ := reconstruct_chain hchain (N * N + 2) hb
    refine ⟨⟨true, l, st.visitedCount, l.length, true, st.visitTrace, st.expanded⟩,
      ?_, ?_, ?_, ?_, ?_, ?_, hnodup, ?_, ?_, rfl, rfl⟩
    · show (if s = t then _ else _) = _
      rw [if_neg hstne]
      show (if st.pathFound = true then _ else _) = _
      rw [if_pos hpf, hrec]
    · exact ⟨fun _ => hiff.mp hpf, fun _ => rfl⟩
    · intro _
      show WalkLen N walls s t l.length
      rw [hlen]
      exact hwalk
    · intro hcontra
      cases hcontra
    · intro _
      exact hopen hpf
    · rw [htrace, hpf]
    · intro _
      exact hlast hpf
    · exact hcount
  · have hpf' : st.pathFound = false := by
      cases hb : st.pathFound
      · rfl
      · exact absurd hb hpf
    refine ⟨⟨false, [], st.visitedCount, 0, false, st.visitTrace, st.expanded⟩,
      ?_, ?_, ?_, ?_, ?_, ?_, hnodup, ?_, ?_, rfl, rfl⟩
    · show (if s = t then _ else _) = _
      rw [if_neg hstne]
      show (if st.pathFound = true then _ else _) = _
      rw [if_neg (by rw [hpf']; exact Bool.false_ne_true)]
    · constructor
      · intro hcontra
        cases hcontra
      · intro hr
        exact absurd (hiff.mpr hr) hpf
    · intro hcontra
      cases hcontra
    · intro _
      exact ⟨rfl, rfl⟩
    · intro hcontra
      cases hcontra
    · rw [htrace, hpf']
    · intro hcontra
      cases hcontra
    · exact hcount

/-- breadthFirstSearch on equal endpoints: one dequeue, no callbacks, empty
path of length 0. -/
theorem breadthFirstSearch_self (N : Nat) (s : Pos) (walls : List Pos) :
    breadthFirstSearch N s s walls = some ⟨true, [], 1, 0, [], [s]⟩ := by
  have hstep : bfsStep N walls s s (bfsInit s) =
      ⟨[], {s}, fun _ => none, 1, [], [s], true, true⟩ := by
    simp [bfsStep, bfsInit]
  have hloop : bfsLoop N walls s s (N * N + 2) (bfsInit s) =
      ⟨[], {s}, fun _ => none, 1, [], [s], true, true⟩ := by
    have h2 : N * N + 2 = (N * N + 1) + 1 := rfl
    rw [h2, bfsLoop_step rfl rfl, hstep, bfsLoop_done rfl]
  have hrec : reconstructPath (fun _ => none) s (N * N + 2) s = some [] := by
    have h2 : N * N + 2 = (N * N + 1) + 1 := rfl
    rw [h2, reconstructPath, if_pos rfl]
  simp [breadthFirstSearch, hloop, hrec]

/-- depthFirstSearch on equal endpoints: one pop, no callbacks, empty path
of length 0. -/
theorem depthFirstSearch_self (N : Nat) (s : Pos) (walls : List Pos) :
    depthFirstSearch N s s walls = some ⟨true, [], 1, 0, [], [s]⟩ := by
  have hstep : dfsStep dfsDirections N walls s s (dfsInit s) =
      ⟨[], {s}, fun _ => none, 1, [], [s], true, true⟩ := by
    simp [dfsStep, dfsInit]
  have hloop : dfsLoop dfsDirections N walls s s (5 * N * N + 10) (dfsInit s) =
      ⟨[], {s}, fun _ => none, 1, [], [s], true, true⟩ := by
    have h2 : 5 * N * N + 10 = (5 * N * N + 9) + 1 := rfl
    rw [h2, dfsLoop_step rfl rfl, hstep, dfsLoop_done rfl]
  have hrec : reconstructPath (fun _ => none) s (N * N + 2) s = some [] := by
    have h2 : N * N + 2 = (N * N + 1) + 1 := rfl
    rw [h2, reconstructPath, if_pos rfl]
  simp [depthFirstSearch, hloop, hrec]

/-- depthFirstSearchTopDown short-circuits equal endpoints with a singleton
path of length 1. -/
theorem depthFirstSearchTopDown_self (N : Nat) (s : Pos) (walls : List Pos) :
    depthFirstSearchTopDown N s s walls = some ⟨true, [s], 1, 1, true, [], []⟩ := by
  show (if s = s then _ else _) = _
  rw [if_pos rfl]

/-- dijkstra short-circuits equal endpoints with a singleton path of
length 1. -/
theorem dijkstra_self (N : Nat) (s : Pos) (walls : List Pos) :
    dijkstra N s s walls = some ⟨true, [s], 1, 1, true, [], []⟩ := by
  show (if s = s then _ else _) = _
  rw [if_pos rfl]

/-! Correctness of the dijkstra loop.  The development mirrors the
breadth-first one: per-entry facts about the sorted pending queue, an
invariant bundle, a cut lemma for pop minimality, and a fuel argument. -/

/-- Inserting an entry is a permutation of consing it. -/
theorem insertEntry_perm (e : Pos × WithTop Nat) (l : List (Pos × WithTop Nat)) :
    (insertEntry e l).Perm (e :: l) := by
  induction l with
  | nil => exact List.Perm.refl _
  | cons x xs ih =>
    rw [insertEntry]
    split
    · exact (ih.cons x).trans (List.Perm.swap e x xs)
    · exact List.Perm.refl _

/-- The fold underlying sortPQ permutes the accumulator and the input. -/
theorem sortPQ_fold_perm : ∀ (l acc : List (Pos × WithTop Nat)),
    (l.foldl (fun acc e => insertEntry e acc) acc).Perm (acc ++ l) := by
  intro l
  induction l with
  | nil => intro acc; simp
  | cons e l ih =>
    intro acc
    rw [List.foldl_cons]
    refine (ih (insertEntry e acc)).trans ?_
    refine (((insertEntry_perm e acc).append_right l).trans ?_)
    exact List.perm_middle.symm

/-- Sorting the pending queue permutes it. -/
theorem sortPQ_perm (l : List (Pos × WithTop Nat)) : (sortPQ l).Perm l := by
  have h := sortPQ_fold_perm l []
  simpa [sortPQ] using h

/-- Membership is preserved by the sort. -/
theorem mem_sortPQ {l : List (Pos × WithTop Nat)} {x : Pos × WithTop Nat} :
    x ∈ sortPQ l ↔ x ∈ l :=
  (sortPQ_perm l).mem_iff

/-- The sort preserves length. -/
theorem sortPQ_length (l : List (Pos × WithTop Nat)) :
    (sortPQ l).length = l.length :=
  (sortPQ_perm l).length_eq

/-- Inserting keeps the queue ordered by distance. -/
theorem insertEntry_pairwise {e : Pos × WithTop Nat} {l : List (Pos × WithTop Nat)}
    (h : l.Pairwise (fun a b => a.2 ≤ b.2)) :
    (insertEntry e l).Pairwise (fun a b => a.2 ≤ b.2) := by
  induction l with
  | nil => simp [insertEntry]
  | cons x xs ih =>
    rw [List.pairwise_cons] at h
    rw [insertEntry]
    split
    · rename_i hxe
      rw [List.pairwise_cons]
      refine ⟨?_, ih h.2⟩
      intro y hy
      rcases List.mem_cons.mp ((insertEntry_perm e xs).mem_iff.mp hy) with rfl | hyxs
      · exact hxe
      · exact h.1 y hyxs
    · rename_i hxe
      have hex : e.2 ≤ x.2 := le_of_not_le hxe
      rw [List.pairwise_cons]
      refine ⟨?_, List.pairwise_cons.mpr h⟩
      intro y hy
      rw [List.mem_cons] at hy
      rcases hy with rfl | hyxs
      · exact hex
      · exact hex.trans (h.1 y hyxs)

/-- The sorted queue is ordered by distance. -/
theorem sortPQ_pairwise (l : List (Pos × WithTop Nat)) :
    (sortPQ l).Pairwise (fun a b => a.2 ≤ b.2) := by
  have hgen : ∀ (l acc : List (Pos × WithTop Nat)),
      acc.Pairwise (fun a b => a.2 ≤ b.2) →
      (l.foldl (fun acc e => insertEntry e acc) acc).Pairwise
        (fun a b => a.2 ≤ b.2) := by
    intro l
    induction l with
    | nil => intro acc h; exact h
    | cons e l ih =>
      intro acc h
      rw [List.foldl_cons]
      exact ih _ (insertEntry_pairwise h)
  exact hgen l [] List.Pairwise.nil

/-- The head of the sorted queue has minimal distance. -/
theorem sorted_head_le {l : List (Pos × WithTop Nat)} {e : Pos × WithTop Nat}
    {rest : List (Pos × WithTop Nat)} (hs : sortPQ l = e :: rest)
    {x : Pos × WithTop Nat} (hx : x ∈ l) : e.2 ≤ x.2 := by
  have hp := sortPQ_pairwise l
  rw [hs, List.pairwise_cons] at hp
  have hxs : x ∈ sortPQ l := mem_sortPQ.mpr hx
  rw [hs, List.mem_cons] at hxs
  rcases hxs with rfl | hxr
  · exact le_refl _
  · exact hp.1 x hxr

/-- Parent chains survive a parent-map change away from an unsettled cell:
every parent value recorded in the map is settled, so no chain link can pass
through the changed cell. -/
theorem pchain_congr_at {par par' : Pos → Option Pos} {N : Nat} {walls : List Pos}
    {s : Pos} {V : Finset Pos} {w : Pos}
    (hagree : ∀ x, x ≠ w → par' x = par x)
    (hsettled : ∀ q u, par q = some u → u ∈ V) (hw : w ∉ V)
    {v : Pos} {n : Nat} (h : PChain par N walls s v n) :
    v ≠ w → PChain par' N walls s v n := by
  induction h with
  | nil => intro _; exact PChain.nil
  | @cons u v n hc hp hadj hb hwl hne ih =>
    intro hv
    have hu : u ∈ V := hsettled _ _ hp
    have huw : u ≠ w := fun hh => hw (hh ▸ hu)
    exact PChain.cons (ih huw) (by rw [hagree v hv]; exact hp) hadj hb hwl hne

/-- A parent chain over a map whose keys are all in bounds has fewer than
N * N + 2 links. -/
theorem chain_bound {par : Pos → Option Pos} {N : Nat} {walls : List Pos}
    {s v : Pos} {n : Nat} (hdom : ∀ x, par x ≠ none → inB N x)
    (hc : PChain par N walls s v n) : n < N * N + 2 := by
  obtain ⟨S, hcard, _, hall⟩ := pchain_nodes hc
  have hsub : S ⊆ insert s (gridCells N) := by
    intro x hx
    obtain ⟨k, _, hk⟩ := hall x hx
    rcases pchain_mem hk with rfl | hpar
    · exact Finset.mem_insert_self _ _
    · exact Finset.mem_insert_of_mem (mem_gridCells.mpr (hdom x hpar))
  have h1 := Finset.card_le_card hsub
  have h2 := Finset.card_insert_le s (gridCells N)
  rw [card_gridCells] at h2
  omega

/-- The dijkstra direction list is the common four-offset list. -/
theorem dijkstra_dirs_eq : dijkstraDirections = bfsDirections := rfl

/-- Relaxation completeness at one settled cell and one direction: the
neighbor is settled too, or its tentative distance is at most one more than
the cell's final distance. -/
def closedAt (N : Nat) (walls : List Pos) (σ : DijkstraState) (q : Pos)
    (d : Int × Int) : Prop :=
  inB N (moveP (reparse q) d) → moveP (reparse q) d ∉ walls →
    (moveP (reparse q) d ∈ σ.visited ∨
      ∃ mq mr : Nat, σ.dist q = some (↑mq : WithTop Nat) ∧
        σ.dist (moveP (reparse q) d) = some (↑mr : WithTop Nat) ∧ mr ≤ mq + 1)

/-- Core facts of the dijkstra loop state that are insensitive to the loop
bookkeeping: domain and start value of the distance map, every finite
tentative distance is witnessed by a walk and a parent chain, parents point
to settled cells, every pending entry dominates the current tentative
distance of its cell, every unsettled cell of finite tentative distance has
an exact pending entry, and settled cells carry their exact shortest
distance. -/
structure DijkCore (N : Nat) (walls : List Pos) (s : Pos) (σ : DijkstraState) :
    Prop where
  dist_s : σ.dist s = some 0
  dist_dom : ∀ q, σ.dist q = none ↔ (¬ inB N q ∧ q ≠ s)
  dist_walk : ∀ q (m : Nat), q ≠ s → σ.dist q = some (↑m : WithTop Nat) →
    WalkLen N walls s q m
  prev_settled : ∀ q u, σ.prev q = some u → u ∈ σ.visited
  prev_dom : ∀ q, σ.prev q ≠ none → inB N q
  chain_inv : ∀ q (m : Nat), q ≠ s → σ.dist q = some (↑m : WithTop Nat) →
    PChain σ.prev N walls s q m
  entry_fin : ∀ e ∈ σ.pq, ∃ m : Nat, e.2 = (↑m : WithTop Nat)
  entry_ge : ∀ e ∈ σ.pq, ∃ v, σ.dist e.1 = some v ∧ v ≤ e.2
  hasmin : ∀ q (m : Nat), q ∉ σ.visited → σ.dist q = some (↑m : WithTop Nat) →
    (q, (↑m : WithTop Nat)) ∈ σ.pq
  settled_opt : ∀ q ∈ σ.visited, ∃ m : Nat,
    σ.dist q = some (↑m : WithTop Nat) ∧ IsShortest N walls s q m

/-- Full invariant of the dijkstra loop state. -/
structure DijkInv (N : Nat) (walls : List Pos) (s t : Pos) (σ : DijkstraState) :
    Prop where
  core : DijkCore N walls s σ
  closure : σ.done = false → ∀ q ∈ σ.visited, ∀ d ∈ dijkstraDirections,
    closedAt N walls σ q d
  done_eq : σ.done = true ↔ t ∈ σ.visited
  empty_phase : σ.visited = ∅ → σ = dijkstraInit N s
  s_mem : σ.visited = ∅ ∨ s ∈ σ.visited
  vis_eq : σ.visited = σ.expanded.toFinset
  nodup : σ.expanded.Nodup
  count_eq : σ.visitedCount = σ.expanded.length
  trace_eq : σ.visitTrace = (σ.expanded.filter (fun c => decide (c ≠ s))).map reparse
  last_t : σ.done = true → σ.expanded.getLast? = some t

/-- The initial dijkstra state satisfies the invariant. -/
theorem dijkInv_init (N : Nat) (walls : List Pos) (s t : Pos) :
    DijkInv N walls s t (dijkstraInit N s) := by
  refine ⟨⟨?_, ?_, ?_, ?_, ?_, ?_, ?_, ?_, ?_, ?_⟩, ?_, ?_, ?_, ?_, ?_, ?_, ?_, ?_, ?_⟩
  · show (if s = s then some 0 else _) = some 0
    rw [if_pos rfl]
  · intro q
    show (if q = s then some 0 else if inB N q then some ⊤ else none) = none ↔ _
    split_ifs with h1 h2
    · simp [h1]
    · simp [h1, h2]
    · simp [h1, h2]
  · intro q m hq hd
    exfalso
    revert hd
    show (if q = s then some 0 else if inB N q then some ⊤ else none) =
      some (↑m : WithTop Nat) → False
    rw [if_neg hq]
    split_ifs with h2
    · intro hc
      have : (⊤ : WithTop Nat) = (↑m : WithTop Nat) := Option.some_injective _ hc
      exact (WithTop.coe_ne_top (this.symm)).elim
    · intro hc
      cases hc
  · intro q u hc
    cases hc
  · intro q hc
    exact absurd rfl hc
  · intro q m hq hd
    exfalso
    revert hd
    show (if q = s then some 0 else if inB N q then some ⊤ else none) =
      some (↑m : WithTop Nat) → False
    rw [if_neg hq]
    split_ifs with h2
    · intro hc
      have : (⊤ : WithTop Nat) = (↑m : WithTop Nat) := Option.some_injective _ hc
      exact (WithTop.coe_ne_top (this.symm)).elim
    · intro hc
      cases hc
  · intro e he
    rw [show (dijkstraInit N s).pq = [(s, 0)] from rfl, List.mem_singleton] at he
    exact ⟨0, by rw [he]; simp⟩
  · intro e he
    rw [show (dijkstraInit N s).pq = [(s, 0)] from rfl, List.mem_singleton] at he
    refine ⟨0, ?_, ?_⟩
    · rw [he]
      show (if s = s then some 0 else _) = some 0
      rw [if_pos rfl]
    · rw [he]
  · intro q m _ hd
    have hqs : q = s := by
      by_contra hq
      revert hd
      show (if q = s then some 0 else if inB N q then some ⊤ else none) =
        some (↑m : WithTop Nat) → False
      rw [if_neg hq]
      split_ifs with h2
      · intro hc
        have : (⊤ : WithTop Nat) = (↑m : WithTop Nat) := Option.some_injective _ hc
        exact (WithTop.coe_ne_top (this.symm)).elim
      · intro hc
        cases hc
    subst hqs
    have hm : (↑m : WithTop Nat) = 0 := by
      have hd' : (if q = q then some (0 : WithTop Nat) else
          if inB N q then some ⊤ else none) = some (↑m : WithTop Nat) := hd
      rw [if_pos rfl] at hd'
      exact (Option.some_injective _ hd').symm
    show (q, (↑m : WithTop Nat)) ∈ [(q, (0 : WithTop Nat))]
    rw [hm]
    exact List.mem_singleton.mpr rfl
  · intro q hq
    exact absurd hq (Finset.not_mem_empty q)
  · intro _ q hq
    exact absurd hq (Finset.not_mem_empty q)
  · constructor
    · intro hc
      cases hc
    · intro hc
      exact absurd hc (Finset.not_mem_empty t)
  · intro _
    rfl
  · exact Or.inl rfl
  · rfl
  · exact List.nodup_nil
  · rfl
  · rfl
  · intro hc
    cases hc

/-- Coercion arithmetic in WithTop Nat. -/
theorem wtop_coe_succ (n : Nat) :
    ((↑n : WithTop Nat) + 1) = (↑(n + 1) : WithTop Nat) := by
  norm_cast

/-- State of the relaxation fold: the core invariant, plus the facts that the
just-expanded cell is settled at its exact distance with a witnessing walk. -/
structure DijkMid (N : Nat) (walls : List Pos) (s c : Pos) (n : Nat)
    (σ : DijkstraState) : Prop where
  core : DijkCore N walls s σ
  c_vis : c ∈ σ.visited
  c_dist : σ.dist c = some (↑n : WithTop Nat)
  c_walk : WalkLen N walls s c n

/-- One relaxation preserves the mid-fold invariant, establishes the closure
fact for its direction, and only ever lowers tentative distances while
leaving settled cells and all bookkeeping untouched. -/
theorem dijkstraRelax_pres {N : Nat} {walls : List Pos} {s c : Pos} {n : Nat}
    {σ : DijkstraState} (hmid : DijkMid N walls s c n σ)
    (d : Int × Int) (hd : d ∈ bfsDirections) :
    DijkMid N walls s c n
      (dijkstraRelax N walls c (some ((↑n : WithTop Nat) + 1)) σ d) ∧
    closedAt N walls (dijkstraRelax N walls c (some ((↑n : WithTop Nat) + 1)) σ d)
      c d ∧
    (dijkstraRelax N walls c (some ((↑n : WithTop Nat) + 1)) σ d).visited =
      σ.visited ∧
    (∀ q ∈ σ.visited,
      (dijkstraRelax N walls c (some ((↑n : WithTop Nat) + 1)) σ d).dist q =
        σ.dist q) ∧
    (∀ q (m : Nat), σ.dist q = some (↑m : WithTop Nat) → ∃ m' ≤ m,
      (dijkstraRelax N walls c (some ((↑n : WithTop Nat) + 1)) σ d).dist q =
        some (↑m' : WithTop Nat)) ∧
    (dijkstraRelax N walls c (some ((↑n : WithTop Nat) + 1)) σ d).expanded =
      σ.expanded ∧
    (dijkstraRelax N walls c (some ((↑n : WithTop Nat) + 1)) σ d).visitTrace =
      σ.visitTrace ∧
    (dijkstraRelax N walls c (some ((↑n : WithTop Nat) + 1)) σ d).visitedCount =
      σ.visitedCount ∧
    (dijkstraRelax N walls c (some ((↑n : WithTop Nat) + 1)) σ d).done = σ.done ∧
    (dijkstraRelax N walls c (some ((↑n : WithTop Nat) + 1)) σ d).pq.length ≤
      σ.pq.length + 1 := by
  by_cases h1 : inB N (moveP (reparse c) d)
  case neg =>
    have hstep : dijkstraRelax N walls c (some ((↑n : WithTop Nat) + 1)) σ d = σ := by
      simp only [dijkstraRelax]
      rw [if_neg h1]
    rw [hstep]
    refine ⟨hmid, ?_, rfl, fun q _ => rfl, fun q m hm => ⟨m, le_refl m, hm⟩,
      rfl, rfl, rfl, rfl, Nat.le_succ _⟩
    intro hb _
    exact absurd hb h1
  case pos =>
  by_cases h2 : moveP (reparse c) d ∉ walls ∧ moveP (reparse c) d ∉ σ.visited
  case neg =>
    have hstep : dijkstraRelax N walls c (some ((↑n : WithTop Nat) + 1)) σ d = σ := by
      simp only [dijkstraRelax]
      rw [if_pos h1, if_neg h2]
    rw [hstep]
    refine ⟨hmid, ?_, rfl, fun q _ => rfl, fun q m hm => ⟨m, le_refl m, hm⟩,
      rfl, rfl, rfl, rfl, Nat.le_succ _⟩
    intro _ hw
    rw [not_and_or] at h2
    rcases h2 with h2 | h2
    · rw [not_not] at h2
      exact absurd h2 hw
    · rw [not_not] at h2
      exact Or.inl h2
  case pos =>
  by_cases h3 : ltOpt (some ((↑n : WithTop Nat) + 1))
      (σ.dist (moveP (reparse c) d)) = true
  case neg =>
    have hstep : dijkstraRelax N walls c (some ((↑n : WithTop Nat) + 1)) σ d = σ := by
      simp only [dijkstraRelax]
      rw [if_pos h1, if_pos h2, if_neg h3]
    rw [hstep]
    refine ⟨hmid, ?_, rfl, fun q _ => rfl, fun q m hm => ⟨m, le_refl m, hm⟩,
      rfl, rfl, rfl, rfl, Nat.le_succ _⟩
    intro _ _
    right
    have hnn : σ.dist (moveP (reparse c) d) ≠ none := by
      intro hc
      have := (hmid.core.dist_dom _).mp hc
      exact this.1 h1
    obtain ⟨v, hv⟩ := Option.ne_none_iff_exists.mp hnn
    have hle : v ≤ (↑n : WithTop Nat) + 1 := by
      by_contra hlt
      rw [not_le] at hlt
      apply h3
      rw [← hv]
      show ltOpt (some ((↑n : WithTop Nat) + 1)) (some v) = true
      unfold ltOpt
      exact decide_eq_true hlt
    rw [wtop_coe_succ] at hle
    obtain ⟨mr, rfl, hmr⟩ := WithTop.le_coe_iff.mp hle
    exact ⟨n, mr, hmid.c_dist, hv.symm, hmr⟩
  case pos =>
    -- the relaxation fires
    have hnps : moveP (reparse c) d ≠ s := by
      intro hc
      rw [hc, hmid.core.dist_s] at h3
      unfold ltOpt at h3
      rw [decide_eq_true_eq] at h3
      exact absurd h3 (not_lt.mpr (zero_le _))
    have hadj : adjP (reparse c) (moveP (reparse c) d) :=
      adjP_iff_move.mpr ⟨d, hd, rfl⟩
    have hnn : σ.dist (moveP (reparse c) d) ≠ none := by
      intro hc
      have := (hmid.core.dist_dom _).mp hc
      exact this.1 h1
    obtain ⟨v0, hv0⟩ := Option.ne_none_iff_exists.mp hnn
    have hlt : ((↑n : WithTop Nat) + 1) < v0 := by
      rw [← hv0] at h3
      unfold ltOpt at h3
      rw [decide_eq_true_eq] at h3
      exact h3
    have hstep : dijkstraRelax N walls c (some ((↑n : WithTop Nat) + 1)) σ d =
        { σ with
          dist := fun q => if q = moveP (reparse c) d
            then some ((↑n : WithTop Nat) + 1) else σ.dist q
          prev := fun q => if q = moveP (reparse c) d then some c else σ.prev q
          pq := σ.pq ++ [(moveP (reparse c) d, (↑n : WithTop Nat) + 1)] } := by
      simp only [dijkstraRelax]
      rw [if_pos h1, if_pos h2, if_pos h3]
    have hdist : ∀ q, (dijkstraRelax N walls c (some ((↑n : WithTop Nat) + 1)) σ d).dist q
        = (if q = moveP (reparse c) d then some ((↑n : WithTop Nat) + 1)
          else σ.dist q) := by
      intro q
      rw [hstep]
    have hprev : ∀ q, (dijkstraRelax N walls c (some ((↑n : WithTop Nat) + 1)) σ d).prev q
        = (if q = moveP (reparse c) d then some c else σ.prev q) := by
      intro q
      rw [hstep]
    have hpq : (dijkstraRelax N walls c (some ((↑n : WithTop Nat) + 1)) σ d).pq
        = σ.pq ++ [(moveP (reparse c) d, (↑n : WithTop Nat) + 1)] := by
      rw [hstep]
    have hvis : (dijkstraRelax N walls c (some ((↑n : WithTop Nat) + 1)) σ d).visited
        = σ.visited := by
      rw [hstep]
    have hexp : (dijkstraRelax N walls c (some ((↑n : WithTop Nat) + 1)) σ d).expanded
        = σ.expanded := by
      rw [hstep]
    have htrc : (dijkstraRelax N walls c (some ((↑n : WithTop Nat) + 1)) σ d).visitTrace
        = σ.visitTrace := by
      rw [hstep]
    have hcnt : (dijkstraRelax N walls c (some ((↑n : WithTop Nat) + 1)) σ d).visitedCount
        = σ.visitedCount := by
      rw [hstep]
    have hdone : (dijkstraRelax N walls c (some ((↑n : WithTop Nat) + 1)) σ d).done
        = σ.done := by
      rw [hstep]
    have hcnp : c ≠ moveP (reparse c) d := by
      intro hc
      exact h2.2 (hc ▸ hmid.c_vis)
    have hdist_np : (dijkstraRelax N walls c (some ((↑n : WithTop Nat) + 1)) σ d).dist
        (moveP (reparse c) d) = some ((↑n : WithTop Nat) + 1) := by
      rw [hdist, if_pos rfl]
    have hdist_ne : ∀ q, q ≠ moveP (reparse c) d →
        (dijkstraRelax N walls c (some ((↑n : WithTop Nat) + 1)) σ d).dist q
          = σ.dist q := by
      intro q hq
      rw [hdist, if_neg hq]
    have hprev_f : (dijkstraRelax N walls c (some ((↑n : WithTop Nat) + 1)) σ d).prev
        = fun q => if q = moveP (reparse c) d then some c else σ.prev q := by
      rw [hstep]
    have hchain_c :
        PChain (fun q => if q = moveP (reparse c) d then some c else σ.prev q)
          N walls s c n := by
      by_cases hcs : c = s
      · subst hcs
        have h0 : (↑n : WithTop Nat) = 0 := by
          have hx := hmid.c_dist
          rw [hmid.core.dist_s] at hx
          exact (Option.some_injective _ hx.symm)
        have hn0 : n = 0 := by
          have hx : (↑n : WithTop Nat) = ((0 : Nat) : WithTop Nat) := by
            rw [h0]
            norm_cast
          exact_mod_cast hx
        rw [hn0]
        exact PChain.nil
      · refine pchain_congr_at (V := σ.visited) ?_ hmid.core.prev_settled h2.2
          (hmid.core.chain_inv c n hcs hmid.c_dist) hcnp
        intro x hx
        rw [if_neg hx]
    refine ⟨⟨⟨?_, ?_, ?_, ?_, ?_, ?_, ?_, ?_, ?_, ?_⟩, ?_, ?_, hmid.c_walk⟩,
      ?_, hvis, ?_, ?_, hexp, htrc, hcnt, hdone, ?_⟩
    · rw [hdist, if_neg (fun hc => hnps hc.symm)]
      exact hmid.core.dist_s
    · intro q
      rw [hdist]
      by_cases hq : q = moveP (reparse c) d
      · rw [if_pos hq]
        simp only [Option.some_ne_none, false_iff, not_and]
        intro hc
        exact absurd (hq.symm ▸ h1) hc
      · rw [if_neg hq]
        exact hmid.core.dist_dom q
    · intro q m hqs hq
      rw [hdist] at hq
      by_cases hqn : q = moveP (reparse c) d
      · rw [if_pos hqn] at hq
        have hm : (↑m : WithTop Nat) = (↑n : WithTop Nat) + 1 :=
          (Option.some_injective _ hq).symm
        rw [wtop_coe_succ] at hm
        have hm' : m = n + 1 := by exact_mod_cast hm
        rw [hm', hqn]
        exact WalkLen.cons hmid.c_walk hadj h1 h2.1
      · rw [if_neg hqn] at hq
        exact hmid.core.dist_walk q m hqs hq
    · intro q u hq
      rw [hprev] at hq
      rw [hvis]
      by_cases hqn : q = moveP (reparse c) d
      · rw [if_pos hqn] at hq
        rw [(Option.some_injective _ hq).symm]
        exact hmid.c_vis
      · rw [if_neg hqn] at hq
        exact hmid.core.prev_settled q u hq
    · intro q hq
      rw [hprev] at hq
      by_cases hqn : q = moveP (reparse c) d
      · rw [hqn]
        exact h1
      · rw [if_neg hqn] at hq
        exact hmid.core.prev_dom q hq
    · intro q m hqs hq
      rw [hdist] at hq
      rw [hprev_f]
      by_cases hqn : q = moveP (reparse c) d
      · rw [if_pos hqn] at hq
        have hm : (↑m : WithTop Nat) = (↑n : WithTop Nat) + 1 :=
          (Option.some_injective _ hq).symm
        rw [wtop_coe_succ] at hm
        have hm' : m = n + 1 := by exact_mod_cast hm
        rw [hm', hqn]
        refine PChain.cons hchain_c ?_ hadj h1 h2.1 (hqn ▸ hqs)
        rw [if_pos rfl]
      · rw [if_neg hqn] at hq
        have hold := hmid.core.chain_inv q m hqs hq
        refine pchain_congr_at (V := σ.visited) ?_ hmid.core.prev_settled h2.2
          hold hqn
        intro x hx
        rw [if_neg hx]
    · intro e he
      rw [hpq, List.mem_append] at he
      rcases he with he | he
      · exact hmid.core.entry_fin e he
      · rw [List.mem_singleton] at he
        rw [he]
        exact ⟨n + 1, (wtop_coe_succ n)⟩
    · intro e he
      rw [hpq, List.mem_append] at he
      rcases he with he | he
      · obtain ⟨v, hv, hle⟩ := hmid.core.entry_ge e he
        by_cases hqn : e.1 = moveP (reparse c) d
        · refine ⟨(↑n : WithTop Nat) + 1, ?_, ?_⟩
          · rw [hdist, if_pos hqn]
          · have hveq : v = v0 := by
              rw [hqn] at hv
              rw [← hv0] at hv
              exact (Option.some_injective _ hv).symm
            rw [hveq] at hle
            exact (le_of_lt hlt).trans hle
        · refine ⟨v, ?_, hle⟩
          rw [hdist, if_neg hqn]
          exact hv
      · rw [List.mem_singleton] at he
        rw [he]
        exact ⟨(↑n : WithTop Nat) + 1, hdist_np, le_refl _⟩
    · intro q m hqv hq
      rw [hvis] at hqv
      rw [hdist] at hq
      rw [hpq, List.mem_append]
      by_cases hqn : q = moveP (reparse c) d
      · rw [if_pos hqn] at hq
        have hm : (↑m : WithTop Nat) = (↑n : WithTop Nat) + 1 :=
          (Option.some_injective _ hq).symm
        right
        rw [hqn, hm]
        exact List.mem_singleton.mpr rfl
      · rw [if_neg hqn] at hq
        exact Or.inl (hmid.core.hasmin q m hqv hq)
    · intro q hqv
      rw [hvis] at hqv
      obtain ⟨m, hm, hopt⟩ := hmid.core.settled_opt q hqv
      refine ⟨m, ?_, hopt⟩
      have hqn : q ≠ moveP (reparse c) d := by
        intro hc
        exact h2.2 (hc ▸ hqv)
      rw [hdist, if_neg hqn]
      exact hm
    · rw [hvis]
      exact hmid.c_vis
    · rw [hdist, if_neg hcnp]
      exact hmid.c_dist
    · intro _ _
      rw [hvis]
      right
      refine ⟨n, n + 1, ?_, ?_, le_refl _⟩
      · rw [hdist, if_neg hcnp]
        exact hmid.c_dist
      · rw [hdist_np, wtop_coe_succ]
    · intro q hqv
      have hqn : q ≠ moveP (reparse c) d := by
        intro hc
        exact h2.2 (hc ▸ hqv)
      rw [hdist, if_neg hqn]
    · intro q m hm
      by_cases hqn : q = moveP (reparse c) d
      · have hveq : (↑m : WithTop Nat) = v0 := by
          rw [hqn, ← hv0] at hm
          exact (Option.some_injective _ hm).symm
        have hlt' : (↑n : WithTop Nat) + 1 < (↑m : WithTop Nat) := by
          rw [hveq]
          exact hlt
        rw [wtop_coe_succ] at hlt'
        have hlt'' : n + 1 < m := by exact_mod_cast hlt'
        refine ⟨n + 1, le_of_lt hlt'', ?_⟩
        rw [hdist, if_pos hqn, wtop_coe_succ]
      · refine ⟨m, le_refl m, ?_⟩
        rw [hdist, if_neg hqn]
        exact hm
    · rw [hpq, List.length_append, List.length_singleton]

/-- Closure facts survive later relaxations: settled distances are frozen
and tentative distances only decrease. -/
theorem closedAt_mono {N : Nat} {walls : List Pos} {σ σ' : DijkstraState}
    {q : Pos} {d : Int × Int}
    (hvis : σ.visited ⊆ σ'.visited)
    (hfrz : ∀ x ∈ σ.visited, σ'.dist x = σ.dist x)
    (hq : q ∈ σ.visited)
    (hmono : ∀ x (m : Nat), σ.dist x = some (↑m : WithTop Nat) → ∃ m' ≤ m,
      σ'.dist x = some (↑m' : WithTop Nat))
    (h : closedAt N walls σ q d) : closedAt N walls σ' q d := by
  intro hb hw
  rcases h hb hw with hv | ⟨mq, mr, hq1, hr1, hle⟩
  · left
    exact hvis hv
  · right
    obtain ⟨mr', hmr', hr2⟩ := hmono _ mr hr1
    refine ⟨mq, mr', ?_, hr2, hmr'.trans hle⟩
    rw [hfrz q hq]
    exact hq1

/-- Folding the relaxation over a direction list preserves the mid-fold
invariant, establishes closure for every folded direction, and touches
nothing else. -/
theorem dijkMid_foldl {N : Nat} {walls : List Pos} {s c : Pos} {n : Nat} :
    ∀ (ds : List (Int × Int)) (σ : DijkstraState),
    (∀ d ∈ ds, d ∈ bfsDirections) → DijkMid N walls s c n σ →
    DijkMid N walls s c n
      (ds.foldl (dijkstraRelax N walls c (some ((↑n : WithTop Nat) + 1))) σ) ∧
    (∀ d ∈ ds, closedAt N walls
      (ds.foldl (dijkstraRelax N walls c (some ((↑n : WithTop Nat) + 1))) σ) c d) ∧
    (ds.foldl (dijkstraRelax N walls c (some ((↑n : WithTop Nat) + 1))) σ).visited
      = σ.visited ∧
    (∀ q ∈ σ.visited,
      (ds.foldl (dijkstraRelax N walls c (some ((↑n : WithTop Nat) + 1))) σ).dist q
        = σ.dist q) ∧
    (∀ q (m : Nat), σ.dist q = some (↑m : WithTop Nat) → ∃ m' ≤ m,
      (ds.foldl (dijkstraRelax N walls c (some ((↑n : WithTop Nat) + 1))) σ).dist q
        = some (↑m' : WithTop Nat)) ∧
    (ds.foldl (dijkstraRelax N walls c (some ((↑n : WithTop Nat) + 1))) σ).expanded
      = σ.expanded ∧
    (ds.foldl (dijkstraRelax N walls c (some ((↑n : WithTop Nat) + 1))) σ).visitTrace
      = σ.visitTrace ∧
    (ds.foldl (dijkstraRelax N walls c (some ((↑n : WithTop Nat) + 1))) σ).visitedCount
      = σ.visitedCount ∧
    (ds.foldl (dijkstraRelax N walls c (some ((↑n : WithTop Nat) + 1))) σ).done
      = σ.done ∧
    (ds.foldl (dijkstraRelax N walls c (some ((↑n : WithTop Nat) + 1))) σ).pq.length
      ≤ σ.pq.length + ds.length := by
  intro ds
  induction ds with
  | nil =>
    intro σ _ hmid
    exact ⟨hmid, fun d hd => absurd hd (List.not_mem_nil d), rfl, fun q _ => rfl,
      fun q m hm => ⟨m, le_refl m, hm⟩, rfl, rfl, rfl, rfl, Nat.le_refl _⟩
  | cons d ds ih =>
    intro σ hds hmid
    simp only [List.foldl_cons]
    obtain ⟨hmid1, hclo1, hvis1, hfrz1, hmono1, hexp1, htrc1, hcnt1, hdone1, hlen1⟩ :=
      dijkstraRelax_pres hmid d (hds d (List.mem_cons_self d ds))
    obtain ⟨hmid2, hclo2, hvis2, hfrz2, hmono2, hexp2, htrc2, hcnt2, hdone2, hlen2⟩ :=
      ih (dijkstraRelax N walls c (some ((↑n : WithTop Nat) + 1)) σ d)
        (fun x hx => hds x (List.mem_cons_of_mem d hx)) hmid1
    refine ⟨hmid2, ?_, by rw [hvis2, hvis1], ?_, ?_,
      by rw [hexp2, hexp1], by rw [htrc2, htrc1], by rw [hcnt2, hcnt1],
      by rw [hdone2, hdone1], ?_⟩
    · intro x hx
      rw [List.mem_cons] at hx
      rcases hx with rfl | hx
      · exact closedAt_mono (by rw [hvis2]) hfrz2 hmid1.c_vis hmono2 hclo1
      · exact hclo2 x hx
    · intro q hq
      rw [hfrz2 q (by rw [hvis1]; exact hq)]
      exact hfrz1 q hq
    · intro q m hm
      rcases hmono1 q m hm with ⟨m1, hm1, hd1⟩
      rcases hmono2 q m1 hd1 with ⟨m2, hm2, hd2⟩
      exact ⟨m2, hm2.trans hm1, hd2⟩
    · calc (ds.foldl (dijkstraRelax N walls c (some ((↑n : WithTop Nat) + 1)))
          (dijkstraRelax N walls c (some ((↑n : WithTop Nat) + 1)) σ d)).pq.length
          ≤ (dijkstraRelax N walls c (some ((↑n : WithTop Nat) + 1)) σ d).pq.length
            + ds.length := hlen2
        _ ≤ σ.pq.length + 1 + ds.length := Nat.add_le_add_right hlen1 _
        _ = σ.pq.length + (d :: ds).length := by
            rw [List.length_cons]
            omega

/-- Settled cells are the start or in-bounds cells, so at most N * N + 1. -/
theorem dijkInv_card_le {N : Nat} {walls : List Pos} {s t : Pos}
    {σ : DijkstraState} (hinv : DijkInv N walls s t σ) :
    σ.visited.card ≤ N * N + 1 := by
  have hsub : σ.visited ⊆ insert s (gridCells N) := by
    intro q hq
    obtain ⟨m, hm, _⟩ := hinv.core.settled_opt q hq
    by_cases hqs : q = s
    · rw [hqs]
      exact Finset.mem_insert_self _ _
    · refine Finset.mem_insert_of_mem (mem_gridCells.mpr ?_)
      by_contra hnin
      have : σ.dist q = none := (hinv.core.dist_dom q).mpr ⟨hnin, hqs⟩
      rw [hm] at this
      cases this
  have h1 := Finset.card_le_card hsub
  have h2 := Finset.card_insert_le s (gridCells N)
  rw [card_gridCells] at h2
  omega

/-- The cut lemma: while the loop is running, the minimal pending distance is
a lower bound on the length of every walk ending outside the settled set. -/
theorem dijkstra_cut {N : Nat} {walls : List Pos} {s t : Pos} {σ : DijkstraState}
    (hinv : DijkInv N walls s t σ) (hdone : σ.done = false)
    {e : Pos × WithTop Nat} {rest : List (Pos × WithTop Nat)}
    (hsort : sortPQ σ.pq = e :: rest) :
    ∀ q (m : Nat), WalkLen N walls s q m → q ∉ σ.visited →
      e.2 ≤ (↑m : WithTop Nat) := by
  intro q m hw
  induction hw with
  | nil =>
    intro hqv
    rcases hinv.s_mem with hemp | hsv
    · have hini := hinv.empty_phase hemp
      have hpq : σ.pq = [(s, 0)] := by rw [hini]; rfl
      rw [hpq] at hsort
      have hs0 : sortPQ [((s : Pos), (0 : WithTop Nat))] = [(s, 0)] := rfl
      rw [hs0] at hsort
      have he : (s, (0 : WithTop Nat)) = e := (List.cons.injEq _ _ _ _).mp hsort |>.1
      rw [← he]
      exact zero_le _
    · exact absurd hsv hqv
  | @cons u v m' hwu hadj hb hnw ih =>
    intro hv
    by_cases hu : u ∈ σ.visited
    · obtain ⟨ku, hku, hopt⟩ := hinv.core.settled_opt u hu
      have hkum : ku ≤ m' := hopt.2 m' hwu
      obtain ⟨d, hd, hveq⟩ := adjP_iff_move.mp hadj
      have hclo := hinv.closure hdone u hu d (by rw [dijkstra_dirs_eq]; exact hd)
      unfold closedAt at hclo
      rw [← hveq] at hclo
      rcases hclo hb hnw with hvv | ⟨mq, mr, hq1, hr1, hle⟩
      · exact absurd hvv hv
      · have hmq : ku = mq := by
          rw [hku] at hq1
          exact_mod_cast Option.some_injective _ hq1
        have hment := hinv.core.hasmin v mr hv hr1
        have hhead : e.2 ≤ ((v, (↑mr : WithTop Nat)).2) := sorted_head_le hsort hment
        have hmr : mr ≤ m' + 1 := by omega
        calc e.2 ≤ (↑mr : WithTop Nat) := hhead
          _ ≤ (↑(m' + 1) : WithTop Nat) := by exact_mod_cast hmr
    · refine (ih hu).trans ?_
      exact_mod_cast Nat.le_succ m'

/-- When the pending queue is exhausted, every reachable cell is settled. -/
theorem dijkstra_exhaust {N : Nat} {walls : List Pos} {s t : Pos}
    {σ : DijkstraState} (hinv : DijkInv N walls s t σ) (hdone : σ.done = false)
    (hpq : σ.pq = []) :
    ∀ q (m : Nat), WalkLen N walls s q m → q ∈ σ.visited := by
  intro q m hw
  induction hw with
  | nil =>
    rcases hinv.s_mem with hemp | hsv
    · have hini := hinv.empty_phase hemp
      have hpq' : σ.pq = [(s, 0)] := by rw [hini]; rfl
      rw [hpq] at hpq'
      cases hpq'
    · exact hsv
  | @cons u v m' hwu hadj hb hnw ih =>
    obtain ⟨d, hd, hveq⟩ := adjP_iff_move.mp hadj
    have hclo := hinv.closure hdone u ih d (by rw [dijkstra_dirs_eq]; exact hd)
    unfold closedAt at hclo
    rw [← hveq] at hclo
    rcases hclo hb hnw with hvv | ⟨mq, mr, hq1, hr1, hle⟩
    · exact hvv
    · by_contra hv
      have hment := hinv.core.hasmin v mr hv hr1
      rw [hpq] at hment
      exact absurd hment (List.not_mem_nil _)

/-- Analysis of a popped unsettled entry: its recorded distance equals the
cell's tentative distance and is the exact shortest walk length. -/
theorem dijkstra_pop {N : Nat} {walls : List Pos} {s t : Pos} {σ : DijkstraState}
    (hinv : DijkInv N walls s t σ) (hdone : σ.done = false)
    {c : Pos} {dc : WithTop Nat} {rest : List (Pos × WithTop Nat)}
    (hsort : sortPQ σ.pq = (c, dc) :: rest) (hcv : c ∉ σ.visited) :
    ∃ nc : Nat, dc = (↑nc : WithTop Nat) ∧
      σ.dist c = some (↑nc : WithTop Nat) ∧ IsShortest N walls s c nc := by
  have hcmem : (c, dc) ∈ σ.pq := by
    have hx : (c, dc) ∈ sortPQ σ.pq := by
      rw [hsort]
      exact List.mem_cons_self _ _
    exact mem_sortPQ.mp hx
  obtain ⟨nc0, hnc0⟩ := hinv.core.entry_fin _ hcmem
  obtain ⟨v, hv, hvle⟩ := hinv.core.entry_ge _ hcmem
  have hvfin : ∃ kv : Nat, v = (↑kv : WithTop Nat) := by
    have hvle' : v ≤ (↑nc0 : WithTop Nat) := by
      rw [← hnc0]
      exact hvle
    obtain ⟨kv, hkv, _⟩ := WithTop.le_coe_iff.mp hvle'
    exact ⟨kv, hkv⟩
  obtain ⟨kv, rfl⟩ := hvfin
  have hment := hinv.core.hasmin c kv hcv hv
  have hge : dc ≤ (↑kv : WithTop Nat) := sorted_head_le hsort hment
  have heq : dc = (↑kv : WithTop Nat) := le_antisymm hge hvle
  have hwalk : WalkLen N walls s c kv := by
    by_cases hcs : c = s
    · have h0 : σ.dist c = some 0 := by rw [hcs]; exact hinv.core.dist_s
      rw [h0] at hv
      have : (0 : WithTop Nat) = (↑kv : WithTop Nat) := Option.some_injective _ hv
      have hk0 : kv = 0 := by exact_mod_cast this.symm
      rw [hcs, hk0]
      exact WalkLen.nil
    · exact hinv.core.dist_walk c kv hcs hv
  refine ⟨kv, heq, hv, hwalk, ?_⟩
  intro m hm
  have hcut := dijkstra_cut hinv hdone hsort c m hm hcv
  rw [heq] at hcut
  have hcut' : (↑kv : WithTop Nat) ≤ (↑m : WithTop Nat) := hcut
  exact_mod_cast hcut'

/-- One iteration of the dijkstra loop preserves the invariant; it either
drops one stale entry, or settles one new cell while pushing at most four
entries. -/
theorem dijkInv_step {N : Nat} {walls : List Pos} {s t : Pos} {σ : DijkstraState}
    (hinv : DijkInv N walls s t σ) (hdone : σ.done = false) (hpq : σ.pq ≠ []) :
    DijkInv N walls s t (dijkstraStep N walls s t σ) ∧
    (((dijkstraStep N walls s t σ).visited.card = σ.visited.card ∧
        (dijkstraStep N walls s t σ).pq.length + 1 = σ.pq.length) ∨
      ((dijkstraStep N walls s t σ).visited.card = σ.visited.card + 1 ∧
        (dijkstraStep N walls s t σ).pq.length + 1 ≤ σ.pq.length + 4)) := by
  cases hsort : sortPQ σ.pq with
  | nil =>
    exfalso
    have hlen := sortPQ_length σ.pq
    rw [hsort] at hlen
    have : σ.pq.length = 0 := hlen.symm
    exact hpq (List.length_eq_zero.mp this)
  | cons e rest =>
  obtain ⟨c, dc⟩ := e
  have hrest_sub : ∀ x ∈ rest, x ∈ σ.pq := by
    intro x hx
    exact mem_sortPQ.mp (by rw [hsort]; exact List.mem_cons_of_mem _ hx)
  have hlen_rest : rest.length + 1 = σ.pq.length := by
    have hlen := sortPQ_length σ.pq
    rw [hsort, List.length_cons] at hlen
    exact hlen
  by_cases hcv : c ∈ σ.visited
  · -- stale entry: drop it
    have hstep : dijkstraStep N walls s t σ = { σ with pq := rest } := by
      simp only [dijkstraStep]
      rw [hsort]
      show (if c ∈ σ.visited then _ else _) = _
      rw [if_pos hcv]
    rw [hstep]
    refine ⟨⟨⟨hinv.core.dist_s, hinv.core.dist_dom, hinv.core.dist_walk,
      hinv.core.prev_settled, hinv.core.prev_dom, hinv.core.chain_inv,
      ?_, ?_, ?_, hinv.core.settled_opt⟩,
      hinv.closure, hinv.done_eq, ?_, hinv.s_mem, hinv.vis_eq, hinv.nodup,
      hinv.count_eq, hinv.trace_eq, hinv.last_t⟩, Or.inl ⟨rfl, hlen_rest⟩⟩
    · intro x hx
      exact hinv.core.entry_fin x (hrest_sub x hx)
    · intro x hx
      exact hinv.core.entry_ge x (hrest_sub x hx)
    · intro q m hqv hq
      have hmem := hinv.core.hasmin q m hqv hq
      have hmem' : (q, (↑m : WithTop Nat)) ∈ sortPQ σ.pq := mem_sortPQ.mpr hmem
      rw [hsort, List.mem_cons] at hmem'
      rcases hmem' with heq | hmem'
      · exfalso
        have hqc : q = c := (Prod.mk.injEq _ _ _ _ ▸ heq).1
        exact hqv (hqc ▸ hcv)
      · exact hmem'
    · intro hemp
      exfalso
      rw [hemp] at hcv
      exact absurd hcv (Finset.not_mem_empty c)
  · -- a fresh settle
    obtain ⟨nc, hdc, hdistc, hshort⟩ := dijkstra_pop hinv hdone hsort hcv
    have hwalkc : WalkLen N walls s c nc := hshort.1
    have htv : t ∉ σ.visited := by
      intro h
      have := hinv.done_eq.mpr h
      rw [hdone] at this
      cases this
    have hsc : s ∈ σ.visited ∨ c = s := by
      rcases hinv.s_mem with hemp | hsv
      · right
        have hini := hinv.empty_phase hemp
        have hpq' : σ.pq = [(s, 0)] := by rw [hini]; rfl
        rw [hpq'] at hsort
        have hs0 : sortPQ [((s : Pos), (0 : WithTop Nat))] = [(s, 0)] := rfl
        rw [hs0] at hsort
        have := (List.cons.injEq _ _ _ _).mp hsort
        exact ((Prod.mk.injEq _ _ _ _ ▸ this.1).1).symm
      · left
        exact hsv
    have hcexp : c ∉ σ.expanded := by
      intro h
      apply hcv
      rw [hinv.vis_eq]
      exact List.mem_toFinset.mpr h
    have hnodup' : (σ.expanded ++ [c]).Nodup := by
      rw [List.nodup_append]
      refine ⟨hinv.nodup, List.nodup_singleton c, ?_⟩
      intro x hx hxc
      rw [List.mem_singleton] at hxc
      exact hcexp (hxc ▸ hx)
    have hviseq' : insert c σ.visited = (σ.expanded ++ [c]).toFinset := by
      rw [hinv.vis_eq, List.toFinset_append, List.toFinset_cons, List.toFinset_nil,
        Finset.insert_eq, Finset.union_comm]
      rfl
    have hcount' : σ.visitedCount + 1 = (σ.expanded ++ [c]).length := by
      rw [hinv.count_eq, List.length_append, List.length_singleton]
    have htrace' : σ.visitTrace ++ (if c = s then [] else [reparse c]) =
        (((σ.expanded ++ [c]).filter (fun x => decide (x ≠ s))).map reparse) := by
      rw [List.filter_append, List.map_append, ← hinv.trace_eq]
      by_cases hcs : c = s
      · simp [hcs]
      · simp [hcs]
    have hsettled' : ∀ q ∈ insert c σ.visited, ∃ m : Nat,
        σ.dist q = some (↑m : WithTop Nat) ∧ IsShortest N walls s q m := by
      intro q hq
      rcases Finset.mem_insert.mp hq with rfl | hq
      · exact ⟨nc, hdistc, hshort⟩
      · exact hinv.core.settled_opt q hq
    have hhasmin' : ∀ q (m : Nat), q ∉ insert c σ.visited →
        σ.dist q = some (↑m : WithTop Nat) → (q, (↑m : WithTop Nat)) ∈ rest := by
      intro q m hqv hq
      have hqc : q ≠ c := fun h => hqv (h ▸ Finset.mem_insert_self c σ.visited)
      have hqv' : q ∉ σ.visited := fun h => hqv (Finset.mem_insert_of_mem h)
      have hmem := hinv.core.hasmin q m hqv' hq
      have hmem' : (q, (↑m : WithTop Nat)) ∈ sortPQ σ.pq := mem_sortPQ.mpr hmem
      rw [hsort, List.mem_cons] at hmem'
      rcases hmem' with heq | hmem'
      · exact absurd ((Prod.mk.injEq _ _ _ _ ▸ heq).1) hqc
      · exact hmem'
    have hsmem' : s ∈ insert c σ.visited := by
      rcases hsc with hsv | rfl
      · exact Finset.mem_insert_of_mem hsv
      · exact Finset.mem_insert_self _ _
    by_cases hct : c = t
    · -- target popped: break
      have hstep : dijkstraStep N walls s t σ =
          { σ with
            pq := rest
            visited := insert c σ.visited
            visitedCount := σ.visitedCount + 1
            visitTrace := σ.visitTrace ++ (if c = s then [] else [reparse c])
            expanded := σ.expanded ++ [c]
            done := true } := by
        by_cases hcs : c = s
        · simp only [dijkstraStep]
          rw [hsort]
          show (if c ∈ σ.visited then _ else _) = _
          rw [if_neg hcv]
          show (if c = t then _ else _) = _
          rw [if_pos hct, if_pos hcs, if_pos hcs, List.append_nil]
        · simp only [dijkstraStep]
          rw [hsort]
          show (if c ∈ σ.visited then _ else _) = _
          rw [if_neg hcv]
          show (if c = t then _ else _) = _
          rw [if_pos hct, if_neg hcs, if_neg hcs]
      rw [hstep]
      refine ⟨⟨⟨hinv.core.dist_s, hinv.core.dist_dom, hinv.core.dist_walk,
        ?_, hinv.core.prev_dom, hinv.core.chain_inv, ?_, ?_, hhasmin',
        hsettled'⟩, ?_, ?_, ?_, Or.inr hsmem', hviseq', hnodup', hcount',
        htrace', ?_⟩, Or.inr ⟨?_, ?_⟩⟩
      · intro q u hq
        exact Finset.mem_insert_of_mem (hinv.core.prev_settled q u hq)
      · intro x hx
        exact hinv.core.entry_fin x (hrest_sub x hx)
      · intro x hx
        exact hinv.core.entry_ge x (hrest_sub x hx)
      · intro hfd
        cases hfd
      · constructor
        · intro _
          rw [← hct]
          exact Finset.mem_insert_self _ _
        · intro _
          rfl
      · intro hemp
        exact absurd hemp (Finset.insert_ne_empty _ _)
      · intro _
        rw [List.getLast?_concat, hct]
      · exact Finset.card_insert_of_not_mem hcv
      · show rest.length + 1 ≤ σ.pq.length + 4
        omega
    · -- expansion: relax the four neighbors
      have hstep : dijkstraStep N walls s t σ =
          dijkstraDirections.foldl
            (dijkstraRelax N walls c (some ((↑nc : WithTop Nat) + 1)))
            { σ with
              pq := rest
              visited := insert c σ.visited
              visitedCount := σ.visitedCount + 1
              visitTrace := σ.visitTrace ++ (if c = s then [] else [reparse c])
              expanded := σ.expanded ++ [c] } := by
        by_cases hcs : c = s
        · simp only [dijkstraStep]
          rw [hsort]
          show (if c ∈ σ.visited then _ else _) = _
          rw [if_neg hcv]
          show (if c = t then _ else _) = _
          rw [if_neg hct, if_pos hcs, if_pos hcs, List.append_nil]
          show dijkstraDirections.foldl
            (dijkstraRelax N walls c ((σ.dist c).map (· + 1))) _ = _
          rw [hdistc]
          rfl
        · simp only [dijkstraStep]
          rw [hsort]
          show (if c ∈ σ.visited then _ else _) = _
          rw [if_neg hcv]
          show (if c = t then _ else _) = _
          rw [if_neg hct, if_neg hcs, if_neg hcs]
          show dijkstraDirections.foldl
            (dijkstraRelax N walls c ((σ.dist c).map (· + 1))) _ = _
          rw [hdistc]
          rfl
      have hmid : DijkMid N walls s c nc
          { σ with
            pq := rest
            visited := insert c σ.visited
            visitedCount := σ.visitedCount + 1
            visitTrace := σ.visitTrace ++ (if c = s then [] else [reparse c])
            expanded := σ.expanded ++ [c] } := by
        refine ⟨⟨hinv.core.dist_s, hinv.core.dist_dom, hinv.core.dist_walk,
          ?_, hinv.core.prev_dom, hinv.core.chain_inv, ?_, ?_, hhasmin',
          hsettled'⟩, Finset.mem_insert_self _ _, hdistc, hwalkc⟩
        · intro q u hq
          exact Finset.mem_insert_of_mem (hinv.core.prev_settled q u hq)
        · intro x hx
          exact hinv.core.entry_fin x (hrest_sub x hx)
        · intro x hx
          exact hinv.core.entry_ge x (hrest_sub x hx)
      obtain ⟨hmid', hclo, hvis, hfrz, hmono, hexp, htrc, hcnt, hdone', hlen⟩ :=
        dijkMid_foldl dijkstraDirections _
          (fun d hd => by rw [← dijkstra_dirs_eq]; exact hd) hmid
      rw [hstep]
      have hfd : (dijkstraDirections.foldl
          (dijkstraRelax N walls c (some ((↑nc : WithTop Nat) + 1)))
          { σ with
            pq := rest
            visited := insert c σ.visited
            visitedCount := σ.visitedCount + 1
            visitTrace := σ.visitTrace ++ (if c = s then [] else [reparse c])
            expanded := σ.expanded ++ [c] }).done = false := by
        rw [hdone']
        exact hdone
      refine ⟨⟨hmid'.core, ?_, ?_, ?_, ?_, ?_, ?_, ?_, ?_, ?_⟩,
        Or.inr ⟨?_, ?_⟩⟩
      · intro _ q hq d hd
        rw [hvis] at hq
        rcases Finset.mem_insert.mp hq with rfl | hq
        · exact hclo d hd
        · refine closedAt_mono ?_ ?_ hq ?_ (hinv.closure hdone q hq d hd)
          · rw [hvis]
            intro x hx
            exact Finset.mem_insert_of_mem hx
          · intro x hx
            exact hfrz x (Finset.mem_insert_of_mem hx)
          · intro x m hm
            exact hmono x m hm
      · constructor
        · intro h
          rw [hfd] at h
          cases h
        · intro h
          exfalso
          rw [hvis] at h
          rcases Finset.mem_insert.mp h with h | h
          · exact hct h.symm
          · exact htv h
      · intro hemp
        rw [hvis] at hemp
        exact absurd hemp (Finset.insert_ne_empty _ _)
      · right
        rw [hvis]
        exact hsmem'
      · rw [hvis, hexp]
        exact hviseq'
      · rw [hexp]
        exact hnodup'
      · rw [hcnt, hexp]
        exact hcount'
      · rw [htrc, hexp]
        exact htrace'
      · intro h
        rw [hfd] at h
        cases h
      · rw [hvis]
        exact Finset.card_insert_of_not_mem hcv
      · have h4 : dijkstraDirections.length = 4 := rfl
        rw [h4] at hlen
        have hl : ({ σ with
            pq := rest
            visited := insert c σ.visited
            visitedCount := σ.visitedCount + 1
            visitTrace := σ.visitTrace ++ (if c = s then [] else [reparse c])
            expanded := σ.expanded ++ [c] } : DijkstraState).pq.length
            = rest.length := rfl
        rw [hl] at hlen
        omega

/-- A done loop state is final. -/
theorem dijkstraLoop_done {N : Nat} {walls : List Pos} {s t : Pos} {fuel : Nat}
    {σ : DijkstraState} (h : σ.done = true) :
    dijkstraLoop N walls s t fuel σ = σ := by
  cases fuel with
  | zero => rfl
  | succ f => simp [dijkstraLoop, h]

/-- An exhausted pending queue stops the loop. -/
theorem dijkstraLoop_nil {N : Nat} {walls : List Pos} {s t : Pos} {fuel : Nat}
    {σ : DijkstraState} (h : σ.pq = []) :
    dijkstraLoop N walls s t fuel σ = σ := by
  cases fuel with
  | zero => rfl
  | succ f =>
    rw [dijkstraLoop, h]
    split <;> rfl

/-- Unfolding one loop iteration. -/
theorem dijkstraLoop_step {N : Nat} {walls : List Pos} {s t : Pos} {fuel : Nat}
    {σ : DijkstraState} {e : Pos × WithTop Nat} {rest : List (Pos × WithTop Nat)}
    (hd : σ.done = false) (hq : σ.pq = e :: rest) :
    dijkstraLoop N walls s t (fuel + 1) σ =
      dijkstraLoop N walls s t fuel (dijkstraStep N walls s t σ) := by
  rw [dijkstraLoop, hd, hq]
  rfl

/-- Running the loop preserves the invariant and, with enough fuel, ends in a
final state: the target was popped or the pending queue is exhausted. -/
theorem dijkLoop_run {N : Nat} {walls : List Pos} {s t : Pos} :
    ∀ (fuel : Nat) (σ : DijkstraState), DijkInv N walls s t σ →
      DijkInv N walls s t (dijkstraLoop N walls s t fuel σ) ∧
      (5 * (N * N + 1 - σ.visited.card) + σ.pq.length ≤ fuel →
        (dijkstraLoop N walls s t fuel σ).done = true ∨
        (dijkstraLoop N walls s t fuel σ).pq = []) := by
  intro fuel
  induction fuel with
  | zero =>
    intro σ h
    refine ⟨h, ?_⟩
    intro hf
    right
    have hlen : σ.pq.length = 0 := by omega
    exact List.length_eq_zero.mp hlen
  | succ f ih =>
    intro σ h
    by_cases hd : σ.done = true
    · rw [dijkstraLoop_done hd]
      exact ⟨h, fun _ => Or.inl hd⟩
    · have hd' : σ.done = false := by
        cases hdn : σ.done
        · rfl
        · exact absurd hdn hd
      cases hq : σ.pq with
      | nil =>
        rw [dijkstraLoop_nil hq]
        exact ⟨h, fun _ => Or.inr hq⟩
      | cons e rest =>
        rw [dijkstraLoop_step hd' hq]
        obtain ⟨h', hmeas⟩ := dijkInv_step h hd'
          (by rw [hq]; exact List.cons_ne_nil e rest)
        obtain ⟨ih1, ih2⟩ := ih _ h'
        refine ⟨ih1, ?_⟩
        intro hf
        have hcard' := dijkInv_card_le h'
        simp only [List.length_cons] at hf
        have hpre : 5 * (N * N + 1 - (dijkstraStep N walls s t σ).visited.card) +
            (dijkstraStep N walls s t σ).pq.length ≤ f := by
          have hql : σ.pq.length = rest.length + 1 := by
            rw [hq, List.length_cons]
          set u := N * N with hu
          rcases hmeas with ⟨hc, hl⟩ | ⟨hc, hl⟩ <;> omega
        exact ih2 hpre

/-- Full characterization of the dijkstra loop run by the algorithm. -/
theorem dijkstra_core (N : Nat) (s t : Pos) (walls : List Pos) :
    ∃ σ, dijkstraLoop N walls s t (5 * N * N + 10) (dijkstraInit N s) = σ ∧
      (inB N t → ((σ.dist t ≠ some ⊤) ↔ Reachable N walls s t)) ∧
      (∀ k : Nat, σ.dist t = some (↑k : WithTop Nat) →
        IsShortest N walls s t k ∧ (t ≠ s → PChain σ.prev N walls s t k) ∧
        σ.done = true) ∧
      (¬ inB N t → t ≠ s → σ.dist t = none ∧ σ.prev t = none) ∧
      (∀ x, σ.prev x ≠ none → inB N x) ∧
      σ.visitTrace = (σ.expanded.filter (fun c => decide (c ≠ s))).map reparse ∧
      σ.expanded.Nodup ∧
      σ.visitedCount = σ.expanded.length ∧
      (σ.done = true → σ.expanded.getLast? = some t) ∧
      (σ.dist t = some ⊤ → σ.done = false) ∧
      (inB N t → σ.dist t = some ⊤ ∨
        ∃ k : Nat, σ.dist t = some (↑k : WithTop Nat)) := by
  obtain ⟨hinv, hexit⟩ :=
    dijkLoop_run (5 * N * N + 10) (dijkstraInit N s) (dijkInv_init N walls s t)
  have hfuel : 5 * (N * N + 1 - (dijkstraInit N s).visited.card) +
      (dijkstraInit N s).pq.length ≤ 5 * N * N + 10 := by
    have hc0 : (dijkstraInit N s).visited.card = 0 := rfl
    have hl1 : (dijkstraInit N s).pq.length = 1 := rfl
    have hmul : 5 * N * N = 5 * (N * N) := Nat.mul_assoc 5 N N
    rw [hc0, hl1, hmul]
    omega
  have hstop := hexit hfuel
  refine ⟨dijkstraLoop N walls s t (5 * N * N + 10) (dijkstraInit N s), rfl,
    ?_, ?_, ?_, ?_, hinv.trace_eq, hinv.nodup, hinv.count_eq, hinv.last_t, ?_, ?_⟩
  · intro hin
    constructor
    · intro hne
      have hnn : (dijkstraLoop N walls s t (5 * N * N + 10)
          (dijkstraInit N s)).dist t ≠ none := by
        intro hc
        exact ((hinv.core.dist_dom t).mp hc).1 hin
      obtain ⟨v, hv⟩ := Option.ne_none_iff_exists.mp hnn
      cases v with
      | top =>
        exact absurd hv.symm hne
      | coe k =>
        by_cases hts : t = s
        · exact ⟨0, hts ▸ WalkLen.nil⟩
        · exact ⟨k, hinv.core.dist_walk t k hts hv.symm⟩
    · intro hreach
      obtain ⟨m, hw⟩ := hreach
      have htvis : t ∈ (dijkstraLoop N walls s t (5 * N * N + 10)
          (dijkstraInit N s)).visited := by
        rcases hstop with hdone | hpq
        · exact hinv.done_eq.mp hdone
        · by_cases hdone : (dijkstraLoop N walls s t (5 * N * N + 10)
              (dijkstraInit N s)).done = true
          · exact hinv.done_eq.mp hdone
          · have hd' : (dijkstraLoop N walls s t (5 * N * N + 10)
                (dijkstraInit N s)).done = false := by
              cases hdn : (dijkstraLoop N walls s t (5 * N * N + 10)
                  (dijkstraInit N s)).done
              · rfl
              · exact absurd hdn hdone
            exact dijkstra_exhaust hinv hd' hpq t m hw
      obtain ⟨k, hk, _⟩ := hinv.core.settled_opt t htvis
      rw [hk]
      intro hc
      have : (↑k : WithTop Nat) = ⊤ := Option.some_injective _ hc
      exact WithTop.coe_ne_top this
  · intro k hk
    have htvis : t ∈ (dijkstraLoop N walls s t (5 * N * N + 10)
        (dijkstraInit N s)).visited := by
      by_contra htv
      rcases hstop with hdone | hpq
      · exact htv (hinv.done_eq.mp hdone)
      · have := hinv.core.hasmin t k htv hk
        rw [hpq] at this
        exact absurd this (List.not_mem_nil _)
    obtain ⟨m, hm, hopt⟩ := hinv.core.settled_opt t htvis
    have hkm : k = m := by
      rw [hk] at hm
      exact_mod_cast Option.some_injective _ hm
    refine ⟨hkm ▸ hopt, ?_, hinv.done_eq.mpr htvis⟩
    intro hts
    exact hinv.core.chain_inv t k hts hk
  · intro hout hts
    have hd : (dijkstraLoop N walls s t (5 * N * N + 10)
        (dijkstraInit N s)).dist t = none :=
      (hinv.core.dist_dom t).mpr ⟨hout, hts⟩
    refine ⟨hd, ?_⟩
    by_contra hp
    exact hout (hinv.core.prev_dom t hp)
  · exact hinv.core.prev_dom
  · intro htop
    by_contra hdt
    have hdone : (dijkstraLoop N walls s t (5 * N * N + 10)
        (dijkstraInit N s)).done = true := by
      cases hdn : (dijkstraLoop N walls s t (5 * N * N + 10)
          (dijkstraInit N s)).done
      · exact absurd hdn hdt
      · rfl
    have htvis := hinv.done_eq.mp hdone
    obtain ⟨m, hm, _⟩ := hinv.core.settled_opt t htvis
    rw [htop] at hm
    have : (⊤ : WithTop Nat) = (↑m : WithTop Nat) := Option.some_injective _ hm
    exact WithTop.coe_ne_top this.symm
  · intro hin
    cases hv : (dijkstraLoop N walls s t (5 * N * N + 10)
        (dijkstraInit N s)).dist t with
    | none =>
      exact absurd hin ((hinv.core.dist_dom t).mp hv).1
    | some v =>
      cases v with
      | top =>
        left
        rfl
      | coe k =>
        right
        exact ⟨k, rfl⟩

/-- Full characterization of dijkstra away from its short-circuit, for an
in-bounds target: success mirrors pathFound, the callback trace covers every
expanded cell except the start (the target included), and the reported path
length is the exact shortest walk length. -/
theorem dijkstra_spec (N : Nat) (s t : Pos) (walls : List Pos) (hst : s ≠ t)
    (hin : inB N t) :
    ∃ r, dijkstra N s t walls = some r ∧
      (r.pathFound = true ↔ Reachable N walls s t) ∧
      (r.pathFound = true → IsShortest N walls s t r.pathLength) ∧
      (r.pathFound = false → r.path = [] ∧ r.pathLength = 0) ∧
      r.success = r.pathFound ∧
      r.visitTrace = (r.expanded.filter (fun c => decide (c ≠ s))).map reparse ∧
      r.expanded.Nodup ∧
      (r.pathFound = true → r.expanded.getLast? = some t) ∧
      r.visitedCount = r.expanded.length ∧
      r.path.length = r.pathLength := by
  obtain ⟨σ, hσ, hiff, hfin, hoob, hpdom, htrace, hnodup, hcount, hlast,
    htopdone, hcases⟩ := dijkstra_core N s t walls
  subst hσ
  set σ := dijkstraLoop N walls s t (5 * N * N + 10) (dijkstraInit N s) with hσdef
  by_cases htop : σ.dist t = some ⊤
  · refine ⟨⟨false, [], σ.visitedCount, 0, false, σ.visitTrace, σ.expanded⟩,
      ?_, ?_, ?_, ?_, rfl, htrace, hnodup, ?_, hcount, rfl⟩
    · show (if s = t then _ else _) = _
      rw [if_neg hst]
      show (if σ.dist t = some ⊤ then _ else _) = _
      rw [if_pos htop]
    · constructor
      · intro h
        cases h
      · intro hr
        exact absurd htop ((hiff hin).mpr hr)
    · intro h
      cases h
    · intro _
      exact ⟨rfl, rfl⟩
    · intro h
      cases h
  · rcases hcases hin with htop' | ⟨k, hk⟩
    · exact absurd htop' htop
    obtain ⟨hshort, hchain, hdone⟩ := hfin k hk
    have hchain' := hchain (fun h => hst h.symm)
    have hbound : k < N * N + 2 := chain_bound hpdom hchain'
    obtain ⟨l, hrec, hlen⟩ := reconstruct_chain hchain' (N * N + 2) hbound
    refine ⟨⟨true, l, σ.visitedCount, l.length, true, σ.visitTrace, σ.expanded⟩,
      ?_, ?_, ?_, ?_, rfl, htrace, hnodup, ?_, hcount, rfl⟩
    · show (if s = t then _ else _) = _
      rw [if_neg hst]
      show (if σ.dist t = some ⊤ then _ else _) = _
      rw [if_neg htop, hrec]
    · constructor
      · intro _
        exact ⟨k, hshort.1⟩
      · intro _
        rfl
    · intro _
      show IsShortest N walls s t l.length
      rw [hlen]
      exact hshort
    · intro h
      cases h
    · intro _
      exact hlast hdone

/-- With an out-of-bounds target and distinct endpoints, the source's
`distances[target] !== Infinity` test compares undefined, evaluates to true,
and the reconstruction loop walks a broken parent chain: the run crashes,
modelled as `none`. -/
theorem dijkstra_crash (N : Nat) (s t : Pos) (walls : List Pos) (hst : s ≠ t)
    (hout : ¬ inB N t) : dijkstra N s t walls = none := by
  obtain ⟨σ, hσ, hiff, hfin, hoob, hpdom, htrace, hnodup, hcount, hlast,
    htopdone, hcases⟩ := dijkstra_core N s t walls
  subst hσ
  set σ := dijkstraLoop N walls s t (5 * N * N + 10) (dijkstraInit N s) with hσdef
  obtain ⟨hdt, hpt⟩ := hoob hout (fun h => hst h.symm)
  show (if s = t then _ else _) = _
  rw [if_neg hst]
  show (if σ.dist t = some ⊤ then _ else _) = _
  rw [if_neg (by rw [hdt]; intro h; cases h)]
  have hrec : reconstructPath σ.prev s (N * N + 2) t = none := by
    have h2 : N * N + 2 = (N * N + 1) + 1 := rfl
    rw [h2, reconstructPath, if_neg (fun h => hst h.symm), hpt]
  rw [hrec]

/-! Manhattan distance on the wall-free grid. -/

/-- The Manhattan distance between two cells. -/
def manhattanDist (p q : Pos) : Nat :=
  (p.row - q.row).natAbs + (p.col - q.col).natAbs

/-- The end of a walk is the start or an in-bounds cell. -/
theorem walk_end_inB {N : Nat} {walls : List Pos} {s u : Pos} {n : Nat}
    (h : WalkLen N walls s u n) : u = s ∨ inB N u := by
  cases h with
  | nil => exact Or.inl rfl
  | cons _ _ hb _ => exact Or.inr hb

/-- On the wall-free grid a staircase walk of exactly the Manhattan distance
exists between any two in-bounds cells. -/
theorem walk_manhattan_exists {N : Nat} {s : Pos} (hs : inB N s) :
    ∀ (n : Nat) (t : Pos), inB N t → manhattanDist s t = n →
      WalkLen N [] s t n := by
  intro n
  induction n with
  | zero =>
    intro t ht hman
    have hts : t = s := by
      obtain ⟨tr, tc⟩ := t
      obtain ⟨sr, sc⟩ := s
      unfold manhattanDist at hman
      dsimp only at hman
      simp only [Pos.mk.injEq]
      constructor <;> omega
    rw [hts]
    exact WalkLen.nil
  | succ n ih =>
    intro t ht hman
    by_cases hrow : s.row ≠ t.row
    · set u : Pos := ⟨t.row + (if s.row < t.row then -1 else 1), t.col⟩ with hu
      have hinu : inB N u := by
        obtain ⟨h1, h2, h3, h4⟩ := hs
        obtain ⟨h5, h6, h7, h8⟩ := ht
        refine ⟨?_, ?_, h7, h8⟩ <;> rw [hu] <;> dsimp only <;> split_ifs <;> omega
      have hmanu : manhattanDist s u = n := by
        unfold manhattanDist at hman ⊢
        rw [hu]
        dsimp only
        split_ifs <;> omega
      have hadj : adjP (reparse u) t := by
        rw [reparse_id_inB hinu]
        unfold adjP
        rw [hu]
        dsimp only
        split_ifs <;> omega
      exact WalkLen.cons (ih u hinu hmanu) hadj ht (List.not_mem_nil t)
    · rw [not_not] at hrow
      have hcol : s.col ≠ t.col := by
        intro hc
        unfold manhattanDist at hman
        rw [hrow, hc] at hman
        simp at hman
      set u : Pos := ⟨t.row, t.col + (if s.col < t.col then -1 else 1)⟩ with hu
      have hinu : inB N u := by
        obtain ⟨h1, h2, h3, h4⟩ := hs
        obtain ⟨h5, h6, h7, h8⟩ := ht
        refine ⟨h5, h6, ?_, ?_⟩ <;> rw [hu] <;> dsimp only <;> split_ifs <;> omega
      have hmanu : manhattanDist s u = n := by
        unfold manhattanDist at hman ⊢
        rw [hu]
        dsimp only
        split_ifs <;> omega
      have hadj : adjP (reparse u) t := by
        rw [reparse_id_inB hinu]
        unfold adjP
        rw [hu]
        dsimp only
        split_ifs <;> omega
      exact WalkLen.cons (ih u hinu hmanu) hadj ht (List.not_mem_nil t)

/-- Every walk is at least as long as the Manhattan distance it spans. -/
theorem walk_manhattan_le {N : Nat} {walls : List Pos} {s : Pos} (hs : inB N s) :
    ∀ {t : Pos} {n : Nat}, WalkLen N walls s t n → manhattanDist s t ≤ n := by
  intro t n h
  induction h with
  | nil =>
    unfold manhattanDist
    omega
  | @cons u v n hu hadj hb hw ih =>
    have hue : reparse u = u := by
      rcases walk_end_inB hu with rfl | hinu
      · exact reparse_id_inB hs
      · exact reparse_id_inB hinu
    rw [hue] at hadj
    unfold manhattanDist at ih ⊢
    unfold adjP at hadj
    omega

/-! Correctness of the frontier maze generator. -/

/-- Junction cells of the generator: both coordinates odd. -/
def primJunction (p : Pos) : Prop := p.row % 2 = 1 ∧ p.col % 2 = 1

/-- Wall-breaking cells of the generator: exactly one coordinate odd. -/
def primBetween (p : Pos) : Prop :=
  (p.row % 2 = 1 ∧ p.col % 2 = 0) ∨ (p.row % 2 = 0 ∧ p.col % 2 = 1)

/-- Canonical orientation of an adjacent pair. -/
def orderedPair (x q : Pos) : Pos × Pos :=
  if x.row < q.row ∨ (x.row = q.row ∧ x.col < q.col) then (x, q) else (q, x)

/-- The canonically oriented adjacent pairs inside a cell set: one element
per edge of its 4-adjacency graph. -/
def adjPairs (S : Finset Pos) : Finset (Pos × Pos) :=
  (S ×ˢ S).filter fun q => adjP q.1 q.2 ∧
    (q.1.row < q.2.row ∨ (q.1.row = q.2.row ∧ q.1.col < q.2.col))

/-- Connectivity inside a cell set, from a root. -/
inductive ConnIn (S : Finset Pos) (root : Pos) : Pos → Prop where
  | base : root ∈ S → ConnIn S root root
  | step {u v : Pos} : ConnIn S root u → v ∈ S → adjP u v → ConnIn S root v

/-- Adjacency is symmetric. -/
theorem adjP_symm {p q : Pos} (h : adjP p q) : adjP q p := by
  unfold adjP at h ⊢
  omega

/-- No cell is adjacent to itself. -/
theorem adjP_irrefl (p : Pos) : ¬ adjP p p := by
  unfold adjP
  omega

/-- Connectivity is monotone in the cell set. -/
theorem connIn_mono {S T : Finset Pos} (hsub : S ⊆ T) {root p : Pos}
    (h : ConnIn S root p) : ConnIn T root p := by
  induction h with
  | base hr => exact ConnIn.base (hsub hr)
  | step _ hv hadj ih => exact ConnIn.step ih (hsub hv) hadj

/-- The fetched list element is a member. -/
theorem getD_mem {l : List Pos} {i : Nat} (h : i < l.length) (d : Pos) :
    l.getD i d ∈ l := by
  rw [List.getD_eq_getElem l d h]
  exact l.getElem_mem h

/-- Removing the fetched index of a duplicate-free list removes its value. -/
theorem nodup_eraseIdx_not_mem {l : List Pos} (hnd : l.Nodup) :
    ∀ {i : Nat}, i < l.length → l.getD i ⟨0, 0⟩ ∉ l.eraseIdx i := by
  induction l with
  | nil =>
    intro i h
    simp at h
  | cons a l ih =>
    intro i h
    cases i with
    | zero =>
      rw [List.getD_cons_zero, List.eraseIdx_cons_zero]
      exact (List.nodup_cons.mp hnd).1
    | succ i =>
      rw [List.getD_cons_succ, List.eraseIdx_cons_succ]
      intro hmem
      rw [List.mem_cons] at hmem
      rcases hmem with heq | hmem
      · have hin : l.getD i ⟨0, 0⟩ ∈ l := by
          refine getD_mem ?_ _
          rw [List.length_cons] at h
          omega
        rw [heq] at hin
        exact (List.nodup_cons.mp hnd).1 hin
      · refine ih (List.nodup_cons.mp hnd).2 ?_ hmem
        rw [List.length_cons] at h
        omega

/-- Inserting a new cell adds exactly one oriented pair per adjacent cell
already present. -/
theorem adjPairs_insert_card {S : Finset Pos} {x : Pos} (hx : x ∉ S) :
    (adjPairs (insert x S)).card =
      (adjPairs S).card + (S.filter (fun q => adjP x q)).card := by
  have hset : adjPairs (insert x S) =
      adjPairs S ∪ (S.filter (fun q => adjP x q)).image (orderedPair x) := by
    ext ⟨a, b⟩
    unfold adjPairs orderedPair
    simp only [Finset.mem_union, Finset.mem_filter, Finset.mem_product,
      Finset.mem_insert, Finset.mem_image]
    constructor
    · rintro ⟨⟨ha, hb⟩, hadj, hord⟩
      rcases ha with rfl | ha
      · rcases hb with hb | hb
        · subst hb
          exfalso
          unfold adjP at hadj
          omega
        · right
          refine ⟨b, ⟨hb, hadj⟩, ?_⟩
          rw [if_pos hord]
      · rcases hb with hb | hb
        · subst hb
          right
          refine ⟨a, ⟨ha, adjP_symm hadj⟩, ?_⟩
          have hord' : a.row < b.row ∨ (a.row = b.row ∧ a.col < b.col) := hord
          have hno : ¬ (b.row < a.row ∨ (b.row = a.row ∧ b.col < a.col)) := by
            omega
          rw [if_neg hno]
        · left
          exact ⟨⟨ha, hb⟩, hadj, hord⟩
    · rintro (⟨⟨ha, hb⟩, hadj, hord⟩ | ⟨q, ⟨hq, hadj⟩, hpair⟩)
      · exact ⟨⟨Or.inr ha, Or.inr hb⟩, hadj, hord⟩
      · split_ifs at hpair with hord
        · obtain ⟨hax, hbq⟩ := Prod.mk.injEq _ _ _ _ ▸ hpair
          subst hax
          subst hbq
          exact ⟨⟨Or.inl rfl, Or.inr hq⟩, hadj, hord⟩
        · obtain ⟨haq, hbx⟩ := Prod.mk.injEq _ _ _ _ ▸ hpair
          subst haq
          subst hbx
          refine ⟨⟨Or.inr hq, Or.inl rfl⟩, adjP_symm hadj, ?_⟩
          unfold adjP at hadj
          omega
  rw [hset, Finset.card_union_of_disjoint, Finset.card_image_of_injOn]
  · intro q1 hq1 q2 hq2 heq
    rw [Finset.coe_filter, Set.mem_setOf_eq] at hq1 hq2
    unfold orderedPair at heq
    split_ifs at heq with h1 h2 h3
    · exact (Prod.mk.injEq _ _ _ _ ▸ heq).2
    · obtain ⟨hxq, hq1x⟩ := Prod.mk.injEq _ _ _ _ ▸ heq
      exfalso
      rw [← hq1x] at hq1
      exact adjP_irrefl q1 (hq1x ▸ hq1.2)
    · obtain ⟨hq1x, hxq⟩ := Prod.mk.injEq _ _ _ _ ▸ heq
      exfalso
      rw [hq1x] at hq1
      exact adjP_irrefl x hq1.2
    · exact (Prod.mk.injEq _ _ _ _ ▸ heq).1
  · rw [Finset.disjoint_left]
    rintro ⟨a, b⟩ hab habi
    unfold adjPairs at hab
    rw [Finset.mem_filter, Finset.mem_product] at hab
    dsimp only at hab
    rw [Finset.mem_image] at habi
    obtain ⟨q, hq, hpair⟩ := habi
    unfold orderedPair at hpair
    split_ifs at hpair with hord
    · obtain ⟨hax, _⟩ := Prod.mk.injEq _ _ _ _ ▸ hpair
      rw [hax] at hx
      exact hx hab.1.1
    · obtain ⟨_, hbx⟩ := Prod.mk.injEq _ _ _ _ ▸ hpair
      rw [hbx] at hx
      exact hx hab.1.2

/-- Extensionality for cells. -/
theorem pos_ext {p q : Pos} (h1 : p.row = q.row) (h2 : p.col = q.col) : p = q := by
  obtain ⟨a, b⟩ := p
  obtain ⟨c, d⟩ := q
  dsimp only at h1 h2
  rw [h1, h2]

/-- Extensionality for a cell literal. -/
theorem pos_lit_eq {r c : Int} {q : Pos} (h1 : r = q.row) (h2 : c = q.col) :
    (⟨r, c⟩ : Pos) = q := by
  obtain ⟨a, b⟩ := q
  dsimp only at h1 h2
  rw [h1, h2]

/-- An unsettled junction has no carved neighbor: each of its unit neighbors
is a wall-breaking cell whose carving would have required the junction itself
to be carved. -/
theorem junction_deg {V : Finset Pos} {cell : Pos}
    (hrow_ends : ∀ b ∈ V, b.row % 2 = 0 →
      (⟨b.row - 1, b.col⟩ : Pos) ∈ V ∧ (⟨b.row + 1, b.col⟩ : Pos) ∈ V)
    (hcol_ends : ∀ b ∈ V, b.col % 2 = 0 →
      (⟨b.row, b.col - 1⟩ : Pos) ∈ V ∧ (⟨b.row, b.col + 1⟩ : Pos) ∈ V)
    (hcellj : primJunction cell) (hcnv : cell ∉ V) :
    V.filter (fun q => adjP cell q) = ∅ := by
  rw [Finset.eq_empty_iff_forall_not_mem]
  intro q hq
  rw [Finset.mem_filter] at hq
  obtain ⟨hqv, hadj⟩ := hq
  unfold adjP at hadj
  obtain ⟨hcr, hcc⟩ := hcellj
  by_cases hr : q.row = cell.row
  · have hcol_even : q.col % 2 = 0 := by omega
    obtain ⟨h1, h2⟩ := hcol_ends q hqv hcol_even
    by_cases hc1 : cell.col = q.col - 1
    · have he : (⟨q.row, q.col - 1⟩ : Pos) = cell := pos_lit_eq (by omega) (by omega)
      rw [he] at h1
      exact hcnv h1
    · have hc2 : cell.col = q.col + 1 := by omega
      have he : (⟨q.row, q.col + 1⟩ : Pos) = cell := pos_lit_eq (by omega) (by omega)
      rw [he] at h2
      exact hcnv h2
  · have hrow_even : q.row % 2 = 0 := by omega
    obtain ⟨h1, h2⟩ := hrow_ends q hqv hrow_even
    by_cases hc1 : cell.row = q.row - 1
    · have he : (⟨q.row - 1, q.col⟩ : Pos) = cell := pos_lit_eq (by omega) (by omega)
      rw [he] at h1
      exact hcnv h1
    · have hc2 : cell.row = q.row + 1 := by omega
      have he : (⟨q.row + 1, q.col⟩ : Pos) = cell := pos_lit_eq (by omega) (by omega)
      rw [he] at h2
      exact hcnv h2

/-- The wall cell midway between an unsettled junction and a carved one is
itself uncarved. -/
theorem wall_not_mem {V : Finset Pos} {cell wall : Pos}
    (hrow_ends : ∀ b ∈ V, b.row % 2 = 0 →
      (⟨b.row - 1, b.col⟩ : Pos) ∈ V ∧ (⟨b.row + 1, b.col⟩ : Pos) ∈ V)
    (hcol_ends : ∀ b ∈ V, b.col % 2 = 0 →
      (⟨b.row, b.col - 1⟩ : Pos) ∈ V ∧ (⟨b.row, b.col + 1⟩ : Pos) ∈ V)
    (hcellj : primJunction cell) (hcnv : cell ∉ V)
    (hwd : (wall.row = cell.row - 1 ∧ wall.col = cell.col) ∨
      (wall.row = cell.row + 1 ∧ wall.col = cell.col) ∨
      (wall.row = cell.row ∧ wall.col = cell.col - 1) ∨
      (wall.row = cell.row ∧ wall.col = cell.col + 1)) :
    wall ∉ V := by
  intro hwv
  obtain ⟨hcr, hcc⟩ := hcellj
  rcases hwd with ⟨h1, h2⟩ | ⟨h1, h2⟩ | ⟨h1, h2⟩ | ⟨h1, h2⟩
  · obtain ⟨ha, hb⟩ := hrow_ends wall hwv (by omega)
    have he : (⟨wall.row + 1, wall.col⟩ : Pos) = cell := pos_lit_eq (by omega) (by omega)
    rw [he] at hb
    exact hcnv hb
  · obtain ⟨ha, hb⟩ := hrow_ends wall hwv (by omega)
    have he : (⟨wall.row - 1, wall.col⟩ : Pos) = cell := pos_lit_eq (by omega) (by omega)
    rw [he] at ha
    exact hcnv ha
  · obtain ⟨ha, hb⟩ := hcol_ends wall hwv (by omega)
    have he : (⟨wall.row, wall.col + 1⟩ : Pos) = cell := pos_lit_eq (by omega) (by omega)
    rw [he] at hb
    exact hcnv hb
  · obtain ⟨ha, hb⟩ := hcol_ends wall hwv (by omega)
    have he : (⟨wall.row, wall.col - 1⟩ : Pos) = cell := pos_lit_eq (by omega) (by omega)
    rw [he] at ha
    exact hcnv ha

/-- The carved neighbors of the new wall cell are exactly the junction being
carved and its chosen carved neighbor. -/
theorem wall_deg {V : Finset Pos} {cell nb wall : Pos}
    (hvpar : ∀ p ∈ V, primJunction p ∨ primBetween p)
    (hcellj : primJunction cell) (hcnv : cell ∉ V) (hnbv : nb ∈ V)
    (hnbd : (nb.row = cell.row - 2 ∧ nb.col = cell.col) ∨
      (nb.row = cell.row + 2 ∧ nb.col = cell.col) ∨
      (nb.row = cell.row ∧ nb.col = cell.col - 2) ∨
      (nb.row = cell.row ∧ nb.col = cell.col + 2))
    (hwd : (wall.row = cell.row - 1 ∧ wall.col = cell.col) ∨
      (wall.row = cell.row + 1 ∧ wall.col = cell.col) ∨
      (wall.row = cell.row ∧ wall.col = cell.col - 1) ∨
      (wall.row = cell.row ∧ wall.col = cell.col + 1))
    (hmid : wall.row * 2 = cell.row + nb.row ∧ wall.col * 2 = cell.col + nb.col) :
    (insert cell V).filter (fun q => adjP wall q) = {cell, nb} := by
  obtain ⟨hcr, hcc⟩ := hcellj
  ext q
  rw [Finset.mem_filter, Finset.mem_insert, Finset.mem_insert,
    Finset.mem_singleton]
  constructor
  · rintro ⟨hq, hadj⟩
    unfold adjP at hadj
    rcases hq with rfl | hqv
    · exact Or.inl rfl
    · -- q is carved and adjacent to the wall cell
      by_cases hqr : q.row = wall.row
      · -- columns differ by one
        rcases hwd with ⟨h1, h2⟩ | ⟨h1, h2⟩ | ⟨h1, h2⟩ | ⟨h1, h2⟩
        · -- wall is vertical (even row): the horizontal neighbors are
          -- even-even cells, impossible for carved cells
          exfalso
          rcases hvpar q hqv with ⟨ha, hb⟩ | ⟨ha, hb⟩ | ⟨ha, hb⟩ <;> omega
        · exfalso
          rcases hvpar q hqv with ⟨ha, hb⟩ | ⟨ha, hb⟩ | ⟨ha, hb⟩ <;> omega
        · by_cases hqc : q.col = cell.col
          · exfalso
            have he : q = cell := pos_ext (by omega) (by omega)
            rw [he] at hqv
            exact hcnv hqv
          · right
            refine pos_ext ?_ ?_ <;> omega
        · by_cases hqc : q.col = cell.col
          · exfalso
            have he : q = cell := pos_ext (by omega) (by omega)
            rw [he] at hqv
            exact hcnv hqv
          · right
            refine pos_ext ?_ ?_ <;> omega
      · -- rows differ by one
        rcases hwd with ⟨h1, h2⟩ | ⟨h1, h2⟩ | ⟨h1, h2⟩ | ⟨h1, h2⟩
        · by_cases hqc : q.row = cell.row
          · exfalso
            have he : q = cell := pos_ext (by omega) (by omega)
            rw [he] at hqv
            exact hcnv hqv
          · right
            refine pos_ext ?_ ?_ <;> omega
        · by_cases hqc : q.row = cell.row
          · exfalso
            have he : q = cell := pos_ext (by omega) (by omega)
            rw [he] at hqv
            exact hcnv hqv
          · right
            refine pos_ext ?_ ?_ <;> omega
        · exfalso
          rcases hvpar q hqv with ⟨ha, hb⟩ | ⟨ha, hb⟩ | ⟨ha, hb⟩ <;> omega
        · exfalso
          rcases hvpar q hqv with ⟨ha, hb⟩ | ⟨ha, hb⟩ | ⟨ha, hb⟩ <;> omega
  · intro hq
    rcases hq with rfl | rfl
    · refine ⟨Or.inl rfl, ?_⟩
      unfold adjP
      rcases hwd with ⟨h1, h2⟩ | ⟨h1, h2⟩ | ⟨h1, h2⟩ | ⟨h1, h2⟩ <;> omega
    · refine ⟨Or.inr hnbv, ?_⟩
      unfold adjP
      rcases hwd with ⟨h1, h2⟩ | ⟨h1, h2⟩ | ⟨h1, h2⟩ | ⟨h1, h2⟩ <;> omega

/-- A single cell spans no adjacent pair. -/
theorem adjPairs_singleton (p : Pos) : adjPairs {p} = ∅ := by
  ext q
  unfold adjPairs
  simp only [Finset.mem_filter, Finset.mem_product, Finset.mem_singleton,
    Finset.not_mem_empty, iff_false, not_and]
  intro ⟨h1, h2⟩ _
  rw [h1, h2]
  omega

/-- Carving a junction and its connecting wall cell adds exactly two cells
and exactly two adjacent pairs. -/
theorem carve_edges {V : Finset Pos} {cell nb wall : Pos}
    (hvpar : ∀ p ∈ V, primJunction p ∨ primBetween p)
    (hrow_ends : ∀ b ∈ V, b.row % 2 = 0 →
      (⟨b.row - 1, b.col⟩ : Pos) ∈ V ∧ (⟨b.row + 1, b.col⟩ : Pos) ∈ V)
    (hcol_ends : ∀ b ∈ V, b.col % 2 = 0 →
      (⟨b.row, b.col - 1⟩ : Pos) ∈ V ∧ (⟨b.row, b.col + 1⟩ : Pos) ∈ V)
    (hcellj : primJunction cell) (hcnv : cell ∉ V) (hnbv : nb ∈ V)
    (hnbd : (nb.row = cell.row - 2 ∧ nb.col = cell.col) ∨
      (nb.row = cell.row + 2 ∧ nb.col = cell.col) ∨
      (nb.row = cell.row ∧ nb.col = cell.col - 2) ∨
      (nb.row = cell.row ∧ nb.col = cell.col + 2))
    (hwd : (wall.row = cell.row - 1 ∧ wall.col = cell.col) ∨
      (wall.row = cell.row + 1 ∧ wall.col = cell.col) ∨
      (wall.row = cell.row ∧ wall.col = cell.col - 1) ∨
      (wall.row = cell.row ∧ wall.col = cell.col + 1))
    (hmid : wall.row * 2 = cell.row + nb.row ∧ wall.col * 2 = cell.col + nb.col) :
    (adjPairs (insert wall (insert cell V))).card = (adjPairs V).card + 2 ∧
    (insert wall (insert cell V)).card = V.card + 2 ∧
    wall ∉ V ∧ wall ≠ cell := by
  have hwnv : wall ∉ V := wall_not_mem hrow_ends hcol_ends hcellj hcnv hwd
  have hwnc : wall ≠ cell := by
    intro h
    rw [h] at hwd
    rcases hwd with ⟨ha, hb⟩ | ⟨ha, hb⟩ | ⟨ha, hb⟩ | ⟨ha, hb⟩ <;> omega
  have hcnb : cell ≠ nb := by
    intro h
    rw [← h] at hnbd
    rcases hnbd with ⟨ha, hb⟩ | ⟨ha, hb⟩ | ⟨ha, hb⟩ | ⟨ha, hb⟩ <;> omega
  have hwni : wall ∉ insert cell V := by
    rw [Finset.mem_insert]
    rintro (h | h)
    · exact hwnc h
    · exact hwnv h
  have h1 := adjPairs_insert_card hcnv
  rw [junction_deg hrow_ends hcol_ends hcellj hcnv, Finset.card_empty] at h1
  have h2 := adjPairs_insert_card hwni
  rw [wall_deg hvpar hcellj hcnv hnbv hnbd hwd hmid] at h2
  have hcard2 : ({cell, nb} : Finset Pos).card = 2 := by
    rw [Finset.card_insert_of_not_mem (by rw [Finset.mem_singleton]; exact hcnb),
      Finset.card_singleton]
  refine ⟨?_, ?_, hwnv, hwnc⟩
  · rw [h2, hcard2, h1]
  · rw [Finset.card_insert_of_not_mem hwni, Finset.card_insert_of_not_mem hcnv]

/-- The carved set stays connected through the new wall cell. -/
theorem carve_conn {V : Finset Pos} {cell nb wall root : Pos}
    (hconn : ∀ p ∈ V, ConnIn V root p) (hnbv : nb ∈ V)
    (hadj1 : adjP nb wall) (hadj2 : adjP wall cell) :
    ∀ p ∈ insert wall (insert cell V),
      ConnIn (insert wall (insert cell V)) root p := by
  intro p hp
  have hsub : V ⊆ insert wall (insert cell V) := fun x hx =>
    Finset.mem_insert_of_mem (Finset.mem_insert_of_mem hx)
  have hwmem : wall ∈ insert wall (insert cell V) := Finset.mem_insert_self _ _
  have hcmem : cell ∈ insert wall (insert cell V) :=
    Finset.mem_insert_of_mem (Finset.mem_insert_self _ _)
  have hwconn : ConnIn (insert wall (insert cell V)) root wall :=
    ConnIn.step (connIn_mono hsub (hconn nb hnbv)) hwmem hadj1
  have hcconn : ConnIn (insert wall (insert cell V)) root cell :=
    ConnIn.step hwconn hcmem hadj2
  rw [Finset.mem_insert, Finset.mem_insert] at hp
  rcases hp with rfl | rfl | hp
  · exact hwconn
  · exact hcconn
  · exact connIn_mono hsub (hconn p hp)

/-- Invariant of the generateMazeWithPrims loop state: the carved set is a
tree of junction and wall-breaking cells strictly inside the border,
connected to the seed, with each wall-breaking cell joining its two carved
junction ends; frontier candidates are uncarved interior junctions, listed
once each. -/
structure PrimInv (N : Nat) (st : PrimState) : Prop where
  vis_par : ∀ p ∈ st.visited, primJunction p ∨ primBetween p
  vis_int : ∀ p ∈ st.visited,
    0 < p.row ∧ p.row < (N : Int) - 1 ∧ 0 < p.col ∧ p.col < (N : Int) - 1
  start_mem : (⟨1, 1⟩ : Pos) ∈ st.visited
  conn : ∀ p ∈ st.visited, ConnIn st.visited ⟨1, 1⟩ p
  edges : (adjPairs st.visited).card + 1 = st.visited.card
  row_ends : ∀ b ∈ st.visited, b.row % 2 = 0 →
    (⟨b.row - 1, b.col⟩ : Pos) ∈ st.visited ∧
    (⟨b.row + 1, b.col⟩ : Pos) ∈ st.visited
  col_ends : ∀ b ∈ st.visited, b.col % 2 = 0 →
    (⟨b.row, b.col - 1⟩ : Pos) ∈ st.visited ∧
    (⟨b.row, b.col + 1⟩ : Pos) ∈ st.visited
  front_junc : ∀ p ∈ st.frontierCells, primJunction p ∧
    0 < p.row ∧ p.row < (N : Int) - 1 ∧ 0 < p.col ∧ p.col < (N : Int) - 1
  front_unvis : ∀ p ∈ st.frontierCells, p ∉ st.visited
  front_nodup : st.frontierCells.Nodup

/-- One probe of addNeighborsToFrontier, as a named function. -/
def addFrontierStep (N : Nat) (row col : Int) (acc : PrimState)
    (d : Int × Int) : PrimState :=
  let nr := row + d.1
  let nc := col + d.2
  if nr > 0 ∧ nr < (N : Int) - 1 ∧ nc > 0 ∧ nc < (N : Int) - 1 then
    if (⟨nr, nc⟩ : Pos) ∉ acc.visited ∧
        ¬ acc.frontierCells.any (fun q => q.row = nr ∧ q.col = nc) then
      { acc with frontierCells := acc.frontierCells ++ [⟨nr, nc⟩] }
    else acc
  else acc

/-- addNeighborsToFrontier is the fold of its probe. -/
theorem addNeighborsToFrontier_eq (N : Nat) (row col : Int) (st : PrimState) :
    addNeighborsToFrontier N row col st =
      primOffsets.foldl (addFrontierStep N row col) st := rfl

/-- The four generator offsets are even in both coordinates. -/
theorem primOffsets_even : ∀ d ∈ primOffsets, d.1 % 2 = 0 ∧ d.2 % 2 = 0 := by
  intro d hd
  fin_cases hd <;> exact ⟨by decide, by decide⟩

/-- One frontier probe from a carved junction preserves the invariant and
only ever appends one uncarved interior junction not yet listed. -/
theorem addFrontierStep_pres {N : Nat} {row col : Int} (hrow : row % 2 = 1)
    (hcol : col % 2 = 1) {st : PrimState} (hinv : PrimInv N st) (d : Int × Int)
    (hd : d.1 % 2 = 0 ∧ d.2 % 2 = 0) :
    PrimInv N (addFrontierStep N row col st d) ∧
    (addFrontierStep N row col st d).visited = st.visited ∧
    (addFrontierStep N row col st d).choices = st.choices ∧
    (addFrontierStep N row col st d).generationSteps = st.generationSteps := by
  unfold addFrontierStep
  dsimp only
  split_ifs with h1 h2
  · have hnotin : (⟨row + d.1, col + d.2⟩ : Pos) ∉ st.frontierCells := by
      intro hmem
      apply h2.2
      rw [List.any_eq_true]
      refine ⟨⟨row + d.1, col + d.2⟩, hmem, ?_⟩
      simp
    refine ⟨⟨hinv.vis_par, hinv.vis_int, hinv.start_mem, hinv.conn, hinv.edges,
      hinv.row_ends, hinv.col_ends, ?_, ?_, ?_⟩, rfl, rfl, rfl⟩
    · intro p hp
      have hp' : p ∈ st.frontierCells ++ [(⟨row + d.1, col + d.2⟩ : Pos)] := hp
      rw [List.mem_append, List.mem_singleton] at hp'
      rcases hp' with hp' | rfl
      · exact hinv.front_junc p hp'
      · exact ⟨⟨by show (row + d.1) % 2 = 1; omega,
          by show (col + d.2) % 2 = 1; omega⟩,
          h1.1, h1.2.1, h1.2.2.1, h1.2.2.2⟩
    · intro p hp
      have hp' : p ∈ st.frontierCells ++ [(⟨row + d.1, col + d.2⟩ : Pos)] := hp
      rw [List.mem_append, List.mem_singleton] at hp'
      rcases hp' with hp' | rfl
      · exact hinv.front_unvis p hp'
      · exact h2.1
    · show (st.frontierCells ++ [(⟨row + d.1, col + d.2⟩ : Pos)]).Nodup
      rw [List.nodup_append]
      refine ⟨hinv.front_nodup, List.nodup_singleton _, ?_⟩
      intro a ha hax
      rw [List.mem_singleton] at hax
      rw [hax] at ha
      exact hnotin ha
  · exact ⟨hinv, rfl, rfl, rfl⟩
  · exact ⟨hinv, rfl, rfl, rfl⟩

/-- Folding frontier probes from a carved junction preserves the invariant. -/
theorem addFrontier_fold_pres {N : Nat} {row col : Int} (hrow : row % 2 = 1)
    (hcol : col % 2 = 1) :
    ∀ (ds : List (Int × Int)) (st : PrimState),
    (∀ d ∈ ds, d.1 % 2 = 0 ∧ d.2 % 2 = 0) → PrimInv N st →
    PrimInv N (ds.foldl (addFrontierStep N row col) st) ∧
    (ds.foldl (addFrontierStep N row col) st).visited = st.visited ∧
    (ds.foldl (addFrontierStep N row col) st).choices = st.choices ∧
    (ds.foldl (addFrontierStep N row col) st).generationSteps =
      st.generationSteps := by
  intro ds
  induction ds with
  | nil =>
    intro st _ hinv
    exact ⟨hinv, rfl, rfl, rfl⟩
  | cons d ds ih =>
    intro st hds hinv
    rw [List.foldl_cons]
    obtain ⟨h1, h2, h3, h4⟩ :=
      addFrontierStep_pres hrow hcol hinv d (hds d (List.mem_cons_self d ds))
    obtain ⟨g1, g2, g3, g4⟩ := ih (addFrontierStep N row col st d)
      (fun x hx => hds x (List.mem_cons_of_mem d hx)) h1
    exact ⟨g1, by rw [g2, h2], by rw [g3, h3], by rw [g4, h4]⟩

/-- addNeighborsToFrontier from a carved junction preserves the invariant. -/
theorem addFrontier_pres {N : Nat} {row col : Int} (hrow : row % 2 = 1)
    (hcol : col % 2 = 1) {st : PrimState} (hinv : PrimInv N st) :
    PrimInv N (addNeighborsToFrontier N row col st) ∧
    (addNeighborsToFrontier N row col st).visited = st.visited ∧
    (addNeighborsToFrontier N row col st).choices = st.choices ∧
    (addNeighborsToFrontier N row col st).generationSteps =
      st.generationSteps := by
  rw [addNeighborsToFrontier_eq]
  exact addFrontier_fold_pres hrow hcol primOffsets st primOffsets_even hinv

/-- One generator iteration preserves the invariant. -/
theorem primsStep_pres {N : Nat} {st : PrimState} (hinv : PrimInv N st) :
    PrimInv N (primsStep N st) := by
  by_cases hfc : st.frontierCells = []
  · have hstep : primsStep N st = st := by
      unfold primsStep
      rw [if_pos hfc]
    rw [hstep]
    exact hinv
  · have hlen : 0 < st.frontierCells.length := List.length_pos.mpr hfc
    set len := st.frontierCells.length with hlendef
    set idx := st.choices.headD 0 % len with hidxdef
    have hidxlt : idx < len := Nat.mod_lt _ hlen
    set cell := st.frontierCells.getD idx ⟨0, 0⟩ with hcelldef
    have hcellmem : cell ∈ st.frontierCells := getD_mem hidxlt _
    obtain ⟨hcellj, hci1, hci2, hci3, hci4⟩ := hinv.front_junc cell hcellmem
    have hcnv : cell ∉ st.visited := hinv.front_unvis cell hcellmem
    set frontier1 := st.frontierCells.eraseIdx idx with hf1def
    have hf1sub : ∀ p ∈ frontier1, p ∈ st.frontierCells := fun p hp =>
      List.mem_of_mem_eraseIdx hp
    have hf1nodup : frontier1.Nodup := List.Pairwise.eraseIdx idx hinv.front_nodup
    have hcellnf1 : cell ∉ frontier1 := nodup_eraseIdx_not_mem hinv.front_nodup hidxlt
    set vns := (primOffsets.map fun d => (⟨cell.row + d.1, cell.col + d.2⟩ : Pos)).filter
        (fun q => 0 ≤ q.row ∧ q.row < (N : Int) ∧ 0 ≤ q.col ∧ q.col < (N : Int) ∧
          q ∈ st.visited) with hvnsdef
    by_cases hvns : vns = []
    · have hstep : primsStep N st =
          { st with frontierCells := frontier1, choices := st.choices.tail } := by
        unfold primsStep
        rw [if_neg hfc]
        dsimp only
        rw [← hlendef, ← hidxdef, ← hcelldef, ← hf1def, ← hvnsdef, if_pos hvns]
      rw [hstep]
      refine ⟨hinv.vis_par, hinv.vis_int, hinv.start_mem, hinv.conn, hinv.edges,
        hinv.row_ends, hinv.col_ends, ?_, ?_, hf1nodup⟩
      · exact fun p hp => hinv.front_junc p (hf1sub p hp)
      · exact fun p hp => hinv.front_unvis p (hf1sub p hp)
    · set nb := vns.getD (st.choices.tail.headD 0 % vns.length) ⟨0, 0⟩ with hnbdef
      set wall : Pos := ⟨(cell.row + nb.row) / 2, (cell.col + nb.col) / 2⟩ with hwalldef
      have hstep : primsStep N st = addNeighborsToFrontier N cell.row cell.col
          { st with
            visited := insert wall (insert cell st.visited)
            frontierCells := frontier1
            choices := st.choices.tail.tail
            generationSteps := st.generationSteps + 1 } := by
        unfold primsStep
        rw [if_neg hfc]
        dsimp only
        rw [← hlendef, ← hidxdef, ← hcelldef, ← hf1def, ← hvnsdef, if_neg hvns,
          ← hnbdef, ← hwalldef]
      have hnbmem : nb ∈ vns := by
        rw [hnbdef]
        exact getD_mem (Nat.mod_lt _ (List.length_pos.mpr hvns)) _
      rw [hvnsdef, List.mem_filter] at hnbmem
      obtain ⟨hmap, hpred⟩ := hnbmem
      rw [decide_eq_true_eq] at hpred
      obtain ⟨hb1, hb2, hb3, hb4, hnbv⟩ := hpred
      rw [List.mem_map] at hmap
      obtain ⟨d, hd, hdeq⟩ := hmap
      have hnbd : (nb.row = cell.row - 2 ∧ nb.col = cell.col) ∨
          (nb.row = cell.row + 2 ∧ nb.col = cell.col) ∨
          (nb.row = cell.row ∧ nb.col = cell.col - 2) ∨
          (nb.row = cell.row ∧ nb.col = cell.col + 2) := by
        fin_cases hd
        · refine Or.inl ⟨?_, ?_⟩ <;> rw [← hdeq] <;> dsimp only <;> omega
        · refine Or.inr (Or.inl ⟨?_, ?_⟩) <;> rw [← hdeq] <;> dsimp only <;> omega
        · refine Or.inr (Or.inr (Or.inl ⟨?_, ?_⟩)) <;> rw [← hdeq] <;> dsimp only <;>
            omega
        · refine Or.inr (Or.inr (Or.inr ⟨?_, ?_⟩)) <;> rw [← hdeq] <;> dsimp only <;>
            omega
      have hmid : wall.row * 2 = cell.row + nb.row ∧
          wall.col * 2 = cell.col + nb.col := by
        rw [hwalldef]
        dsimp only
        constructor <;>
          rcases hnbd with ⟨h1, h2⟩ | ⟨h1, h2⟩ | ⟨h1, h2⟩ | ⟨h1, h2⟩ <;> omega
      have hwd : (wall.row = cell.row - 1 ∧ wall.col = cell.col) ∨
          (wall.row = cell.row + 1 ∧ wall.col = cell.col) ∨
          (wall.row = cell.row ∧ wall.col = cell.col - 1) ∨
          (wall.row = cell.row ∧ wall.col = cell.col + 1) := by
        obtain ⟨hm1, hm2⟩ := hmid
        rcases hnbd with ⟨h1, h2⟩ | ⟨h1, h2⟩ | ⟨h1, h2⟩ | ⟨h1, h2⟩
        · exact Or.inl ⟨by omega, by omega⟩
        · exact Or.inr (Or.inl ⟨by omega, by omega⟩)
        · exact Or.inr (Or.inr (Or.inl ⟨by omega, by omega⟩))
        · exact Or.inr (Or.inr (Or.inr ⟨by omega, by omega⟩))
      obtain ⟨hedges, hcard, hwnv, hwnc⟩ := carve_edges hinv.vis_par hinv.row_ends
        hinv.col_ends hcellj hcnv hnbv hnbd hwd hmid
      have hadj1 : adjP nb wall := by
        unfold adjP
        obtain ⟨hm1, hm2⟩ := hmid
        rcases hnbd with ⟨h1, h2⟩ | ⟨h1, h2⟩ | ⟨h1, h2⟩ | ⟨h1, h2⟩ <;> omega
      have hadj2 : adjP wall cell := by
        unfold adjP
        rcases hwd with ⟨h1, h2⟩ | ⟨h1, h2⟩ | ⟨h1, h2⟩ | ⟨h1, h2⟩ <;> omega
      have hconn' := carve_conn hinv.conn hnbv hadj1 hadj2
      obtain ⟨hn1, hn2, hn3, hn4⟩ := hinv.vis_int nb hnbv
      have hwall_int : 0 < wall.row ∧ wall.row < (N : Int) - 1 ∧
          0 < wall.col ∧ wall.col < (N : Int) - 1 := by
        rcases hwd with ⟨h1, h2⟩ | ⟨h1, h2⟩ | ⟨h1, h2⟩ | ⟨h1, h2⟩ <;>
          exact ⟨by omega, by omega, by omega, by omega⟩
      obtain ⟨hcr, hcc⟩ := hcellj
      have hwall_bet : primBetween wall := by
        unfold primBetween
        rcases hwd with ⟨h1, h2⟩ | ⟨h1, h2⟩ | ⟨h1, h2⟩ | ⟨h1, h2⟩
        · exact Or.inr ⟨by omega, by omega⟩
        · exact Or.inr ⟨by omega, by omega⟩
        · exact Or.inl ⟨by omega, by omega⟩
        · exact Or.inl ⟨by omega, by omega⟩
      have hst2 : PrimInv N
          { st with
            visited := insert wall (insert cell st.visited)
            frontierCells := frontier1
            choices := st.choices.tail.tail
            generationSteps := st.generationSteps + 1 } := by
        refine ⟨?_, ?_, ?_, hconn', ?_, ?_, ?_, ?_, ?_, hf1nodup⟩
        · intro p hp
          rw [Finset.mem_insert, Finset.mem_insert] at hp
          rcases hp with rfl | rfl | hp
          · exact Or.inr hwall_bet
          · exact Or.inl ⟨hcr, hcc⟩
          · exact hinv.vis_par p hp
        · intro p hp
          rw [Finset.mem_insert, Finset.mem_insert] at hp
          rcases hp with rfl | rfl | hp
          · exact hwall_int
          · exact ⟨hci1, hci2, hci3, hci4⟩
          · exact hinv.vis_int p hp
        · exact Finset.mem_insert_of_mem (Finset.mem_insert_of_mem hinv.start_mem)
        · show (adjPairs (insert wall (insert cell st.visited))).card + 1 =
            (insert wall (insert cell st.visited)).card
          rw [hedges, hcard]
          have := hinv.edges
          omega
        · intro b hb hbrow
          rw [Finset.mem_insert, Finset.mem_insert] at hb
          rcases hb with rfl | rfl | hb
          · rcases hwd with ⟨h1, h2⟩ | ⟨h1, h2⟩ | ⟨h1, h2⟩ | ⟨h1, h2⟩
            · constructor
              · have he : (⟨wall.row - 1, wall.col⟩ : Pos) = nb := pos_lit_eq
                  (by rcases hnbd with ⟨g1, g2⟩ | ⟨g1, g2⟩ | ⟨g1, g2⟩ | ⟨g1, g2⟩ <;> omega)
                  (by rcases hnbd with ⟨g1, g2⟩ | ⟨g1, g2⟩ | ⟨g1, g2⟩ | ⟨g1, g2⟩ <;> omega)
                rw [he]
                exact Finset.mem_insert_of_mem (Finset.mem_insert_of_mem hnbv)
              · have he : (⟨wall.row + 1, wall.col⟩ : Pos) = cell := pos_lit_eq
                  (by omega) (by omega)
                rw [he]
                exact Finset.mem_insert_of_mem (Finset.mem_insert_self _ _)
            · constructor
              · have he : (⟨wall.row - 1, wall.col⟩ : Pos) = cell := pos_lit_eq
                  (by omega) (by omega)
                rw [he]
                exact Finset.mem_insert_of_mem (Finset.mem_insert_self _ _)
              · have he : (⟨wall.row + 1, wall.col⟩ : Pos) = nb := pos_lit_eq
                  (by rcases hnbd with ⟨g1, g2⟩ | ⟨g1, g2⟩ | ⟨g1, g2⟩ | ⟨g1, g2⟩ <;> omega)
                  (by rcases hnbd with ⟨g1, g2⟩ | ⟨g1, g2⟩ | ⟨g1, g2⟩ | ⟨g1, g2⟩ <;> omega)
                rw [he]
                exact Finset.mem_insert_of_mem (Finset.mem_insert_of_mem hnbv)
            · exfalso
              omega
            · exfalso
              omega
          · exfalso
            omega
          · obtain ⟨ha, hb'⟩ := hinv.row_ends b hb hbrow
            exact ⟨Finset.mem_insert_of_mem (Finset.mem_insert_of_mem ha),
              Finset.mem_insert_of_mem (Finset.mem_insert_of_mem hb')⟩
        · intro b hb hbcol
          rw [Finset.mem_insert, Finset.mem_insert] at hb
          rcases hb with rfl | rfl | hb
          · rcases hwd with ⟨h1, h2⟩ | ⟨h1, h2⟩ | ⟨h1, h2⟩ | ⟨h1, h2⟩
            · exfalso
              omega
            · exfalso
              omega
            · constructor
              · have he : (⟨wall.row, wall.col - 1⟩ : Pos) = nb := pos_lit_eq
                  (by rcases hnbd with ⟨g1, g2⟩ | ⟨g1, g2⟩ | ⟨g1, g2⟩ | ⟨g1, g2⟩ <;> omega)
                  (by rcases hnbd with ⟨g1, g2⟩ | ⟨g1, g2⟩ | ⟨g1, g2⟩ | ⟨g1, g2⟩ <;> omega)
                rw [he]
                exact Finset.mem_insert_of_mem (Finset.mem_insert_of_mem hnbv)
              · have he : (⟨wall.row, wall.col + 1⟩ : Pos) = cell := pos_lit_eq
                  (by omega) (by omega)
                rw [he]
                exact Finset.mem_insert_of_mem (Finset.mem_insert_self _ _)
            · constructor
              · have he : (⟨wall.row, wall.col - 1⟩ : Pos) = cell := pos_lit_eq
                  (by omega) (by omega)
                rw [he]
                exact Finset.mem_insert_of_mem (Finset.mem_insert_self _ _)
              · have he : (⟨wall.row, wall.col + 1⟩ : Pos) = nb := pos_lit_eq
                  (by rcases hnbd with ⟨g1, g2⟩ | ⟨g1, g2⟩ | ⟨g1, g2⟩ | ⟨g1, g2⟩ <;> omega)
                  (by rcases hnbd with ⟨g1, g2⟩ | ⟨g1, g2⟩ | ⟨g1, g2⟩ | ⟨g1, g2⟩ <;> omega)
                rw [he]
                exact Finset.mem_insert_of_mem (Finset.mem_insert_of_mem hnbv)
          · exfalso
            omega
          · obtain ⟨ha, hb'⟩ := hinv.col_ends b hb hbcol
            exact ⟨Finset.mem_insert_of_mem (Finset.mem_insert_of_mem ha),
              Finset.mem_insert_of_mem (Finset.mem_insert_of_mem hb')⟩
        · exact fun p hp => hinv.front_junc p (hf1sub p hp)
        · intro p hp
          obtain ⟨⟨hpr, hpc⟩, _, _, _, _⟩ := hinv.front_junc p (hf1sub p hp)
          rw [Finset.mem_insert, Finset.mem_insert]
          rintro (rfl | rfl | hpv)
          · unfold primBetween at hwall_bet
            rcases hwall_bet with ⟨g1, g2⟩ | ⟨g1, g2⟩ <;> omega
          · exact hcellnf1 hp
          · exact hinv.front_unvis p (hf1sub p hp) hpv
      rw [hstep]
      exact (addFrontier_pres hcr hcc hst2).1

/-- The generator loop preserves the invariant for any fuel. -/
theorem primsLoop_pres {N : Nat} : ∀ (fuel : Nat) (st : PrimState),
    PrimInv N st → PrimInv N (primsLoop N fuel st) := by
  intro fuel
  induction fuel with
  | zero =>
    intro st h
    exact h
  | succ f ih =>
    intro st h
    rw [primsLoop]
    cases hfc : st.frontierCells with
    | nil => exact h
    | cons a l => exact ih _ (primsStep_pres h)

/-- The seeded start state satisfies the invariant. -/
theorem primInv_start {N : Nat} (hN : 3 ≤ N) (choices : List Nat) :
    PrimInv N (⟨{(⟨1, 1⟩ : Pos)}, [], choices, 0⟩ : PrimState) := by
  refine ⟨?_, ?_, ?_, ?_, ?_, ?_, ?_, ?_, ?_, List.nodup_nil⟩
  · intro p hp
    rw [Finset.mem_singleton] at hp
    subst hp
    exact Or.inl ⟨by decide, by decide⟩
  · intro p hp
    rw [Finset.mem_singleton] at hp
    subst hp
    refine ⟨?_, ?_, ?_, ?_⟩ <;> dsimp only <;> omega
  · exact Finset.mem_singleton.mpr rfl
  · intro p hp
    rw [Finset.mem_singleton] at hp
    subst hp
    exact ConnIn.base (Finset.mem_singleton.mpr rfl)
  · rw [adjPairs_singleton, Finset.card_empty, Finset.card_singleton]
  · intro b hb hbrow
    rw [Finset.mem_singleton] at hb
    subst hb
    exact absurd hbrow (by decide)
  · intro b hb hbcol
    rw [Finset.mem_singleton] at hb
    subst hb
    exact absurd hbcol (by decide)
  · intro p hp
    exact absurd hp (List.not_mem_nil p)
  · intro p hp
    exact absurd hp (List.not_mem_nil p)

/-- The state the generator ends in satisfies the invariant. -/
theorem prims_invariant (N : Nat) (hN : 3 ≤ N) (choices : List Nat) :
    ∃ st, primsLoop N (5 * N * N + 5)
      (addNeighborsToFrontier N 1 1 ⟨{(⟨1, 1⟩ : Pos)}, [], choices, 0⟩) = st ∧
      PrimInv N st := by
  refine ⟨_, rfl, ?_⟩
  exact primsLoop_pres _ _
    (addFrontier_pres (by decide) (by decide) (primInv_start hN choices)).1

/-- The maze carved by generateMazeWithPrims is a spanning tree of its
carved-cell set: the wall set is exactly the uncarved grid cells, the carved
cells are all connected to the seed, and they span exactly carvedCount - 1
adjacent pairs. -/
theorem generateMazeWithPrims_tree (N : Nat) (hN : 3 ≤ N) (choices : List Nat) :
    ∃ V : Finset Pos,
      (generateMazeWithPrims N choices).walls =
        (gridCells N).filter (fun c => c ∉ V) ∧
      (gridCells N).filter
        (fun c => c ∉ (generateMazeWithPrims N choices).walls) = V ∧
      (generateMazeWithPrims N choices).visitedCells = V.card ∧
      (⟨1, 1⟩ : Pos) ∈ V ∧
      (∀ p ∈ V, ConnIn V ⟨1, 1⟩ p) ∧
      (adjPairs V).card + 1 = V.card := by
  obtain ⟨st, hst, hinv⟩ := prims_invariant N hN choices
  have hwalls : (generateMazeWithPrims N choices).walls =
      (gridCells N).filter (fun c => c ∉ st.visited) := by
    have hrfl : (generateMazeWithPrims N choices).walls =
        (gridCells N).filter (fun c => c ∉ (primsLoop N (5 * N * N + 5)
          (addNeighborsToFrontier N 1 1 ⟨{(⟨1, 1⟩ : Pos)}, [], choices, 0⟩)).visited) :=
      rfl
    rw [hrfl, hst]
  have hcells : (generateMazeWithPrims N choices).visitedCells =
      st.visited.card := by
    have hrfl : (generateMazeWithPrims N choices).visitedCells =
        (primsLoop N (5 * N * N + 5)
          (addNeighborsToFrontier N 1 1 ⟨{(⟨1, 1⟩ : Pos)}, [], choices, 0⟩)).visited.card :=
      rfl
    rw [hrfl, hst]
  refine ⟨st.visited, hwalls, ?_, hcells, hinv.start_mem, hinv.conn, hinv.edges⟩
  rw [hwalls]
  ext c
  simp only [Finset.mem_filter]
  constructor
  · rintro ⟨hg, hn⟩
    by_contra hcv
    exact hn ⟨hg, hcv⟩
  · intro hv
    obtain ⟨h1, h2, h3, h4⟩ := hinv.vis_int c hv
    refine ⟨mem_gridCells.mpr ⟨by omega, by omega, by omega, by omega⟩, ?_⟩
    intro hcontra
    exact hcontra.2 hv

/-- Every border cell of the grid ends up in the generated wall set: carving
only ever marks strictly interior cells. -/
theorem generateMazeWithPrims_border (N : Nat) (hN : 3 ≤ N) (choices : List Nat)
    (p : Pos) (hp : inB N p)
    (hb : p.row = 0 ∨ p.row = (N : Int) - 1 ∨ p.col = 0 ∨ p.col = (N : Int) - 1) :
    p ∈ (generateMazeWithPrims N choices).walls := by
  obtain ⟨st, hst, hinv⟩ := prims_invariant N hN choices
  have hwalls : (generateMazeWithPrims N choices).walls =
      (gridCells N).filter (fun c => c ∉ st.visited) := by
    have hrfl : (generateMazeWithPrims N choices).walls =
        (gridCells N).filter (fun c => c ∉ (primsLoop N (5 * N * N + 5)
          (addNeighborsToFrontier N 1 1 ⟨{(⟨1, 1⟩ : Pos)}, [], choices, 0⟩)).visited) :=
      rfl
    rw [hrfl, hst]
  rw [hwalls, Finset.mem_filter]
  refine ⟨mem_gridCells.mpr hp, ?_⟩
  intro hv
  obtain ⟨h1, h2, h3, h4⟩ := hinv.vis_int p hv
  rcases hb with hb | hb | hb | hb <;> omega

/-- The end of a walk is the start or an open cell. -/
theorem walk_end_open {N : Nat} {walls : List Pos} {s u : Pos} {n : Nat}
    (h : WalkLen N walls s u n) : u = s ∨ (inB N u ∧ u ∉ walls) := by
  cases h with
  | nil => exact Or.inl rfl
  | cons _ _ hb hw => exact Or.inr ⟨hb, hw⟩

/-- A cell whose four neighbors are all walls cannot be reached from any
other cell. -/
theorem no_walk_to_sealed {N : Nat} {walls : List Pos} {s t : Pos}
    (hne : t ≠ s) (hsw : reparse s ∉ walls)
    (hnb : ∀ d ∈ bfsDirections, moveP t d ∈ walls) :
    ¬ Reachable N walls s t := by
  rintro ⟨m, hw⟩
  cases hw with
  | nil => exact hne rfl
  | @cons u v n hu hadj hb hnw =>
    obtain ⟨d, hd, hmv⟩ := adjP_iff_move.mp (adjP_symm hadj)
    have hmem : moveP t d ∈ walls := hnb d hd
    rw [← hmv] at hmem
    rcases walk_end_open hu with rfl | ⟨hinu, hounw⟩
    · exact hsw hmem
    · rw [reparse_id_inB hinu] at hmem
      exact hounw hmem

/-- Membership after laying one horizontal wall line. -/
theorem mem_createHorizontalWall {x wallY passage : Nat} {walls : Finset Pos}
    {p : Pos} : ∀ {width : Nat},
    p ∈ createHorizontalWall x wallY width passage walls ↔
      (p ∈ walls ∨ ∃ i, i < width ∧ x + i ≠ passage ∧
        p = ⟨(wallY : Int), ((x + i : Nat) : Int)⟩) := by
  intro width
  induction width with
  | zero =>
    unfold createHorizontalWall
    simp
  | succ w ih =>
    unfold createHorizontalWall at ih ⊢
    rw [List.range_succ, List.foldl_append, List.foldl_cons, List.foldl_nil]
    dsimp only
    split_ifs with hc
    · rw [Finset.mem_insert]
      constructor
      · rintro (rfl | hmem)
        · exact Or.inr ⟨w, by omega, hc, rfl⟩
        · rcases ih.mp hmem with hmem | ⟨i, hi, hne, heq⟩
          · exact Or.inl hmem
          · exact Or.inr ⟨i, by omega, hne, heq⟩
      · rintro (hmem | ⟨i, hi, hne, heq⟩)
        · exact Or.inr (ih.mpr (Or.inl hmem))
        · by_cases hiw : i = w
          · subst hiw
            exact Or.inl heq
          · exact Or.inr (ih.mpr (Or.inr ⟨i, by omega, hne, heq⟩))
    · constructor
      · intro hmem
        rcases ih.mp hmem with hmem | ⟨i, hi, hne, heq⟩
        · exact Or.inl hmem
        · exact Or.inr ⟨i, by omega, hne, heq⟩
      · rintro (hmem | ⟨i, hi, hne, heq⟩)
        · exact ih.mpr (Or.inl hmem)
        · by_cases hiw : i = w
          · subst hiw
            exact absurd hne hc
          · exact ih.mpr (Or.inr ⟨i, by omega, hne, heq⟩)

/-- At creation time, a dividing wall line keeps exactly one open cell: the
passage. -/
theorem createHorizontalWall_one_passage {x wallY width passage : Nat}
    {walls : Finset Pos} {j : Nat} (hj : j < width) (hpass : passage = x + j)
    (hfresh : ∀ i, i < width →
      (⟨(wallY : Int), ((x + i : Nat) : Int)⟩ : Pos) ∉ walls) :
    ∀ i, i < width →
      ((⟨(wallY : Int), ((x + i : Nat) : Int)⟩ : Pos) ∉
        createHorizontalWall x wallY width passage walls ↔ i = j) := by
  intro i hi
  rw [mem_createHorizontalWall]
  constructor
  · intro hno
    by_contra hij
    apply hno
    right
    refine ⟨i, hi, ?_, rfl⟩
    omega
  · rintro rfl hmem
    rcases hmem with hmem | ⟨i', hi', hne, heq⟩
    · exact hfresh i hi hmem
    · have : x + i = x + i' := by
        have := (Pos.mk.injEq _ _ _ _ ▸ heq).2
        exact_mod_cast this
      omega

/-- Wall creation only adds cells. -/
theorem createHorizontalWall_mono {x wallY width passage : Nat}
    {walls : Finset Pos} :
    walls ⊆ createHorizontalWall x wallY width passage walls := by
  intro p hp
  rw [mem_createHorizontalWall]
  exact Or.inl hp

/-- Vertical wall creation only adds cells. -/
theorem createVerticalWall_mono {wallCol startRow height passage : Nat}
    {walls : Finset Pos} :
    walls ⊆ createVerticalWall wallCol startRow height passage walls := by
  unfold createVerticalWall
  have hgen : ∀ (l : List Nat) (w : Finset Pos), w ⊆ l.foldl
      (fun w i =>
        let row := startRow + i
        if row ≠ passage then insert (⟨(row : Int), (wallCol : Int)⟩ : Pos) w
        else w) w := by
    intro l
    induction l with
    | nil => intro w; exact Finset.Subset.refl w
    | cons a l ihl =>
      intro w
      rw [List.foldl_cons]
      refine Finset.Subset.trans ?_ (ihl _)
      dsimp only
      split_ifs
      · exact Finset.subset_insert _ w
      · exact Finset.Subset.refl w
  exact hgen _ walls

/-- Division only ever adds walls. -/
theorem recursiveDivide_mono : ∀ (fuel x y width height : Nat)
    (horizontal : Bool) (walls : Finset Pos) (choices : List Nat),
    walls ⊆ (recursiveDivide fuel x y width height horizontal walls choices).1 := by
  intro fuel
  induction fuel with
  | zero =>
    intro x y w h hor walls choices
    exact Finset.Subset.refl walls
  | succ f ih =>
    intro x y w h hor walls choices
    rw [recursiveDivide]
    split_ifs with h1 h2 h3 h4
    · exact Finset.Subset.refl walls
    · exact Finset.Subset.refl walls
    · dsimp only
      refine Finset.Subset.trans ?_ (ih _ _ _ _ _ _ _)
      refine Finset.Subset.trans ?_ (ih _ _ _ _ _ _ _)
      exact createHorizontalWall_mono
    · exact Finset.Subset.refl walls
    · dsimp only
      refine Finset.Subset.trans ?_ (ih _ _ _ _ _ _ _)
      refine Finset.Subset.trans ?_ (ih _ _ _ _ _ _ _)
      exact createVerticalWall_mono

/-- The generated division maze always contains the full border ring. -/
theorem division_border (N : Nat) (choices : List Nat) :
    borderWalls N ⊆ generateMazeWithRecursiveDivision N choices :=
  recursiveDivide_mono _ _ _ _ _ _ _ _

/-- A shortest-walk length is unique. -/
theorem isShortest_unique {N : Nat} {walls : List Pos} {s t : Pos} {a b : Nat}
    (ha : IsShortest N walls s t a) (hb : IsShortest N walls s t b) : a = b :=
  Nat.le_antisymm (ha.2 b hb.1) (hb.2 a ha.1)

/-! The claim theorems.  Each theorem below formalises one claim of the
specification against the embedded algorithms; the counterexample theorems
exhibit the concrete runs on which a claim fails as written. -/

/-- A walled target distinct from the start is unreachable: every walk ends
at the start or at an open cell. -/
theorem not_reachable_wall {N : Nat} {walls : List Pos} {s t : Pos}
    (hst : s ≠ t) (htw : t ∈ walls) : ¬ Reachable N walls s t := by
  rintro ⟨n, hw⟩
  rcases walk_end_open hw with rfl | ⟨_, hnw⟩
  · exact hst rfl
  · exact hnw htw

/-- Booleans that agree on truth are equal. -/
theorem bool_eq_of_iff {a b : Bool} (h : a = true ↔ b = true) : a = b := by
  cases a <;> cases b <;> simp_all

/-- C1 (amended): on equal endpoints every algorithm short-circuits with
pathFound true, visitedCount at most 1 and no onVisit call; but
breadthFirstSearch and depthFirstSearch return the empty path with
pathLength 0 rather than the claimed single-cell path of length 1, which
only depthFirstSearchTopDown and dijkstra return. -/
theorem claim1 (N : Nat) (s : Pos) (walls : List Pos) :
    breadthFirstSearch N s s walls = some ⟨true, [], 1, 0, [], [s]⟩ ∧
    depthFirstSearch N s s walls = some ⟨true, [], 1, 0, [], [s]⟩ ∧
    depthFirstSearchTopDown N s s walls = some ⟨true, [s], 1, 1, true, [], []⟩ ∧
    dijkstra N s s walls = some ⟨true, [s], 1, 1, true, [], []⟩ :=
  ⟨breadthFirstSearch_self N s walls, depthFirstSearch_self N s walls,
   depthFirstSearchTopDown_self N s walls, dijkstra_self N s walls⟩

/-- C1 counterexample: on the 3-grid with both endpoints (1,1),
breadthFirstSearch reports pathFound true but an empty path of length 0,
against the claimed path = [start] with pathLength 1. -/
theorem claim1_counterexample :
    (breadthFirstSearch 3 ⟨1, 1⟩ ⟨1, 1⟩ []).map
      (fun r => (r.pathFound, r.pathLength, r.path)) = some (true, 0, []) := by
  rw [breadthFirstSearch_self]
  rfl

/-- C2 (amended): at creation time a horizontal dividing wall keeps exactly
one open cell among the cells of its line, the passage, provided the line
was previously unwalled.  The claimed consequence, full connectivity of the
whole generated maze, fails: a later division can wall up a passage. -/
theorem claim2 (x wallY width passage : Nat) (walls : Finset Pos) (j : Nat)
    (hj : j < width) (hpass : passage = x + j)
    (hfresh : ∀ i, i < width →
      (⟨(wallY : Int), ((x + i : Nat) : Int)⟩ : Pos) ∉ walls) :
    ((Finset.range width).filter (fun i =>
      (⟨(wallY : Int), ((x + i : Nat) : Int)⟩ : Pos) ∉
        createHorizontalWall x wallY width passage walls)).card = 1 := by
  have hiff := createHorizontalWall_one_passage hj hpass hfresh
  have hset : (Finset.range width).filter (fun i =>
      (⟨(wallY : Int), ((x + i : Nat) : Int)⟩ : Pos) ∉
        createHorizontalWall x wallY width passage walls) = {j} := by
    ext i
    simp only [Finset.mem_filter, Finset.mem_range, Finset.mem_singleton]
    constructor
    · rintro ⟨hi, hno⟩
      exact (hiff i hi).mp hno
    · rintro rfl
      exact ⟨hj, (hiff _ hj).mpr rfl⟩
  rw [hset, Finset.card_singleton]

/-- C2 witness: the wall line at row 2 over columns 1..3 with passage at
column 2 keeps exactly one open cell. -/
theorem claim2_witness :
    (1 : Nat) < 3 ∧ (2 : Nat) = 1 + 1 ∧
    (∀ i, i < 3 →
      (⟨((2 : Nat) : Int), ((1 + i : Nat) : Int)⟩ : Pos) ∉ (∅ : Finset Pos)) ∧
    ((Finset.range 3).filter (fun i =>
      (⟨((2 : Nat) : Int), ((1 + i : Nat) : Int)⟩ : Pos) ∉
        createHorizontalWall 1 2 3 2 ∅)).card = 1 :=
  ⟨by decide, by decide, by decide,
   claim2 1 2 3 2 ∅ 1 (by decide) (by decide) (by decide)⟩

/-- C2 counterexample: with gridSize 7 and random draws [1,2,1,0,1,1] the
generated division maze leaves (1,1) and (3,3) open while all four
neighbors of (3,3) are walls, so no search over non-wall cells reaches
(3,3) from (1,1): the interior is not fully connected. -/
theorem claim2_counterexample :
    (⟨1, 1⟩ : Pos) ∉ generateMazeWithRecursiveDivision 7 [1, 2, 1, 0, 1, 1] ∧
    (⟨3, 3⟩ : Pos) ∉ generateMazeWithRecursiveDivision 7 [1, 2, 1, 0, 1, 1] ∧
    ∀ L : List Pos,
      (∀ p, p ∈ L ↔ p ∈ generateMazeWithRecursiveDivision 7 [1, 2, 1, 0, 1, 1]) →
      ¬ Reachable 7 L ⟨1, 1⟩ ⟨3, 3⟩ := by
  refine ⟨by decide, by decide, ?_⟩
  intro L hL
  refine no_walk_to_sealed (by decide) ?_ ?_
  · intro hmem
    have h11 : (⟨1, 1⟩ : Pos) ∉
        generateMazeWithRecursiveDivision 7 [1, 2, 1, 0, 1, 1] := by decide
    have hrp : reparse (⟨1, 1⟩ : Pos) = ⟨1, 1⟩ := by decide
    rw [hrp] at hmem
    exact h11 ((hL _).mp hmem)
  · intro d hd
    rw [hL]
    exact (by decide : ∀ d ∈ bfsDirections, moveP ⟨3, 3⟩ d ∈
      generateMazeWithRecursiveDivision 7 [1, 2, 1, 0, 1, 1]) d hd

/-- C3 (amended): for distinct endpoints with an in-bounds target, dijkstra
and breadthFirstSearch agree on pathFound and on pathLength; the
start-equals-target case of the claim fails (dijkstra reports 1 where
breadthFirstSearch reports 0). -/
theorem claim3 (N : Nat) (s t : Pos) (walls : List Pos) (hst : s ≠ t)
    (hin : inB N t) :
    ∃ r r', dijkstra N s t walls = some r ∧
      breadthFirstSearch N s t walls = some r' ∧
      r.pathFound = r'.pathFound ∧ r.pathLength = r'.pathLength := by
  obtain ⟨r, hr, hreach, hshort, hnf, -⟩ := dijkstra_spec N s t walls hst hin
  obtain ⟨r', hr', hreach', hshort', hnf', -⟩ := breadthFirstSearch_spec N s t walls
  refine ⟨r, r', hr, hr', bool_eq_of_iff (hreach.trans hreach'.symm), ?_⟩
  by_cases h : Reachable N walls s t
  · exact isShortest_unique (hshort (hreach.mpr h)) (hshort' (hreach'.mpr h))
  · have h1 : r.pathFound = false := by
      cases hpf : r.pathFound
      · rfl
      · exact absurd (hreach.mp hpf) h
    have h2 : r'.pathFound = false := by
      cases hpf : r'.pathFound
      · rfl
      · exact absurd (hreach'.mp hpf) h
    rw [(hnf h1).2, (hnf' h2).2]

/-- C3 witness: dijkstra and breadthFirstSearch agree on the 3-grid from
(0,0) to (2,2). -/
theorem claim3_witness :
    (⟨0, 0⟩ : Pos) ≠ ⟨2, 2⟩ ∧ inB 3 ⟨2, 2⟩ ∧
    ∃ r r', dijkstra 3 ⟨0, 0⟩ ⟨2, 2⟩ [] = some r ∧
      breadthFirstSearch 3 ⟨0, 0⟩ ⟨2, 2⟩ [] = some r' ∧
      r.pathFound = r'.pathFound ∧ r.pathLength = r'.pathLength :=
  ⟨by decide, by decide, claim3 3 ⟨0, 0⟩ ⟨2, 2⟩ [] (by decide) (by decide)⟩

/-- C3 counterexample: on equal endpoints dijkstra reports pathLength 1 but
breadthFirstSearch reports pathLength 0, so the two lengths differ in the
start-equals-target case. -/
theorem claim3_counterexample :
    (dijkstra 3 ⟨1, 1⟩ ⟨1, 1⟩ []).map (fun r => r.pathLength) = some 1 ∧
    (breadthFirstSearch 3 ⟨1, 1⟩ ⟨1, 1⟩ []).map (fun r => r.pathLength) =
      some 0 := by
  rw [dijkstra_self, breadthFirstSearch_self]
  exact ⟨rfl, rfl⟩

/-- C4 (amended): the engines do not refuse to run on invalid endpoints.
With a walled target breadthFirstSearch still runs and returns a graceful
not-found result, and dijkstra with an out-of-bounds target crashes
(modelled as none) instead of reporting a non-exploring failure. -/
theorem claim4 (N : Nat) (s t u : Pos) (walls : List Pos) (htw : t ∈ walls)
    (hst : s ≠ t) (hsu : s ≠ u) (hout : ¬ inB N u) :
    (∃ r, breadthFirstSearch N s t walls = some r ∧ r.pathFound = false ∧
      r.path = [] ∧ r.pathLength = 0) ∧
    dijkstra N s u walls = none := by
  constructor
  · obtain ⟨r, hr, hreach, -, hnf, -⟩ := breadthFirstSearch_spec N s t walls
    have hfalse : r.pathFound = false := by
      cases hpf : r.pathFound
      · rfl
      · exact absurd (hreach.mp hpf) (not_reachable_wall hst htw)
    exact ⟨r, hr, hfalse, (hnf hfalse).1, (hnf hfalse).2⟩
  · exact dijkstra_crash N s u walls hsu hout

/-- C4 witness: start (0,0), walled target (2,2) and out-of-bounds target
(9,9) on the 5-grid. -/
theorem claim4_witness :
    (⟨2, 2⟩ : Pos) ∈ [(⟨2, 2⟩ : Pos)] ∧ (⟨0, 0⟩ : Pos) ≠ ⟨2, 2⟩ ∧
    (⟨0, 0⟩ : Pos) ≠ ⟨9, 9⟩ ∧ ¬ inB 5 ⟨9, 9⟩ ∧
    ((∃ r, breadthFirstSearch 5 ⟨0, 0⟩ ⟨2, 2⟩ [⟨2, 2⟩] = some r ∧
      r.pathFound = false ∧ r.path = [] ∧ r.pathLength = 0) ∧
     dijkstra 5 ⟨0, 0⟩ ⟨9, 9⟩ [⟨2, 2⟩] = none) :=
  ⟨by decide, by decide, by decide, by decide,
   claim4 5 ⟨0, 0⟩ ⟨2, 2⟩ ⟨9, 9⟩ [⟨2, 2⟩] (by decide) (by decide) (by decide)
     (by decide)⟩

/-- C4 counterexample: with start (0,0) and walled target (2,2) on the
5-grid, breadthFirstSearch does not refuse to run: it expands 24 cells and
issues onVisit calls (nonempty visit trace) before reporting pathFound
false; and dijkstra with the out-of-bounds target (9,9) crashes (none)
rather than failing without exploring. -/
theorem claim4_counterexample :
    (breadthFirstSearch 5 ⟨0, 0⟩ ⟨2, 2⟩ [⟨2, 2⟩]).map
      (fun r => (r.pathFound, r.visitedCount, decide (r.visitTrace ≠ []))) =
      some (false, 24, true) ∧
    dijkstra 5 ⟨0, 0⟩ ⟨9, 9⟩ [] = none := by
  constructor
  · decide
  · exact dijkstra_crash 5 ⟨0, 0⟩ ⟨9, 9⟩ [] (by decide) (by decide)

/-- C5: for odd N at least 5, the carved cells of the Prim maze form a
single component connected to the start junction (1,1) whose 4-adjacency
graph is a tree: the number of adjacent carved pairs is carvedCount minus
one, and visitedCells counts the carved set. -/
theorem claim5 (N : Nat) (hodd : N % 2 = 1) (hN : 5 ≤ N)
    (choices : List Nat) :
    ∃ V : Finset Pos,
      (generateMazeWithPrims N choices).walls =
        (gridCells N).filter (fun c => c ∉ V) ∧
      (gridCells N).filter
        (fun c => c ∉ (generateMazeWithPrims N choices).walls) = V ∧
      (generateMazeWithPrims N choices).visitedCells = V.card ∧
      (⟨1, 1⟩ : Pos) ∈ V ∧
      (∀ p ∈ V, ConnIn V ⟨1, 1⟩ p) ∧
      (adjPairs V).card + 1 = V.card :=
  generateMazeWithPrims_tree N (by omega) choices

/-- C5 witness: the 5-grid with no random draws. -/
theorem claim5_witness :
    5 % 2 = 1 ∧ 5 ≤ 5 ∧
    ∃ V : Finset Pos,
      (generateMazeWithPrims 5 []).walls =
        (gridCells 5).filter (fun c => c ∉ V) ∧
      (gridCells 5).filter
        (fun c => c ∉ (generateMazeWithPrims 5 []).walls) = V ∧
      (generateMazeWithPrims 5 []).visitedCells = V.card ∧
      (⟨1, 1⟩ : Pos) ∈ V ∧
      (∀ p ∈ V, ConnIn V ⟨1, 1⟩ p) ∧
      (adjPairs V).card + 1 = V.card :=
  ⟨by decide, by decide, claim5 5 (by decide) (by decide) []⟩

/-- C6 (amended): for breadthFirstSearch and depthFirstSearch the onVisit
trace is the expansion order without the start, but with the last expanded
cell, the target on successful runs, dropped: the callback fires once per
expanded non-start cell except for the target of a successful run, against
the claimed call for the expanded target. -/
theorem claim6 (N : Nat) (s t : Pos) (walls : List Pos) :
    ∃ r r', breadthFirstSearch N s t walls = some r ∧
      depthFirstSearch N s t walls = some r' ∧
      r.visitTrace =
        (if r.pathFound then r.expanded.dropLast else r.expanded).filter
          (fun c => decide (c ≠ s)) ∧
      r.expanded.Nodup ∧
      (r.pathFound = true → r.expanded.getLast? = some t) ∧
      r'.visitTrace =
        (if r'.pathFound then r'.expanded.dropLast else r'.expanded).filter
          (fun c => decide (c ≠ s)) ∧
      r'.expanded.Nodup := by
  obtain ⟨r, hr, -, -, -, -, htr, hnd, hlast, -⟩ :=
    breadthFirstSearch_spec N s t walls
  obtain ⟨r', hr', -, -, -, -, htr', hnd', -⟩ := depthFirstSearch_spec N s t walls
  exact ⟨r, r', hr, hr', htr, hnd, hlast, htr', hnd'⟩

/-- C6 counterexample: on the 2-grid from (0,0) to the adjacent target
(0,1), the target is expanded (it is the last expanded cell) yet receives
no onVisit call: the visit trace is empty. -/
theorem claim6_counterexample :
    (breadthFirstSearch 2 ⟨0, 0⟩ ⟨0, 1⟩ []).map
      (fun r => (r.pathFound, r.expanded.getLast?,
        decide ((⟨0, 1⟩ : Pos) ∈ r.visitTrace))) =
      some (true, some ⟨0, 1⟩, false) := by decide

/-- C7: on a wall-free grid with in-bounds endpoints breadthFirstSearch
succeeds and its pathLength is the Manhattan distance between them; in
particular the 5-grid run from (0,0) to (4,4) reports pathFound true,
pathLength 8 and visitedCount 25. -/
theorem claim7 (N : Nat) (s t : Pos) (hs : inB N s) (ht : inB N t)
    (hst : s ≠ t) :
    (∃ r, breadthFirstSearch N s t [] = some r ∧ r.pathFound = true ∧
      r.pathLength = manhattanDist s t) ∧
    (breadthFirstSearch 5 ⟨0, 0⟩ ⟨4, 4⟩ []).map
      (fun r => (r.pathFound, r.pathLength, r.visitedCount)) =
      some (true, 8, 25) := by
  constructor
  · obtain ⟨r, hr, hreach, hshort, -⟩ := breadthFirstSearch_spec N s t []
    have hwalk : WalkLen N [] s t (manhattanDist s t) :=
      walk_manhattan_exists hs (manhattanDist s t) t ht rfl
    have hfound : r.pathFound = true := hreach.mpr ⟨_, hwalk⟩
    have hsh : IsShortest N [] s t (manhattanDist s t) :=
      ⟨hwalk, fun m hm => walk_manhattan_le hs hm⟩
    exact ⟨r, hr, hfound, isShortest_unique (hshort hfound) hsh⟩
  · decide

/-- C7 witness: the 3-grid from (0,0) to (2,1). -/
theorem claim7_witness :
    inB 3 ⟨0, 0⟩ ∧ inB 3 ⟨2, 1⟩ ∧ (⟨0, 0⟩ : Pos) ≠ ⟨2, 1⟩ ∧
    ((∃ r, breadthFirstSearch 3 ⟨0, 0⟩ ⟨2, 1⟩ [] = some r ∧
      r.pathFound = true ∧ r.pathLength = manhattanDist ⟨0, 0⟩ ⟨2, 1⟩) ∧
     (breadthFirstSearch 5 ⟨0, 0⟩ ⟨4, 4⟩ []).map
      (fun r => (r.pathFound, r.pathLength, r.visitedCount)) =
      some (true, 8, 25)) :=
  ⟨by decide, by decide, by decide,
   claim7 3 ⟨0, 0⟩ ⟨2, 1⟩ (by decide) (by decide) (by decide)⟩

/-- C8: whenever breadthFirstSearch finds a path its pathLength does not
exceed the pathLength depthFirstSearch reports on the same inputs. -/
theorem claim8 (N : Nat) (s t : Pos) (walls : List Pos) :
    ∃ r r', breadthFirstSearch N s t walls = some r ∧
      depthFirstSearch N s t walls = some r' ∧
      (r.pathFound = true → r.pathLength ≤ r'.pathLength) := by
  obtain ⟨r, hr, hreach, hshort, -⟩ := breadthFirstSearch_spec N s t walls
  obtain ⟨r', hr', hreach', hwalk', -⟩ := depthFirstSearch_spec N s t walls
  refine ⟨r, r', hr, hr', fun hpf => ?_⟩
  have hfound' : r'.pathFound = true := hreach'.mpr (hreach.mp hpf)
  exact (hshort hpf).2 _ (hwalk' hfound')

/-- C9 (amended): no cancellation predicate exists in any of the engines,
and the success flag dijkstra and depthFirstSearchTopDown return always
equals pathFound, so the result carries no flag that could distinguish a
cancelled run from a no-path outcome. -/
theorem claim9 (N : Nat) (s t : Pos) (walls : List Pos) (hst : s ≠ t)
    (hin : inB N t) :
    (∃ r, dijkstra N s t walls = some r ∧ r.success = r.pathFound) ∧
    (∃ r', depthFirstSearchTopDown N s t walls = some r' ∧
      r'.success = r'.pathFound) := by
  constructor
  · obtain ⟨r, hr, -, -, -, hsucc, -⟩ := dijkstra_spec N s t walls hst hin
    exact ⟨r, hr, hsucc⟩
  · obtain ⟨r', hr', -, -, -, -, -, -, -, -, hsucc', -⟩ :=
      depthFirstSearchTopDown_spec N s t walls hst
    exact ⟨r', hr', hsucc'⟩

/-- C9 witness: the 3-grid from (0,0) to (2,2). -/
theorem claim9_witness :
    (⟨0, 0⟩ : Pos) ≠ ⟨2, 2⟩ ∧ inB 3 ⟨2, 2⟩ ∧
    ((∃ r, dijkstra 3 ⟨0, 0⟩ ⟨2, 2⟩ [] = some r ∧ r.success = r.pathFound) ∧
     (∃ r', depthFirstSearchTopDown 3 ⟨0, 0⟩ ⟨2, 2⟩ [] = some r' ∧
       r'.success = r'.pathFound)) :=
  ⟨by decide, by decide, claim9 3 ⟨0, 0⟩ ⟨2, 2⟩ [] (by decide) (by decide)⟩

/-- C9 counterexample: a walled-in no-path run of dijkstra ends with
pathFound false and success false, the same flags any failed run carries,
so no distinguishing cancellation flag exists in the result. -/
theorem claim9_counterexample :
    (dijkstra 3 ⟨0, 0⟩ ⟨1, 1⟩ [⟨0, 1⟩, ⟨1, 0⟩, ⟨1, 1⟩]).map
      (fun r => (r.pathFound, r.success)) = some (false, false) := by decide

/-- C10: for every N at least 3, every in-bounds border cell of the Prim
maze is a wall: the generated maze is enclosed by a solid one-cell ring. -/
theorem claim10 (N : Nat) (hN : 3 ≤ N) (choices : List Nat) (p : Pos)
    (hp : inB N p) (hb : p.row = 0 ∨ p.row = (N : Int) - 1 ∨ p.col = 0 ∨
      p.col = (N : Int) - 1) :
    p ∈ (generateMazeWithPrims N choices).walls :=
  generateMazeWithPrims_border N hN choices p hp hb

/-- C10 witness: the border cell (0,1) of the 3-grid. -/
theorem claim10_witness :
    3 ≤ 3 ∧ inB 3 ⟨0, 1⟩ ∧
    ((⟨0, 1⟩ : Pos).row = 0 ∨ (⟨0, 1⟩ : Pos).row = ((3 : Nat) : Int) - 1 ∨
      (⟨0, 1⟩ : Pos).col = 0 ∨ (⟨0, 1⟩ : Pos).col = ((3 : Nat) : Int) - 1) ∧
    (⟨0, 1⟩ : Pos) ∈ (generateMazeWithPrims 3 []).walls :=
  ⟨by decide, by decide, by decide,
   claim10 3 (by decide) [] ⟨0, 1⟩ (by decide) (by decide)⟩
